import Mathlib

/-! # Delegated-proof-of-stake epoch election engine

A shallow embedding of `consensus/dpos/epoch_context.go` (`countVotes`,
`kickoutValidator`, `lookupValidator`, `sortableAddresses`) and of
`EpochContext.tryElect` from `consensus/dpos/api.go`, followed by theorems
about them.

Conventions of the embedding.

* Go `int64`, `int` (64-bit) and `uint64` values are integers; every conversion
  between them is an explicit two's complement wrap (`toInt64`, `toUint64`,
  `toInt32`).  Go `/` and `%` truncate towards zero (`Int.tdiv`, `Int.tmod`) and
  a zero divisor is a run-time panic.
* A run-time panic (zero divisor, index or slice bound out of range) is the
  outcome `none`; a call that returns is `some` of the returned values together
  with the store it leaves behind.
* `len` of an in-memory slice is far below `2^62`, so sums of a length and a
  64-bit quantity below `2^63` are not wrapped.
* The two methods that only read, `countVotes` and `lookupValidator`, are
  embedded as functions of what the receiver holds and, for their effect on the
  store and the ledger, a second time over a `Memory` in which a `*big.Int` is
  a pointer (`countVotesOn`, `lookupValidatorOn`).
-/

namespace Dpos

/-! ## Machine integers -/

/-- Conversion to Go `int64` (and to `int` on a 64-bit platform). -/
def toInt64 (x : Int) : Int := (x + 2 ^ 63) % 2 ^ 64 - 2 ^ 63

/-- Conversion to Go `uint64`. -/
def toUint64 (x : Int) : Int := x % 2 ^ 64

/-- Conversion to Go `int32`. -/
def toInt32 (x : Int) : Int := (x + 2 ^ 31) % 2 ^ 32 - 2 ^ 31

/-- Go signed 64-bit `a / b`: truncated quotient, `none` (panic) when `b = 0`. -/
def goDiv (a b : Int) : Option Int :=
  if b = 0 then none else some (toInt64 (a.tdiv b))

/-- Go signed 64-bit `a % b`: truncated remainder, `none` (panic) when `b = 0`. -/
def goMod (a b : Int) : Option Int :=
  if b = 0 then none else some (a.tmod b)

/-! ## Data model -/

/-- Modelled from the spec: `common.Address` (package `common` is not among the
sources).  An address is identified by its canonical string form, the value
`Address.String()` returns; distinct addresses have distinct string forms. -/
structure Address where
  str : String
deriving DecidableEq, Repr

/-- Go `s < t` on strings: lexicographic comparison of the two sequences. -/
def strLess : List Char → List Char → Bool
  | [], [] => false
  | [], _ :: _ => true
  | _ :: _, [] => false
  | a :: as, b :: bs =>
    if a < b then true else if b < a then false else strLess as bs

/-- Modelled from the spec: the fields of `types.Header` the engine reads (the
type is not among the sources).  `Time` is a `*big.Int`; `MaxValidatorSize` and
`BlockInterval` are unsigned 64-bit fields (values from `0` to `2^64 - 1`),
which is why the source converts them with `int64(..)` and `int(..)`; `hashSeed`
stands for `binary.LittleEndian.Uint32(crypto.Keccak512(h.Hash().Bytes()))`. -/
structure Header where
  Time : Int
  MaxValidatorSize : Int
  BlockInterval : Int
  hashSeed : Int
deriving DecidableEq, Repr

/-- Errors returned by the engine. -/
inductive Error where
  | noCandidates
  | tooFewCandidates
  | failedToGetValidator
  | noValidatorToKickout
  | invalidMintBlockTime
  | failedToLookupValidator
  | storeError
deriving DecidableEq, Repr

/-- Modelled from the spec: `types.DposContext`, the trie-backed validator state
store (not among the sources), as the ordered, prefix-iterable key/value maps of
the spec's section 6.
* `epochTrie`: the stored validator list; `none` when the epoch trie holds no
  decodable validator entry (a freshly created epoch trie).
* `delegateTrie`: keys `candidate ++ delegator`, in iteration order.
* `candidateTrie`: the Candidates relation, in iteration order.
* `mintCntTrie`: keys `(uint64 epoch, validator)` with the stored 64-bit count.
* `failingDeletes`: candidate keys whose removal the store reports as failed.
* `failingSetValidators`: whether the store reports the validator write as
  failed. -/
structure DposContext where
  epochTrie : Option (List Address)
  delegateTrie : List (Address × Address)
  candidateTrie : List Address
  mintCntTrie : List ((Int × Address) × Int)
  failingDeletes : List Address
  failingSetValidators : Bool
deriving DecidableEq, Repr

/-- Well-formed store: the tries have no repeated key. -/
def DposContext.WF (dc : DposContext) : Prop :=
  dc.candidateTrie.Nodup ∧ dc.delegateTrie.Nodup ∧
    (dc.mintCntTrie.map Prod.fst).Nodup

instance (dc : DposContext) : Decidable dc.WF := by
  unfold DposContext.WF; infer_instance

/-- Modelled from the spec: `DposContext.GetValidators`; fails when no decodable
validator list is stored. -/
def DposContext.GetValidators (dc : DposContext) : Except Error (List Address) :=
  match dc.epochTrie with
  | some vs => .ok vs
  | none => .error .storeError

/-- Modelled from the spec: `DposContext.SetEpoch` applied to the empty trie
`types.NewEpochTrie(common.Hash{}, db)` creates. -/
def DposContext.SetEpoch (dc : DposContext) : DposContext :=
  { dc with epochTrie := none }

/-- Modelled from the spec: `DposContext.SetValidators`, a single logical
replace of the stored validator list, or an error with nothing written. -/
def DposContext.SetValidators (dc : DposContext) (vs : List Address) :
    Option Error × DposContext :=
  if dc.failingSetValidators then (some .storeError, dc)
  else (none, { dc with epochTrie := some vs })

/-- Modelled from the spec: `DposContext.KickoutCandidate` (`RemoveCandidate`),
which removes the address from the Candidates relation or fails with a store
error; removing an address that is not registered succeeds. -/
def DposContext.KickoutCandidate (dc : DposContext) (a : Address) :
    Except Error DposContext :=
  if a ∈ dc.failingDeletes then .error .storeError
  else .ok { dc with candidateTrie := dc.candidateTrie.filter (fun c => c ≠ a) }

/-- Entries of `delegateTrie.PrefixIterator(candidate)`: the delegators recorded
under the candidate prefix, in iteration order. -/
def DposContext.delegatorsOf (dc : DposContext) (candidate : Address) : List Address :=
  (dc.delegateTrie.filter (fun kv => kv.1 = candidate)).map Prod.snd

/-- Entries of `MintCntTrie().PrefixIterator(prefix)` for an 8-byte epoch key. -/
def DposContext.mintCntPrefix (dc : DposContext) (epochKey : Int) :
    List ((Int × Address) × Int) :=
  dc.mintCntTrie.filter (fun kv => kv.1.1 = epochKey)

/-- The value `MintCntTrie().Get(key)` for the key `uint64(epoch) ++ validator`. -/
def DposContext.mintCntGet (dc : DposContext) (epochKey : Int) (validator : Address) :
    Option Int :=
  (dc.mintCntTrie.find? (fun kv => kv.1 = (epochKey, validator))).map Prod.snd

/-- Package-level declarations of `dpos` that are not among the sources:
the constant `epochInterval` and the variable `timeOfFirstBlock`. -/
structure PackageVars where
  epochInterval : Int
  timeOfFirstBlock : Int
deriving DecidableEq, Repr

/-- The receiver `EpochContext`; `statedb` lists the accounts with their
balances, an absent account having balance zero. -/
structure EpochContext where
  TimeStamp : Int
  DposContext : DposContext
  statedb : List (Address × Nat)
deriving DecidableEq, Repr

/-- The balance `statedb.GetBalance(addr)`. -/
def GetBalance (statedb : List (Address × Nat)) (addr : Address) : Nat :=
  match statedb.find? (fun kv => kv.1 = addr) with
  | some kv => kv.2
  | none => 0

/-! ## `sortableAddresses` -/

/-- The element type of `sortableAddresses`. -/
structure sortableAddress where
  address : Address
  weight : Int
deriving DecidableEq, Repr

/-- The comparator `sortableAddresses.Less`, on the two elements it indexes. -/
def Less (a b : sortableAddress) : Bool :=
  if a.weight < b.weight then false
  else if a.weight > b.weight then true
  else strLess a.address.str.toList b.address.str.toList

/-- The order in which `sort.Sort` with `less` leaves two elements: the later
one is not `less` than the earlier one. -/
def sortedBy {α : Type} (less : α → α → Bool) : α → α → Prop :=
  fun a b => less b a = false

instance {α : Type} (less : α → α → Bool) : DecidableRel (sortedBy less) :=
  fun a b => inferInstanceAs (Decidable (less b a = false))

/-- Go `sort.Sort` for a comparator `less`: the elements rearranged so that no
element is `less` than one placed before it. -/
def sortSort {α : Type} (less : α → α → Bool) (l : List α) : List α :=
  l.insertionSort (sortedBy less)

/-- Go `sort.Reverse`: the comparator with its arguments exchanged. -/
def sortReverse {α : Type} (less : α → α → Bool) : α → α → Bool :=
  fun a b => less b a

/-! ## `countVotes` -/

/-- A Go `map[common.Address]*big.Int` as an association list with at most one
entry per key. -/
abbrev Votes := List (Address × Int)

/-- Map read `votes[k]` with its presence flag. -/
def Votes.get (m : Votes) (k : Address) : Option Int :=
  (m.find? (fun kv => kv.1 = k)).map Prod.snd

/-- Map write `votes[k] = v`. -/
def Votes.set : Votes → Address → Int → Votes
  | [], k, v => [(k, v)]
  | kv :: m, k, v => if kv.1 = k then (k, v) :: m else kv :: Votes.set m k v

/-- The inner loop of `countVotes` over the delegators of one candidate. -/
def countVotesDelegators (statedb : List (Address × Nat)) (candidateAddr : Address) :
    List Address → Votes → Votes
  | [], votes => votes
  | delegator :: rest, votes =>
    let score := (votes.get candidateAddr).getD 0
    let weight := GetBalance statedb delegator
    countVotesDelegators statedb candidateAddr rest
      (votes.set candidateAddr (score + weight))

/-- The outer loop of `countVotes` over the candidates. -/
def countVotesLoop (ec : EpochContext) : List Address → Votes → Votes
  | [], votes => votes
  | candidate :: rest, votes =>
    match ec.DposContext.delegatorsOf candidate with
    | [] => countVotesLoop ec rest (votes.set candidate 0)
    | delegator :: ds =>
      countVotesLoop ec rest
        (countVotesDelegators ec.statedb candidate (delegator :: ds) votes)

/-- The method `EpochContext.countVotes`. -/
def countVotes (ec : EpochContext) : Votes × Option Error :=
  match ec.DposContext.candidateTrie with
  | [] => ([], some .noCandidates)
  | candidate :: rest => (countVotesLoop ec (candidate :: rest) [], none)

/-! ## `lookupValidator` -/

/-- The method `EpochContext.lookupValidator`; `none` is a run-time panic.
`int64(validatorSize)` converts an `int` length and changes nothing. -/
def lookupValidator (pk : PackageVars) (ec : EpochContext) (now : Int)
    (blockInterval : Int) : Option (Except Error Address) :=
  match goMod now pk.epochInterval with
  | none => none
  | some offset =>
    match goMod offset (toInt64 blockInterval) with
    | none => none
    | some r =>
      if r ≠ 0 then some (.error .invalidMintBlockTime)
      else
        match goDiv offset (toInt64 blockInterval) with
        | none => none
        | some offset =>
          match ec.DposContext.GetValidators with
          | .error e => some (.error e)
          | .ok validators =>
            if validators.length = 0 then some (.error .failedToLookupValidator)
            else
              match goMod offset validators.length with
              | none => none
              | some offset =>
                if offset < 0 then none
                else
                  match validators[offset.toNat]? with
                  | some v => some (.ok v)
                  | none => none

/-! ## `kickoutValidator` -/

/-- The value `safeSize := int(maxValidatorSize*2/3+1)` of `kickoutValidator`,
computed in unsigned 64-bit arithmetic and then converted. -/
def kickoutSafeSize (genesis : Header) : Int :=
  toInt64 (toUint64 ((toUint64 (genesis.MaxValidatorSize * 2)).tdiv 3 + 1))

/-- The value of `epochDuration` after the first-epoch adjustment. -/
def kickoutEpochDuration (pk : PackageVars) (ec : EpochContext) : Int :=
  if toInt64 (ec.TimeStamp - pk.timeOfFirstBlock) < pk.epochInterval then
    toInt64 (ec.TimeStamp - pk.timeOfFirstBlock)
  else pk.epochInterval

/-- The expression `epochDuration/int64(blockInterval)/int64(maxValidatorSize)/2`;
`none` when a divisor is zero. -/
def kickoutThreshold (epochDuration : Int) (genesis : Header) : Option Int :=
  match goDiv epochDuration (toInt64 genesis.BlockInterval) with
  | none => none
  | some a =>
    match goDiv a (toInt64 genesis.MaxValidatorSize) with
    | none => none
    | some b => goDiv b 2

/-- The value `cnt` read for one validator: the stored count converted to
`int64`, or zero when the trie has no record. -/
def mintCntOf (dc : DposContext) (epoch : Int) (validator : Address) : Int :=
  match dc.mintCntGet (toUint64 epoch) validator with
  | some cntBytes => toInt64 cntBytes
  | none => 0

/-- The loop of `kickoutValidator` that collects `needKickoutValidators`.  The
threshold does not change between iterations and is passed in. -/
def needKickoutLoop (dc : DposContext) (epoch : Int) (threshold : Int) :
    List Address → List sortableAddress → List sortableAddress
  | [], acc => acc
  | validator :: rest, acc =>
    let cnt := mintCntOf dc epoch validator
    if cnt < threshold then
      needKickoutLoop dc epoch threshold rest (acc ++ [⟨validator, cnt⟩])
    else needKickoutLoop dc epoch threshold rest acc

/-- The slice `needKickoutValidators` once the loop over the validators has
finished: the flagged validators with their mint counts; `none` when a divisor
of the threshold is zero. -/
def needKickoutValidators (pk : PackageVars) (ec : EpochContext) (epoch : Int)
    (genesis : Header) (validators : List Address) : Option (List sortableAddress) :=
  match kickoutThreshold (kickoutEpochDuration pk ec) genesis with
  | none => none
  | some threshold => some (needKickoutLoop ec.DposContext epoch threshold validators [])

/-- The counting loop over the candidate trie, with its early `break`. -/
def countCandidates (limit : Int) : List Address → Int → Int
  | [], candidateCount => candidateCount
  | _ :: rest, candidateCount =>
    if candidateCount + 1 ≥ limit then candidateCount + 1
    else countCandidates limit rest (candidateCount + 1)

/-- The eviction loop of `kickoutValidator`. -/
def kickoutLoop (safeSize : Int) :
    List sortableAddress → Int → DposContext → Option Error × DposContext
  | [], _, dc => (none, dc)
  | validator :: rest, candidateCount, dc =>
    if candidateCount ≤ safeSize then (none, dc)
    else
      match dc.KickoutCandidate validator.address with
      | .error e => (some e, dc)
      | .ok dc1 => kickoutLoop safeSize rest (candidateCount - 1) dc1

/-- The method `EpochContext.kickoutValidator`: the returned error and the store
it leaves; `none` is a run-time panic (zero divisor).  The validator list is
non-empty where the threshold is evaluated, so the panic of the first loop
iteration is the panic of the call. -/
def kickoutValidator (pk : PackageVars) (ec : EpochContext) (epoch : Int)
    (genesis : Header) : Option (Option Error × DposContext) :=
  let dc := ec.DposContext
  let safeSize := kickoutSafeSize genesis
  match dc.GetValidators with
  | .error _ => some (some .failedToGetValidator, dc)
  | .ok validators =>
    if validators.length = 0 then some (some .noValidatorToKickout, dc)
    else
      match needKickoutValidators pk ec epoch genesis validators with
      | none => none
      | some needKickout =>
        let needKickoutValidatorCnt : Int := needKickout.length
        if needKickoutValidatorCnt ≤ 0 then some (none, dc)
        else
          let sorted := sortSort (sortReverse Less) needKickout
          let candidateCount :=
            countCandidates (needKickoutValidatorCnt + safeSize) dc.candidateTrie 0
          some (kickoutLoop safeSize sorted candidateCount dc)

/-! ## `tryElect` -/

/-- The pseudo-random generator of Go `math/rand`, which is outside the
repository: `NewSource` seeds a generator state and `Int31n` draws from it. -/
structure Rand (σ : Type) where
  NewSource : Int → σ
  Int31n : σ → Int → Int × σ

/-- The exchange `candidates[i], candidates[j] = candidates[j], candidates[i]`;
`none` when an index is out of range. -/
def swapAt {α : Type} (cs : List α) (i j : Nat) : Option (List α) :=
  match cs[i]?, cs[j]? with
  | some a, some b => some ((cs.set i b).set j a)
  | _, _ => none

/-- The value `int32(i + 1)` for a slice index `i`. -/
def int32OfIndexSucc (i : Nat) : Int :=
  if i + 1 < 2 ^ 31 then ((i + 1 : Nat) : Int) else toInt32 ((i + 1 : Nat) : Int)

/-- The shuffle loop `for i := len(candidates) - 1; i > 0; i--`, started at
index `i`.  `Int31n` panics on an argument that is not positive. -/
def shuffleLoop {σ α : Type} (R : Rand σ) : Nat → σ → List α → Option (List α)
  | 0, _, cs => some cs
  | i + 1, r, cs =>
    let n := int32OfIndexSucc (i + 1)
    if n ≤ 0 then none
    else
      let j := (R.Int31n r n).1
      if j < 0 then none
      else
        match swapAt cs (i + 1) j.toNat with
        | none => none
        | some cs1 => shuffleLoop R i (R.Int31n r n).2 cs1

/-- The value `safeSize := maxValidatorSize*2/3+1` of `tryElect`, computed in
signed 64-bit arithmetic from `int(genesis.MaxValidatorSize)`. -/
def tryElectSafeSize (genesis : Header) : Int :=
  toInt64 (toInt64 ((toInt64 (toInt64 genesis.MaxValidatorSize * 2)).tdiv 3) + 1)

/-- The loop body of `tryElect` from the size check on, for the list
`candidates` built by ranging over the vote map. -/
def electCandidates {σ : Type} (R : Rand σ) (genesis parent : Header) (i : Int)
    (candidates : List sortableAddress) (dc : DposContext) :
    Option (Option Error × DposContext) :=
  let maxValidatorSize := toInt64 genesis.MaxValidatorSize
  let safeSize := tryElectSafeSize genesis
  if (candidates.length : Int) < safeSize then some (some .tooFewCandidates, dc)
  else
    let sorted := sortSort Less candidates
    let truncated : Option (List sortableAddress) :=
      if (sorted.length : Int) > maxValidatorSize then
        if maxValidatorSize < 0 then none else some (sorted.take maxValidatorSize.toNat)
      else some sorted
    match truncated with
    | none => none
    | some cs =>
      let seed := toInt64 (parent.hashSeed % 2 ^ 32 + i)
      match shuffleLoop R (cs.length - 1) (R.NewSource seed) cs with
      | none => none
      | some shuffled =>
        let sortedValidators := shuffled.map (fun candidate => candidate.address)
        some (none, (dc.SetEpoch.SetValidators sortedValidators).2)

/-- The entries of the vote map in the order the `range` loop visits them. -/
def votesRange (votes : Votes) : List sortableAddress :=
  votes.map (fun kv => ⟨kv.1, kv.2⟩)

/-- The head of the loop body of `tryElect`: the call of `kickoutValidator`
guarded by `kick`, the value of `!prevEpochIsGenesis && iter.Next()`. -/
def kickStep (pk : PackageVars) (ec : EpochContext) (genesis : Header) (prevEpoch : Int)
    (kick : Bool) : Option (Option Error × DposContext) :=
  if kick then kickoutValidator pk ec prevEpoch genesis else some (none, ec.DposContext)

/-- One iteration of the `for i := prevEpoch; i < currentEpoch; i++` loop of
`tryElect`; `kick` is the value of `!prevEpochIsGenesis && iter.Next()`. -/
def tryElectRound {σ : Type} (R : Rand σ) (pk : PackageVars) (ec : EpochContext)
    (genesis parent : Header) (prevEpoch : Int) (kick : Bool) (i : Int) :
    Option (Option Error × DposContext) :=
  match kickStep pk ec genesis prevEpoch kick with
  | none => none
  | some (some err, dc) => some (some err, dc)
  | some (none, dc) =>
    match countVotes { ec with DposContext := dc } with
    | (_, some err) => some (some err, dc)
    | (votes, none) => electCandidates R genesis parent i (votesRange votes) dc

/-- The loop of `tryElect` with `rounds` iterations left; `iter` holds the
entries the mint-count iterator has not yet returned. -/
def tryElectLoop {σ : Type} (R : Rand σ) (pk : PackageVars) (genesis parent : Header)
    (prevEpoch : Int) (prevEpochIsGenesis : Bool) :
    Nat → Int → List ((Int × Address) × Int) → EpochContext →
      Option (Option Error × DposContext)
  | 0, _, _, ec => some (none, ec.DposContext)
  | rounds + 1, i, iter, ec =>
    let kick := !prevEpochIsGenesis && !iter.isEmpty
    let iter1 := if prevEpochIsGenesis then iter else iter.tail
    match tryElectRound R pk ec genesis parent prevEpoch kick i with
    | none => none
    | some (some err, dc) => some (some err, dc)
    | some (none, dc) =>
      tryElectLoop R pk genesis parent prevEpoch prevEpochIsGenesis rounds (i + 1) iter1
        { ec with DposContext := dc }

/-- The method `EpochContext.tryElect`: the returned error and the store it
leaves; `none` is a run-time panic. -/
def tryElect {σ : Type} (R : Rand σ) (pk : PackageVars) (ec : EpochContext)
    (genesis parent : Header) : Option (Option Error × DposContext) :=
  match goDiv (toInt64 genesis.Time) pk.epochInterval,
      goDiv (toInt64 parent.Time) pk.epochInterval,
      goDiv ec.TimeStamp pk.epochInterval with
  | some genesisEpoch, some parentEpoch, some currentEpoch =>
    let prevEpochIsGenesis : Bool := parentEpoch = genesisEpoch
    let prevEpoch :=
      if prevEpochIsGenesis ∧ parentEpoch < currentEpoch then toInt64 (currentEpoch - 1)
      else parentEpoch
    let iter := ec.DposContext.mintCntPrefix (toUint64 prevEpoch)
    tryElectLoop R pk genesis parent prevEpoch prevEpochIsGenesis
      (currentEpoch - prevEpoch).toNat prevEpoch iter ec
  | _, _, _ => none

/-! ## Sample data -/

/-- A sample address `A`. -/
def addrA : Address := Address.mk "0xA"
/-- A sample address `B`. -/
def addrB : Address := Address.mk "0xB"
/-- A sample address `C`. -/
def addrC : Address := Address.mk "0xC"
/-- A sample address `D`. -/
def addrD : Address := Address.mk "0xD"
/-- A sample address `E`. -/
def addrE : Address := Address.mk "0xE"

/-- A sample generator: the state is a counter and every draw is zero. -/
def zeroRand : Rand Nat where
  NewSource := fun _ => 0
  Int31n := fun s _ => (0, s + 1)

/-- A sample generator whose draw for `n` is `(state + 1) mod n`. -/
def stepRand : Rand Int where
  NewSource := fun seed => seed
  Int31n := fun s n => ((s + 1) % n, s + 1)

/-! ## Definitions used in the statements, and sample data -/

/-- The validators `[A, B, C]` stored for the example of C1. -/
def sampleLookupContext : EpochContext :=
  { TimeStamp := 0
    DposContext :=
      { epochTrie := some [addrA, addrB, addrC], delegateTrie := [],
        candidateTrie := [], mintCntTrie := [], failingDeletes := [],
        failingSetValidators := false }
    statedb := [] }

/-- The tally of one candidate: the sum of the ledger balances of the delegators
recorded for it. -/
def tallyOf (ec : EpochContext) (c : Address) : Int :=
  (((ec.DposContext.delegatorsOf c).map (GetBalance ec.statedb)).sum : Nat)

/-- A store with five candidates, three delegations and three validators. -/
def sampleContext : DposContext :=
  { epochTrie := some [addrA, addrB, addrC]
    delegateTrie := [(addrA, addrD), (addrA, addrE), (addrB, addrD)]
    candidateTrie := [addrA, addrB, addrC, addrD, addrE]
    mintCntTrie := [((5, addrA), 100)]
    failingDeletes := []
    failingSetValidators := false }

/-- An epoch context over `sampleContext` at time 200. -/
def sampleEpochContext : EpochContext :=
  { TimeStamp := 200, DposContext := sampleContext, statedb := [(addrD, 7), (addrE, 5)] }

/-- The entries `electCandidates` keeps after sorting and truncating. -/
def electedTop (genesis : Header) (candidates : List sortableAddress) :
    List sortableAddress :=
  (sortSort Less candidates).take
    (min candidates.length (toInt64 genesis.MaxValidatorSize).toNat)

/-- The part of the store `kickoutValidator` never writes. -/
def DposContext.sameButCandidates (dc dc1 : DposContext) : Prop :=
  dc1.epochTrie = dc.epochTrie ∧ dc1.delegateTrie = dc.delegateTrie ∧
    dc1.mintCntTrie = dc.mintCntTrie ∧ dc1.failingDeletes = dc.failingDeletes ∧
    dc1.failingSetValidators = dc.failingSetValidators

/-- The order the spec asks of the candidate list: descending tally, ties broken
by ascending address string. -/
def tallyOrder (a b : sortableAddress) : Prop :=
  b.weight < a.weight ∨
    (a.weight = b.weight ∧
      ¬ List.Lex (fun x y : Char => x < y) b.address.str.toList a.address.str.toList)

/-- A genesis header with `MaxValidatorSize = 3` and `BlockInterval = 10`. -/
def sampleGenesis : Header :=
  { Time := 0, MaxValidatorSize := 3, BlockInterval := 10, hashSeed := 0 }

/-- A parent header in epoch 5 of a 30-second epoch. -/
def sampleParent : Header :=
  { Time := 170, MaxValidatorSize := 3, BlockInterval := 10, hashSeed := 12345 }

/-- The store `sampleContext` after an election that stores `[B, C, A]`. -/
def sampleElected : DposContext :=
  { sampleContext with epochTrie := some [addrB, addrC, addrA] }

/-- A genesis header whose `MaxValidatorSize` is zero. -/
def zeroSizeGenesis : Header :=
  { Time := 0, MaxValidatorSize := 0, BlockInterval := 10, hashSeed := 0 }

/-- A genesis header whose `MaxValidatorSize` is `2^62`. -/
def hugeSizeGenesis : Header :=
  { Time := 0, MaxValidatorSize := 2 ^ 62, BlockInterval := 10, hashSeed := 0 }

/-- A parent header in the genesis epoch. -/
def genesisEpochParent : Header :=
  { Time := 10, MaxValidatorSize := 3, BlockInterval := 10, hashSeed := 12345 }

/-- The context `sampleEpochContext` at time 40, in epoch 1. -/
def epochOneContext : EpochContext :=
  { sampleEpochContext with TimeStamp := 40 }

/-- Package values with a 600-second epoch. -/
def kickVars : PackageVars := { epochInterval := 600, timeOfFirstBlock := 0 }

/-- The context `sampleContext` at time 3700, in epoch 6 of a 600-second epoch. -/
def kickContext : EpochContext :=
  { TimeStamp := 3700, DposContext := sampleContext, statedb := [(addrD, 7), (addrE, 5)] }

/-- The epoch index `t / epochInterval` of a timestamp. -/
def epochOf (pk : PackageVars) (t : Int) : Int := t.tdiv pk.epochInterval

/-- The value of `prevEpochIsGenesis` in `tryElect`. -/
def parentInGenesisEpoch (pk : PackageVars) (genesis parent : Header) : Bool :=
  decide (epochOf pk (toInt64 parent.Time) = epochOf pk (toInt64 genesis.Time))

/-- The value of `prevEpoch` when the loop of `tryElect` starts. -/
def startEpoch (pk : PackageVars) (ec : EpochContext) (genesis parent : Header) : Int :=
  if parentInGenesisEpoch pk genesis parent = true ∧
      epochOf pk (toInt64 parent.Time) < epochOf pk ec.TimeStamp then
    epochOf pk ec.TimeStamp - 1
  else epochOf pk (toInt64 parent.Time)

/-- The context `epochOneContext` with no registered candidate. -/
def noCandidateContext : EpochContext :=
  { epochOneContext with
    DposContext := { sampleContext with candidateTrie := [] } }

/-- A store with two candidates, an empty validator list and a mint record of
epoch 5. -/
def noValidatorContext : EpochContext :=
  { kickContext with
    DposContext :=
      { sampleContext with epochTrie := some [], candidateTrie := [addrA, addrB] } }

/-- A parent header in epoch 5 of a 600-second epoch. -/
def epochFiveParent : Header :=
  { Time := 3100, MaxValidatorSize := 3, BlockInterval := 10, hashSeed := 12345 }

/-- The context `epochOneContext` with two registered candidates. -/
def twoCandidateContext : EpochContext :=
  { epochOneContext with
    DposContext := { sampleContext with candidateTrie := [addrA, addrB] } }

/-- The store of `kickContext` with a mint record of epoch 4 only. -/
def noRecordContext : EpochContext :=
  { kickContext with
    DposContext := { sampleContext with mintCntTrie := [((4, addrA), 100)] } }

/-- The context `epochOneContext` over a store that reports the validator write
as failed. -/
def failingWriteContext : EpochContext :=
  { epochOneContext with
    DposContext := { sampleContext with failingSetValidators := true } }

/-- The context `kickContext` over a store that fails to remove `B`. -/
def failingDeleteContext : EpochContext :=
  { kickContext with
    DposContext := { sampleContext with failingDeletes := [addrB] } }

/-- A context in epoch 7 over a store with validators `[A, C]`, two mint records
of epoch 5, and a failing removal of `D`. -/
def twoRoundContext : EpochContext :=
  { TimeStamp := 4300
    DposContext :=
      { sampleContext with
        epochTrie := some [addrA, addrC]
        mintCntTrie := [((5, addrA), 100), ((5, addrE), 1)]
        failingDeletes := [addrD] }
    statedb := [(addrD, 7), (addrE, 5)] }

/-- The context `kickContext` with four candidates and mint records of epoch 5
for `A` (100), `B` (2) and `C` (1). -/
def orderContext : EpochContext :=
  { kickContext with
    DposContext :=
      { sampleContext with
        candidateTrie := [addrA, addrB, addrC, addrD]
        mintCntTrie := [((5, addrA), 100), ((5, addrB), 2), ((5, addrC), 1)] } }

/-- A parent header in epoch 6 of a 30-second epoch. -/
def sameEpochParent : Header :=
  { Time := 190, MaxValidatorSize := 3, BlockInterval := 10, hashSeed := 12345 }

/-- The context `kickContext` in which every validator has minted 100 blocks in
epoch 5. -/
def activeContext : EpochContext :=
  { kickContext with
    DposContext :=
      { sampleContext with
        mintCntTrie := [((5, addrA), 100), ((5, addrB), 100), ((5, addrC), 100)] } }

/-- The context `sampleLookupContext` with an empty stored validator list. -/
def emptyValidatorContext : EpochContext :=
  { sampleLookupContext with
    DposContext := { sampleContext with epochTrie := some [] } }

/-- The rounds of `tryElect` run one after another for the listed pairs of epoch
index `i` and kickout guard, each round on the store the round before it left;
a round that does not return `nil` ends the run with its error. -/
def runRounds {σ : Type} (R : Rand σ) (pk : PackageVars) (genesis parent : Header)
    (prevEpoch : Int) :
    List (Int × Bool) → EpochContext → Option (Option Error × DposContext)
  | [], ec => some (none, ec.DposContext)
  | (i, kick) :: rest, ec =>
    match tryElectRound R pk ec genesis parent prevEpoch kick i with
    | none => none
    | some (some err, dc) => some (some err, dc)
    | some (none, dc) =>
      runRounds R pk genesis parent prevEpoch rest { ec with DposContext := dc }

/-- The entries for which the eviction loop of `kickoutValidator` logs
`Kickout candidate`, in the order of the log: those whose `KickoutCandidate`
call has succeeded.  The loop is `kickoutLoop`, with the logged entry kept in
place of the store. -/
def kickoutLoopEvictions (safeSize : Int) :
    List sortableAddress → Int → DposContext → List sortableAddress
  | [], _, _ => []
  | validator :: rest, candidateCount, dc =>
    if candidateCount ≤ safeSize then []
    else
      match dc.KickoutCandidate validator.address with
      | .error _ => []
      | .ok dc1 => validator :: kickoutLoopEvictions safeSize rest (candidateCount - 1) dc1

/-- A genesis header whose `BlockInterval` is `2^64 - 10`. -/
def wrapIntervalGenesis : Header :=
  { Time := 0, MaxValidatorSize := 3, BlockInterval := 2 ^ 64 - 10, hashSeed := 0 }

/-- A genesis header whose `MaxValidatorSize` is `2^63`. -/
def wrapSizeGenesis : Header :=
  { Time := 0, MaxValidatorSize := 2 ^ 63, BlockInterval := 10, hashSeed := 0 }

/-- The context `kickContext` with mint records of epoch 5 for `A` (100), `B`
(the stored count `2^64 - 1`) and `C` (100). -/
def wrapCountContext : EpochContext :=
  { kickContext with
    DposContext :=
      { sampleContext with
        mintCntTrie := [((5, addrA), 100), ((5, addrB), 2 ^ 64 - 1), ((5, addrC), 100)] } }

/-- A genesis header whose `BlockInterval` and `MaxValidatorSize` are both
`2^64 - 1`. -/
def wrapBothGenesis : Header :=
  { Time := 0, MaxValidatorSize := 2 ^ 64 - 1, BlockInterval := 2 ^ 64 - 1, hashSeed := 0 }

/-- The order in which the eviction loop of `kickoutValidator` walks the flagged
validators: ascending mint count, equal counts by descending address string. -/
def evictionOrder (a b : sortableAddress) : Prop :=
  a.weight < b.weight ∨
    (a.weight = b.weight ∧
      ¬ List.Lex (fun x y : Char => x < y) a.address.str.toList b.address.str.toList)

/-- The context `kickContext` with four candidates and mint records of epoch 5
for `A` (100), `B` (1) and `C` (1). -/
def tieContext : EpochContext :=
  { kickContext with
    DposContext :=
      { sampleContext with
        candidateTrie := [addrA, addrB, addrC, addrD]
        mintCntTrie := [((5, addrA), 100), ((5, addrB), 1), ((5, addrC), 1)] } }

/-- The value of `!prevEpochIsGenesis && iter.Next()` in the first round of
`tryElect`: whether that round calls `kickoutValidator`. -/
def firstRoundKick (pk : PackageVars) (ec : EpochContext) (genesis parent : Header) : Bool :=
  !parentInGenesisEpoch pk genesis parent &&
    !(ec.DposContext.mintCntPrefix (toUint64 (startEpoch pk ec genesis parent))).isEmpty

/-- The error of a round of `tryElect` over a store with fewer candidates than
the safe size, in the order in which the round meets its checks: the validator
list of `kickoutValidator` (when `kick` says the round calls it), the candidate
iterator of `countVotes`, the size check. -/
def tooFewError (kick : Bool) (dc : DposContext) : Error :=
  if kick = true ∧ dc.epochTrie = none then .failedToGetValidator
  else if kick = true ∧ dc.epochTrie = some [] then .noValidatorToKickout
  else if dc.candidateTrie = [] then .noCandidates
  else .tooFewCandidates

/-! ## The read-only calls on a memory -/

/-- A Go `map[common.Address]*big.Int`: every key with the pointer it holds. -/
abbrev VotePtrs := List (Address × Nat)

/-- Map read `votes[k]` with its presence flag. -/
def VotePtrs.get (m : VotePtrs) (k : Address) : Option Nat :=
  (m.find? (fun kv => kv.1 = k)).map Prod.snd

/-- Map write `votes[k] = p`. -/
def VotePtrs.set : VotePtrs → Address → Nat → VotePtrs
  | [], k, p => [(k, p)]
  | kv :: m, k, p => if kv.1 = k then (k, p) :: m else kv :: VotePtrs.set m k p

/-- Modelled from the spec: what a call of `countVotes` or `lookupValidator`
reaches through its receiver: the time stamp, the store, the ledger
`state.StateDB`, and the `big.Int` values allocated so far, a `*big.Int` being a
position of `bigInts`.  `GetBalance` (package `state` is not among the sources)
returns a `*big.Int`; the model takes the case that leaves a caller the most
room to alter the ledger: the pointer is the ledger's own value of the account,
and the shared zero value `big0` for an account that does not exist. -/
structure Memory where
  TimeStamp : Int
  store : DposContext
  bigInts : List Int
  balancePtr : List (Address × Nat)
  big0 : Nat
deriving DecidableEq, Repr

/-- The value a `*big.Int` points to. -/
def Memory.value (m : Memory) (p : Nat) : Int := (m.bigInts[p]?).getD 0

/-- The pointer `statedb.GetBalance(addr)`. -/
def Memory.GetBalance (m : Memory) (addr : Address) : Nat :=
  match m.balancePtr.find? (fun kv => kv.1 = addr) with
  | some kv => kv.2
  | none => m.big0

/-- The ledger balance of an account. -/
def Memory.balance (m : Memory) (addr : Address) : Int := m.value (m.GetBalance addr)

/-- The call `new(big.Int)`: a fresh value zero, and its pointer. -/
def Memory.newBigInt (m : Memory) : Nat × Memory :=
  (m.bigInts.length, { m with bigInts := m.bigInts ++ [0] })

/-- The call `z.Add(x, y)`: the sum of the values of `x` and `y` is written to
`z`. -/
def Memory.Add (m : Memory) (z x y : Nat) : Memory :=
  { m with bigInts := m.bigInts.set z (m.value x + m.value y) }

/-- Every pointer of the ledger is allocated, the balances are not negative and
the shared zero value is zero. -/
def Memory.WF (m : Memory) : Prop :=
  (∀ kv ∈ m.balancePtr, kv.2 < m.bigInts.length ∧ 0 ≤ m.value kv.2) ∧
    m.big0 < m.bigInts.length ∧ m.value m.big0 = 0

instance (m : Memory) : Decidable m.WF := by
  unfold Memory.WF; infer_instance

/-- The receiver of a call on the memory, with the balances read off the
ledger. -/
def Memory.epochContext (m : Memory) : EpochContext :=
  { TimeStamp := m.TimeStamp
    DposContext := m.store
    statedb := m.balancePtr.map (fun kv => (kv.1, (m.value kv.2).toNat)) }

/-- The inner loop of `countVotes` on a memory: `score` is the pointer the map
holds for the candidate, or a fresh value, and `score.Add(score, weight)` writes
through it. -/
def countVotesDelegatorsOn (candidateAddr : Address) :
    List Address → VotePtrs → Memory → VotePtrs × Memory
  | [], votes, m => (votes, m)
  | delegator :: rest, votes, m =>
    let sm : Nat × Memory :=
      match votes.get candidateAddr with
      | some score => (score, m)
      | none => m.newBigInt
    let weight := sm.2.GetBalance delegator
    countVotesDelegatorsOn candidateAddr rest (votes.set candidateAddr sm.1)
      (sm.2.Add sm.1 sm.1 weight)

/-- The outer loop of `countVotes` on a memory; `dc` is the store whose tries the
method took before the loop. -/
def countVotesLoopOn (dc : DposContext) :
    List Address → VotePtrs → Memory → VotePtrs × Memory
  | [], votes, m => (votes, m)
  | candidate :: rest, votes, m =>
    match dc.delegatorsOf candidate with
    | [] => countVotesLoopOn dc rest (votes.set candidate m.newBigInt.1) m.newBigInt.2
    | delegator :: ds =>
      countVotesLoopOn dc rest
        (countVotesDelegatorsOn candidate (delegator :: ds) votes m).1
        (countVotesDelegatorsOn candidate (delegator :: ds) votes m).2

/-- The method `EpochContext.countVotes` on a memory: the returned map and error,
and the memory the call leaves. -/
def countVotesOn (m : Memory) : (VotePtrs × Option Error) × Memory :=
  match m.store.candidateTrie with
  | [] => (([], some .noCandidates), m)
  | candidate :: rest =>
    (((countVotesLoopOn m.store (candidate :: rest) [] m).1, none),
      (countVotesLoopOn m.store (candidate :: rest) [] m).2)

/-- The method `EpochContext.lookupValidator` on a memory: its result, and the
memory the call leaves; the method contains no assignment through its receiver
and no call that writes. -/
def lookupValidatorOn (pk : PackageVars) (m : Memory) (now : Int) (blockInterval : Int) :
    Option (Except Error Address × Memory) :=
  (lookupValidator pk m.epochContext now blockInterval).map (fun r => (r, m))

/-- The tally a vote map holds: every key with the value of its pointer. -/
def Memory.tally (m : Memory) (votes : VotePtrs) : Votes :=
  votes.map (fun kv => (kv.1, m.value kv.2))

/-- The memory of `sampleEpochContext`: the balances 7 of `D` and 5 of `E` and the
shared zero value. -/
def sampleMemory : Memory :=
  { TimeStamp := 200, store := sampleContext, bigInts := [0, 7, 5],
    balancePtr := [(addrD, 1), (addrE, 2)], big0 := 0 }

/-- The memory `m1` holds the time stamp, the store and the ledger of `m`, and
every `big.Int` of `m` below position `n0` with its value. -/
def Memory.sameUpTo (m m1 : Memory) (n0 : Nat) : Prop :=
  m1.TimeStamp = m.TimeStamp ∧ m1.store = m.store ∧ m1.balancePtr = m.balancePtr ∧
    m1.big0 = m.big0 ∧ n0 ≤ m1.bigInts.length ∧ ∀ p, p < n0 → m1.value p = m.value p

/-- Package values with a 600-second epoch and a first block at time `-1`. -/
def wrapTimeVars : PackageVars := { epochInterval := 600, timeOfFirstBlock := -1 }

/-- The context `kickContext` at the largest signed 64-bit time stamp. -/
def wrapTimeContext : EpochContext :=
  { kickContext with TimeStamp := 2 ^ 63 - 1 }

/-! ## Machine integer facts -/

theorem toInt64_of_range (x : Int) (h1 : -2 ^ 63 ≤ x) (h2 : x < 2 ^ 63) :
    toInt64 x = x := by
  unfold toInt64; omega

theorem toInt64_big (x : Int) (h1 : 2 ^ 63 ≤ x) (h2 : x < 2 ^ 64) :
    toInt64 x = x - 2 ^ 64 := by
  unfold toInt64; omega

theorem toInt64_ne_zero (x : Int) (h1 : 0 < x) (h2 : x < 2 ^ 64) : toInt64 x ≠ 0 := by
  unfold toInt64; omega

theorem toInt64_bounds (x : Int) : -2 ^ 63 ≤ toInt64 x ∧ toInt64 x < 2 ^ 63 := by
  unfold toInt64; omega

theorem emod_le_of_nonneg (a b : Int) (ha : 0 ≤ a) (hb : 0 < b) : a % b ≤ a := by
  have h := Int.emod_add_ediv a b
  have hq : 0 ≤ b * (a / b) := mul_nonneg hb.le (Int.ediv_nonneg ha hb.le)
  linarith

/-! ## `lookupValidator` -/

/-- On a slot boundary the two divisions by `int64(blockInterval)` give a zero
remainder and the mathematical quotient, whatever the sign of the conversion. -/
theorem slot_offset (o : Int) (blockInterval : Int) (ho : 0 ≤ o) (ho63 : o < 2 ^ 63)
    (hb0 : 0 < blockInterval) (hb64 : blockInterval < 2 ^ 64)
    (hdiv : blockInterval ∣ o) :
    goMod o (toInt64 blockInterval) = some 0 ∧
      goDiv o (toInt64 blockInterval) = some (o / blockInterval) := by
  have hne : toInt64 blockInterval ≠ 0 := toInt64_ne_zero _ hb0 hb64
  unfold goMod goDiv
  rw [if_neg hne, if_neg hne]
  by_cases hsmall : blockInterval < 2 ^ 63
  · rw [toInt64_of_range _ (by omega) hsmall]
    rw [Int.tmod_eq_emod ho hb0.le, Int.emod_eq_zero_of_dvd hdiv,
      Int.tdiv_eq_ediv ho hb0.le]
    have hq0 : 0 ≤ o / blockInterval := Int.ediv_nonneg ho hb0.le
    have hq1 : o / blockInterval ≤ o := Int.ediv_le_self _ ho
    rw [toInt64_of_range _ (by omega) (by omega)]
    exact ⟨rfl, rfl⟩
  · have hz : o = 0 := Int.eq_zero_of_dvd_of_nonneg_of_lt ho (by omega) hdiv
    subst hz
    simp [Int.zero_tmod, Int.zero_tdiv, toInt64]

/-- C1: for a timestamp `now >= 0`, a block interval `blockInterval > 0` dividing
`now mod epochInterval`, and a non-empty stored validator list `vs`,
`lookupValidator` returns without error the entry of `vs` at index
`((now mod epochInterval) / blockInterval) mod len(vs)`. -/
theorem lookupValidator_round_robin (pk : PackageVars) (ec : EpochContext) (now : Int)
    (blockInterval : Int) (vs : List Address)
    (hE : 0 < pk.epochInterval) (hnow : 0 ≤ now) (hnow63 : now < 2 ^ 63)
    (hb0 : 0 < blockInterval) (hb64 : blockInterval < 2 ^ 64)
    (hdiv : blockInterval ∣ now % pk.epochInterval)
    (hvs : ec.DposContext.epochTrie = some vs) (hne : vs ≠ []) :
    ∃ v, vs[((now % pk.epochInterval) / blockInterval % vs.length).toNat]? = some v ∧
      lookupValidator pk ec now blockInterval = some (.ok v) := by
  have ho : 0 ≤ now % pk.epochInterval := Int.emod_nonneg _ hE.ne'
  have ho63 : now % pk.epochInterval < 2 ^ 63 := by
    have : now % pk.epochInterval ≤ now := emod_le_of_nonneg _ _ hnow hE
    omega
  obtain ⟨hm, hd⟩ := slot_offset _ blockInterval ho ho63 hb0 hb64 hdiv
  have hlen : 0 < vs.length := List.length_pos.mpr hne
  have hlenZ : (0 : Int) < vs.length := by exact_mod_cast hlen
  have hq0 : 0 ≤ now % pk.epochInterval / blockInterval := Int.ediv_nonneg ho hb0.le
  have hi0 : 0 ≤ now % pk.epochInterval / blockInterval % vs.length :=
    Int.emod_nonneg _ hlenZ.ne'
  have hi1 : now % pk.epochInterval / blockInterval % vs.length < vs.length :=
    Int.emod_lt_of_pos _ hlenZ
  have hidx : (now % pk.epochInterval / blockInterval % vs.length).toNat
      < vs.length := by omega
  obtain ⟨v, hv⟩ : ∃ v, vs[(now % pk.epochInterval / blockInterval
      % vs.length).toNat]? = some v := ⟨_, List.getElem?_eq_getElem hidx⟩
  refine ⟨v, hv, ?_⟩
  have h1 : goMod now pk.epochInterval = some (now % pk.epochInterval) := by
    unfold goMod
    rw [if_neg hE.ne', Int.tmod_eq_emod hnow hE.le]
  have h2 : goMod (now % pk.epochInterval / blockInterval) vs.length
      = some (now % pk.epochInterval / blockInterval % vs.length) := by
    unfold goMod
    rw [if_neg hlenZ.ne', Int.tmod_eq_emod hq0 hlenZ.le]
  unfold lookupValidator
  simp only [h1, hm, hd, DposContext.GetValidators, hvs, h2]
  simp [hlen.ne', not_lt.mpr hi0, hv]

/-- Witness of C1 at `epochInterval = 30`, `blockInterval = 10`, `now = 40`. -/
theorem lookupValidator_round_robin_witness :
    ∃ v, [addrA, addrB, addrC][(((40 : Int) % 30) / 10 % (3 : Nat)).toNat]? = some v ∧
      lookupValidator ⟨30, 0⟩ sampleLookupContext 40 10 = some (.ok v) :=
  lookupValidator_round_robin ⟨30, 0⟩ sampleLookupContext 40 10 [addrA, addrB, addrC]
    (by decide) (by decide) (by decide) (by decide) (by decide) (by decide) rfl (by decide)

/-- The example of C1: timestamps 0, 10, 20, 30, 40, 50 map to A, B, C, A, B, C. -/
theorem lookupValidator_example :
    [0, 10, 20, 30, 40, 50].map (fun now => lookupValidator ⟨30, 0⟩ sampleLookupContext now 10)
      = [addrA, addrB, addrC, addrA, addrB, addrC].map (fun a => some (.ok a)) := by
  rfl

/-! ## `countVotes` -/

theorem Votes.get_set_same (m : Votes) (k : Address) (v : Int) :
    (m.set k v).get k = some v := by
  induction m with
  | nil => simp [Votes.set, Votes.get]
  | cons kv m ih =>
    unfold Votes.set
    by_cases h : kv.1 = k
    · simp [h, Votes.get]
    · simp only [if_neg h]
      unfold Votes.get at ih ⊢
      rw [List.find?_cons_of_neg _ (by simpa using h)]
      exact ih

theorem Votes.get_set_other (m : Votes) (k k1 : Address) (v : Int) (h : k1 ≠ k) :
    (m.set k v).get k1 = m.get k1 := by
  induction m with
  | nil =>
    have : ¬ k = k1 := fun e => h e.symm
    simp [Votes.set, Votes.get, this]
  | cons kv m ih =>
    unfold Votes.set
    by_cases hk : kv.1 = k
    · have h1 : ¬ kv.1 = k1 := by rw [hk]; exact fun e => h e.symm
      have h2 : ¬ k = k1 := fun e => h e.symm
      simp [hk, Votes.get, h2]
    · simp only [if_neg hk]
      unfold Votes.get at ih ⊢
      by_cases hk1 : kv.1 = k1
      · simp [hk1]
      · rw [List.find?_cons_of_neg _ (by simpa using hk1),
          List.find?_cons_of_neg _ (by simpa using hk1)]
        exact ih

theorem Votes.get_of_not_mem (m : Votes) (k : Address) (h : k ∉ m.map Prod.fst) :
    m.get k = none := by
  induction m with
  | nil => simp [Votes.get]
  | cons kv m ih =>
    simp only [List.map_cons, List.mem_cons, not_or] at h
    unfold Votes.get at ih ⊢
    rw [List.find?_cons_of_neg _ (by simpa using fun e => h.1 e.symm)]
    exact ih h.2

theorem Votes.keys_set_of_not_mem (m : Votes) (k : Address) (v : Int)
    (h : k ∉ m.map Prod.fst) : (m.set k v).map Prod.fst = m.map Prod.fst ++ [k] := by
  induction m with
  | nil => simp [Votes.set]
  | cons kv m ih =>
    simp only [List.map_cons, List.mem_cons, not_or] at h
    unfold Votes.set
    rw [if_neg (fun e => h.1 e.symm)]
    simp [ih h.2]

theorem Votes.set_set (m : Votes) (k : Address) (v w : Int) :
    (m.set k v).set k w = m.set k w := by
  induction m with
  | nil => simp [Votes.set]
  | cons kv m ih =>
    by_cases h : kv.1 = k
    · simp [Votes.set, h]
    · simp [Votes.set, h, ih]

/-- The inner loop adds the balances of the listed delegators to the score of the
candidate. -/
theorem countVotesDelegators_cons (statedb : List (Address × Nat)) (c : Address)
    (ds : List Address) (d : Address) (votes : Votes) :
    countVotesDelegators statedb c (d :: ds) votes
      = votes.set c ((votes.get c).getD 0
          + (((d :: ds).map (GetBalance statedb)).sum : Nat)) := by
  induction ds generalizing d votes with
  | nil => simp [countVotesDelegators]
  | cons e ds ih =>
    show countVotesDelegators statedb c (e :: ds)
        (votes.set c ((votes.get c).getD 0 + GetBalance statedb d)) = _
    rw [ih, Votes.get_set_same, Votes.set_set]
    congr 1
    simp only [Option.getD_some, List.map_cons, List.sum_cons]
    push_cast
    ring

theorem countVotesLoop_cons_fresh (ec : EpochContext) (c : Address) (rest : List Address)
    (votes : Votes) (h : c ∉ votes.map Prod.fst) :
    countVotesLoop ec (c :: rest) votes
      = countVotesLoop ec rest (votes.set c (tallyOf ec c)) := by
  rw [countVotesLoop]
  unfold tallyOf
  cases hds : ec.DposContext.delegatorsOf c with
  | nil => simp
  | cons d ds =>
    simp only []
    rw [countVotesDelegators_cons, Votes.get_of_not_mem _ _ h]
    simp

theorem countVotesLoop_spec (ec : EpochContext) (cs : List Address) (votes : Votes)
    (hnd : cs.Nodup) (hdisj : ∀ c ∈ cs, c ∉ votes.map Prod.fst) :
    (countVotesLoop ec cs votes).map Prod.fst = votes.map Prod.fst ++ cs ∧
      (∀ c ∈ cs, (countVotesLoop ec cs votes).get c = some (tallyOf ec c)) ∧
      (∀ k, k ∉ cs → (countVotesLoop ec cs votes).get k = votes.get k) := by
  induction cs generalizing votes with
  | nil => simp [countVotesLoop]
  | cons c rest ih =>
    have hc : c ∉ votes.map Prod.fst := hdisj c (List.mem_cons_self _ _)
    obtain ⟨hcr, hrest⟩ := List.nodup_cons.mp hnd
    rw [countVotesLoop_cons_fresh ec c rest votes hc]
    have hkeys := Votes.keys_set_of_not_mem votes c (tallyOf ec c) hc
    have hdisj1 : ∀ c1 ∈ rest, c1 ∉ (votes.set c (tallyOf ec c)).map Prod.fst := by
      intro c1 h1
      rw [hkeys]
      intro hmem
      rcases List.mem_append.mp hmem with h2 | h2
      · exact hdisj c1 (List.mem_cons_of_mem _ h1) h2
      · simp only [List.mem_singleton] at h2
        exact hcr (h2 ▸ h1)
    obtain ⟨ih1, ih2, ih3⟩ := ih (votes.set c (tallyOf ec c)) hrest hdisj1
    refine ⟨?_, ?_, ?_⟩
    · rw [ih1, hkeys]; simp
    · intro c1 h1
      rcases List.mem_cons.mp h1 with h2 | h2
      · subst h2
        rw [ih3 c1 hcr, Votes.get_set_same]
      · exact ih2 c1 h2
    · intro k hk
      simp only [List.mem_cons, not_or] at hk
      rw [ih3 k hk.2, Votes.get_set_other _ _ _ _ hk.1]

/-- For a non-empty Candidates relation `countVotes` returns no error and a
tally with exactly one key per registered candidate. -/
theorem countVotes_keys (ec : EpochContext)
    (hne : ec.DposContext.candidateTrie ≠ [])
    (hnd : ec.DposContext.candidateTrie.Nodup) :
    (countVotes ec).2 = none ∧
      (∀ a, a ∈ (countVotes ec).1.map Prod.fst ↔ a ∈ ec.DposContext.candidateTrie) ∧
      ((countVotes ec).1.map Prod.fst).Nodup := by
  obtain ⟨h1, _, _⟩ := countVotesLoop_spec ec ec.DposContext.candidateTrie [] hnd
    (by simp)
  have hcv : countVotes ec = (countVotesLoop ec ec.DposContext.candidateTrie [], none) := by
    unfold countVotes
    cases hc : ec.DposContext.candidateTrie with
    | nil => exact absurd hc hne
    | cons c rest => rfl
  rw [hcv]
  simp only [List.map_nil, List.nil_append] at h1
  refine ⟨rfl, ?_, ?_⟩
  · intro a; rw [h1]
  · rw [h1]; exact hnd

/-- C2: for a store with at least one candidate, `countVotes` returns no error
and a tally whose keys are exactly the registered candidates, one entry each,
where every candidate's value is the sum of the ledger balances of the delegators
recorded for it, a candidate without delegators having the value 0. -/
theorem countVotes_tally (ec : EpochContext)
    (hne : ec.DposContext.candidateTrie ≠ [])
    (hnd : ec.DposContext.candidateTrie.Nodup) :
    (countVotes ec).2 = none ∧
      (∀ a, a ∈ (countVotes ec).1.map Prod.fst ↔ a ∈ ec.DposContext.candidateTrie) ∧
      ((countVotes ec).1.map Prod.fst).Nodup ∧
      (∀ c ∈ ec.DposContext.candidateTrie,
        (countVotes ec).1.get c
          = some ((((ec.DposContext.delegateTrie.filter (fun kv => kv.1 = c)).map
              (fun kv => GetBalance ec.statedb kv.2)).sum : Nat) : Int)) ∧
      (∀ c ∈ ec.DposContext.candidateTrie,
        ec.DposContext.delegateTrie.filter (fun kv => kv.1 = c) = [] →
          (countVotes ec).1.get c = some 0) := by
  obtain ⟨h1, h2, _⟩ := countVotesLoop_spec ec ec.DposContext.candidateTrie [] hnd
    (by simp)
  have hcv : countVotes ec = (countVotesLoop ec ec.DposContext.candidateTrie [], none) := by
    unfold countVotes
    cases hc : ec.DposContext.candidateTrie with
    | nil => exact absurd hc hne
    | cons c rest => rfl
  have htally : ∀ c, tallyOf ec c
      = ((((ec.DposContext.delegateTrie.filter (fun kv => kv.1 = c)).map
          (fun kv => GetBalance ec.statedb kv.2)).sum : Nat) : Int) := by
    intro c
    simp [tallyOf, DposContext.delegatorsOf, List.map_map, Function.comp_def]
  rw [hcv]
  simp only [List.map_nil, List.nil_append] at h1
  refine ⟨rfl, ?_, ?_, ?_, ?_⟩
  · intro a; rw [h1]
  · rw [h1]; exact hnd
  · intro c hc
    rw [h2 c hc, htally]
  · intro c hc hnil
    rw [h2 c hc, htally, hnil]
    rfl

/-- Witness of C2 on `sampleEpochContext`. -/
theorem countVotes_tally_witness :
    (countVotes sampleEpochContext).1
      = [(addrA, 12), (addrB, 7), (addrC, 0), (addrD, 0), (addrE, 0)] ∧
    (countVotes sampleEpochContext).2 = none ∧
    (∀ c ∈ sampleEpochContext.DposContext.candidateTrie,
      (countVotes sampleEpochContext).1.get c
        = some ((((sampleEpochContext.DposContext.delegateTrie.filter
            (fun kv => kv.1 = c)).map
              (fun kv => GetBalance sampleEpochContext.statedb kv.2)).sum : Nat) : Int)) :=
  ⟨by decide,
    (countVotes_tally sampleEpochContext (by decide) (by decide)).1,
    (countVotes_tally sampleEpochContext (by decide) (by decide)).2.2.2.1⟩

/-! ## The order of `sortableAddresses` -/

/-- The comparison `strLess` is the lexicographic order of the character
sequences. -/
theorem strLess_iff_lex (a b : List Char) :
    strLess a b = true ↔ List.Lex (fun x y => x < y) a b := by
  induction a generalizing b with
  | nil =>
    cases b with
    | nil => simp [strLess]
    | cons y ys => simp only [strLess, true_iff]; exact List.Lex.nil
  | cons x xs ih =>
    cases b with
    | nil => simp [strLess]
    | cons y ys =>
      unfold strLess
      by_cases h1 : x < y
      · simp only [h1, if_true, true_iff]
        exact List.Lex.rel h1
      · by_cases h2 : y < x
        · simp only [h1, h2, if_false, if_true, Bool.false_eq_true, false_iff]
          intro h
          cases h with
          | cons h => exact lt_irrefl _ h2
          | rel h => exact h1 h
        · have hxy : x = y := le_antisymm (not_lt.mp h2) (not_lt.mp h1)
          subst hxy
          simp only [h1, if_false]
          rw [ih]
          constructor
          · intro h; exact List.Lex.cons h
          · intro h
            cases h with
            | cons h => exact h
            | rel h => exact absurd h h1

theorem strLess_trans (a b c : List Char) (h1 : strLess a b = true)
    (h2 : strLess b c = true) : strLess a c = true := by
  rw [strLess_iff_lex] at *
  exact IsTrans.trans _ _ _ h1 h2

theorem strLess_asymm (a b : List Char) (h1 : strLess a b = true) :
    strLess b a = false := by
  cases h : strLess b a with
  | false => rfl
  | true =>
    rw [strLess_iff_lex] at h1 h
    exact absurd h (IsAsymm.asymm _ _ h1)

theorem strLess_connected (a b : List Char) (h1 : strLess a b = false)
    (h2 : strLess b a = false) : a = b := by
  have n1 : ¬ List.Lex (fun x y : Char => x < y) a b := by
    rw [← strLess_iff_lex, h1]; simp
  have n2 : ¬ List.Lex (fun x y : Char => x < y) b a := by
    rw [← strLess_iff_lex, h2]; simp
  rcases trichotomous_of (List.Lex (fun x y : Char => x < y)) a b with h | h | h
  · exact absurd h n1
  · exact h
  · exact absurd h n2

/-- The comparator `Less` puts the larger weight first and, between equal
weights, the smaller address string. -/
theorem Less_iff (a b : sortableAddress) :
    Less a b = true ↔
      b.weight < a.weight ∨
        (a.weight = b.weight ∧ strLess a.address.str.toList b.address.str.toList = true) := by
  unfold Less
  by_cases h1 : a.weight < b.weight
  · rw [if_pos h1]
    constructor
    · intro h; cases h
    · rintro (h | ⟨h, _⟩) <;> omega
  · rw [if_neg h1]
    by_cases h2 : a.weight > b.weight
    · rw [if_pos h2]
      exact ⟨fun _ => Or.inl h2, fun _ => rfl⟩
    · rw [if_neg h2]
      have he : a.weight = b.weight := by omega
      constructor
      · intro h; exact Or.inr ⟨he, h⟩
      · rintro (h | ⟨_, h⟩)
        · omega
        · exact h

theorem Less_asymm (a b : sortableAddress) (h : Less a b = true) : Less b a = false := by
  cases hb : Less b a with
  | false => rfl
  | true =>
    rw [Less_iff] at h hb
    rcases h with h | ⟨h, hs⟩ <;> rcases hb with hb | ⟨hb, hbs⟩
    · omega
    · omega
    · omega
    · rw [strLess_asymm _ _ hs] at hbs
      exact absurd hbs (by simp)

theorem Less_trans (a b c : sortableAddress) (h1 : Less a b = true) (h2 : Less b c = true) :
    Less a c = true := by
  rw [Less_iff] at *
  rcases h1 with h1 | ⟨h1, s1⟩ <;> rcases h2 with h2 | ⟨h2, s2⟩
  · left; omega
  · left; omega
  · left; omega
  · right; exact ⟨by omega, strLess_trans _ _ _ s1 s2⟩

theorem Less_connected (a b : sortableAddress) (h1 : Less a b = false)
    (h2 : Less b a = false) : a = b := by
  have n1 : ¬ Less a b = true := by rw [h1]; simp
  have n2 : ¬ Less b a = true := by rw [h2]; simp
  rw [Less_iff] at n1 n2
  simp only [not_or, not_and, not_lt] at n1 n2
  have hw : a.weight = b.weight := by omega
  have s1 : strLess a.address.str.toList b.address.str.toList = false := by
    simpa using n1.2 hw
  have s2 : strLess b.address.str.toList a.address.str.toList = false := by
    simpa using n2.2 hw.symm
  have hs : a.address.str = b.address.str := String.ext (strLess_connected _ _ s1 s2)
  cases a with
  | mk aa aw =>
    cases b with
    | mk ba bw =>
      cases aa; cases ba
      simp only at hw hs
      subst hw; subst hs
      rfl

theorem sortedBy_Less_total (a b : sortableAddress) :
    sortedBy Less a b ∨ sortedBy Less b a := by
  unfold sortedBy
  cases h : Less b a with
  | false => exact Or.inl rfl
  | true => exact Or.inr (Less_asymm _ _ h)

theorem sortedBy_Less_trans (a b c : sortableAddress) (h1 : sortedBy Less a b)
    (h2 : sortedBy Less b c) : sortedBy Less a c := by
  unfold sortedBy at *
  cases h : Less c a with
  | false => rfl
  | true =>
    cases hab : Less a b with
    | true =>
      rw [Less_trans c a b h hab] at h2
      exact absurd h2 (by simp)
    | false =>
      have e : a = b := Less_connected a b hab h1
      subst e
      rw [h] at h2
      exact absurd h2 (by simp)

theorem sortedBy_Less_antisymm (a b : sortableAddress) (h1 : sortedBy Less a b)
    (h2 : sortedBy Less b a) : a = b :=
  Less_connected a b h2 h1

theorem sortedBy_reverse_total (a b : sortableAddress) :
    sortedBy (sortReverse Less) a b ∨ sortedBy (sortReverse Less) b a := by
  exact sortedBy_Less_total b a

theorem sortedBy_reverse_trans (a b c : sortableAddress)
    (h1 : sortedBy (sortReverse Less) a b) (h2 : sortedBy (sortReverse Less) b c) :
    sortedBy (sortReverse Less) a c := by
  unfold sortedBy sortReverse at *
  exact sortedBy_Less_trans c b a h2 h1

theorem sortSort_perm {α : Type} (less : α → α → Bool) (l : List α) :
    (sortSort less l).Perm l :=
  List.perm_insertionSort _ l

theorem sortSort_Less_sorted (l : List sortableAddress) :
    (sortSort Less l).Sorted (sortedBy Less) := by
  haveI : IsTotal sortableAddress (sortedBy Less) := ⟨sortedBy_Less_total⟩
  haveI : IsTrans sortableAddress (sortedBy Less) := ⟨sortedBy_Less_trans⟩
  exact List.sorted_insertionSort (sortedBy Less) l

theorem sortSort_reverse_sorted (l : List sortableAddress) :
    (sortSort (sortReverse Less) l).Sorted (sortedBy (sortReverse Less)) := by
  haveI : IsTotal sortableAddress (sortedBy (sortReverse Less)) :=
    ⟨sortedBy_reverse_total⟩
  haveI : IsTrans sortableAddress (sortedBy (sortReverse Less)) :=
    ⟨sortedBy_reverse_trans⟩
  exact List.sorted_insertionSort (sortedBy (sortReverse Less)) l

/-- Any arrangement of `l` that `Less` leaves in order is the one `sortSort`
produces: the outcome of `sort.Sort` does not depend on the sorting algorithm. -/
theorem sortSort_Less_unique (l s : List sortableAddress) (hp : s.Perm l)
    (hs : s.Sorted (sortedBy Less)) : s = sortSort Less l := by
  haveI : IsAntisymm sortableAddress (sortedBy Less) := ⟨sortedBy_Less_antisymm⟩
  exact List.eq_of_perm_of_sorted (hp.trans (sortSort_perm Less l).symm) hs
    (sortSort_Less_sorted l)

/-! ## The shuffle and the election round -/

theorem perm_cons_set {α : Type} (xs : List α) (j : Nat) (b x : α)
    (h : xs[j]? = some b) : (b :: xs.set j x).Perm (x :: xs) := by
  induction xs generalizing j with
  | nil => simp at h
  | cons y ys ih =>
    cases j with
    | zero =>
      simp only [List.getElem?_cons_zero, Option.some.injEq] at h
      subst h
      simp only [List.set_cons_zero]
      exact List.Perm.swap _ _ _
    | succ j =>
      simp only [List.getElem?_cons_succ] at h
      simp only [List.set_cons_succ]
      exact ((List.Perm.swap y b _).trans ((ih j h).cons y)).trans (List.Perm.swap x y _)

theorem swapAt_perm {α : Type} (cs cs1 : List α) (i j : Nat)
    (h : swapAt cs i j = some cs1) : cs1.Perm cs := by
  induction cs generalizing i j cs1 with
  | nil => simp [swapAt] at h
  | cons x xs ih =>
    unfold swapAt at h
    cases i with
    | zero =>
      cases j with
      | zero =>
        simp only [List.getElem?_cons_zero, List.set_cons_zero, Option.some.injEq] at h
        subst h
        exact List.Perm.refl _
      | succ j =>
        simp only [List.getElem?_cons_zero, List.getElem?_cons_succ] at h
        cases hb : xs[j]? with
        | none => simp [hb] at h
        | some b =>
          simp only [hb, List.set_cons_zero, List.set_cons_succ, Option.some.injEq] at h
          subst h
          exact perm_cons_set xs j b x hb
    | succ i =>
      cases j with
      | zero =>
        simp only [List.getElem?_cons_zero, List.getElem?_cons_succ] at h
        cases ha : xs[i]? with
        | none => simp [ha] at h
        | some a =>
          simp only [ha, List.set_cons_zero, List.set_cons_succ, Option.some.injEq] at h
          subst h
          exact perm_cons_set xs i a x ha
      | succ j =>
        simp only [List.getElem?_cons_succ] at h
        cases ha : xs[i]? with
        | none => simp [ha] at h
        | some a =>
          cases hb : xs[j]? with
          | none => simp [ha, hb] at h
          | some b =>
            simp only [ha, hb, List.set_cons_succ, Option.some.injEq] at h
            subst h
            exact (ih _ i j (by simp [swapAt, ha, hb])).cons x

/-- Whenever the shuffle loop finishes, its result is a rearrangement of its
input. -/
theorem shuffleLoop_perm {σ α : Type} (R : Rand σ) (i : Nat) (r : σ) (cs cs1 : List α)
    (h : shuffleLoop R i r cs = some cs1) : cs1.Perm cs := by
  induction i generalizing r cs with
  | zero =>
    simp only [shuffleLoop, Option.some.injEq] at h
    subst h
    exact List.Perm.refl _
  | succ i ih =>
    rw [shuffleLoop] at h
    simp only [] at h
    split_ifs at h with h1 h2
    cases hs : swapAt cs (i + 1) ((R.Int31n r (int32OfIndexSucc (i + 1))).1.toNat) with
    | none => simp [hs] at h
    | some cs2 =>
      simp only [hs] at h
      exact (ih _ _ h).trans (swapAt_perm _ _ _ _ hs)

/-- The body of `electCandidates` with the truncation written as `electedTop`. -/
theorem electCandidates_eq {σ : Type} (R : Rand σ) (genesis parent : Header) (i : Int)
    (cands : List sortableAddress) (dc : DposContext) :
    electCandidates R genesis parent i cands dc =
      if (cands.length : Int) < tryElectSafeSize genesis then
        some (some .tooFewCandidates, dc)
      else if (cands.length : Int) > toInt64 genesis.MaxValidatorSize ∧
          toInt64 genesis.MaxValidatorSize < 0 then none
      else
        match shuffleLoop R ((electedTop genesis cands).length - 1)
            (R.NewSource (toInt64 (parent.hashSeed % 2 ^ 32 + i)))
            (electedTop genesis cands) with
        | none => none
        | some shuffled =>
          some (none, (dc.SetEpoch.SetValidators
            (shuffled.map (fun candidate => candidate.address))).2) := by
  have hlen : (sortSort Less cands).length = cands.length :=
    (sortSort_perm Less cands).length_eq
  unfold electCandidates
  simp only [hlen]
  by_cases h1 : (cands.length : Int) < tryElectSafeSize genesis
  · simp only [h1, if_true]
  · simp only [h1, if_false]
    by_cases h2 : (cands.length : Int) > toInt64 genesis.MaxValidatorSize
    · by_cases h3 : toInt64 genesis.MaxValidatorSize < 0
      · simp only [h2, h3, if_true, and_self]
      · have hk : electedTop genesis cands
            = (sortSort Less cands).take (toInt64 genesis.MaxValidatorSize).toNat := by
          unfold electedTop
          congr 1
          omega
        simp only [h2, h3, if_true, if_false, and_false, hk]
    · have hk : electedTop genesis cands = sortSort Less cands := by
        unfold electedTop
        apply List.take_of_length_le
        rw [hlen]; omega
      simp only [h2, if_false, false_and, hk]

/-- The two ways in which `electCandidates` returns: the size check fails and the
store is untouched, or the shuffled top entries are written. -/
theorem electCandidates_some {σ : Type} (R : Rand σ) (genesis parent : Header) (i : Int)
    (cands : List sortableAddress) (dc dc1 : DposContext) (err : Option Error)
    (h : electCandidates R genesis parent i cands dc = some (err, dc1)) :
    (err = some .tooFewCandidates ∧ dc1 = dc ∧
        (cands.length : Int) < tryElectSafeSize genesis) ∨
      (err = none ∧ tryElectSafeSize genesis ≤ cands.length ∧
        ((cands.length : Int) ≤ toInt64 genesis.MaxValidatorSize ∨
          0 ≤ toInt64 genesis.MaxValidatorSize) ∧
        ∃ shuffled : List sortableAddress, shuffled.Perm (electedTop genesis cands) ∧
          dc1 = (dc.SetEpoch.SetValidators
            (shuffled.map (fun candidate => candidate.address))).2) := by
  rw [electCandidates_eq] at h
  by_cases h1 : (cands.length : Int) < tryElectSafeSize genesis
  · rw [if_pos h1] at h
    simp only [Option.some.injEq, Prod.mk.injEq] at h
    exact Or.inl ⟨h.1.symm, h.2.symm, h1⟩
  · rw [if_neg h1] at h
    by_cases h2 : (cands.length : Int) > toInt64 genesis.MaxValidatorSize ∧
        toInt64 genesis.MaxValidatorSize < 0
    · rw [if_pos h2] at h
      cases h
    · rw [if_neg h2] at h
      right
      cases hsh : shuffleLoop R ((electedTop genesis cands).length - 1)
          (R.NewSource (toInt64 (parent.hashSeed % 2 ^ 32 + i)))
          (electedTop genesis cands) with
      | none => rw [hsh] at h; cases h
      | some shuffled =>
        rw [hsh] at h
        simp only [Option.some.injEq, Prod.mk.injEq] at h
        refine ⟨h.1.symm, not_lt.mp h1, ?_, shuffled,
          shuffleLoop_perm _ _ _ _ _ hsh, h.2.symm⟩
        by_cases h3 : toInt64 genesis.MaxValidatorSize < 0
        · left
          have := fun hh => h2 ⟨hh, h3⟩
          omega
        · right; omega

/-! ## `kickoutValidator` -/

theorem DposContext.sameButCandidates_refl (dc : DposContext) : dc.sameButCandidates dc :=
  ⟨rfl, rfl, rfl, rfl, rfl⟩

theorem KickoutCandidate_ok (dc dc1 : DposContext) (a : Address)
    (h : dc.KickoutCandidate a = .ok dc1) :
    dc.sameButCandidates dc1 ∧
      dc1.candidateTrie = dc.candidateTrie.filter (fun c => c ≠ a) := by
  unfold DposContext.KickoutCandidate at h
  split_ifs at h
  simp only [Except.ok.injEq] at h
  subst h
  exact ⟨⟨rfl, rfl, rfl, rfl, rfl⟩, rfl⟩

theorem length_filter_ne_of_nodup (l : List Address) (a : Address) (h : l.Nodup) :
    l.length ≤ (l.filter (fun c => c ≠ a)).length + 1 := by
  induction l with
  | nil => simp
  | cons x xs ih =>
    obtain ⟨hx, hxs⟩ := List.nodup_cons.mp h
    by_cases hxa : x = a
    · subst hxa
      have : xs.filter (fun c => c ≠ x) = xs := by
        apply List.filter_eq_self.mpr
        intro c hc
        have : c ≠ x := fun e => hx (e ▸ hc)
        simpa using this
      rw [List.filter_cons_of_neg (by simp), this]
      simp
    · have := ih hxs
      simp only [ne_eq, hxa, not_false_eq_true, decide_True, List.filter_cons_of_pos,
        List.length_cons]
      simp only [ne_eq] at this
      omega

/-- What the eviction loop leaves: only the Candidates relation changes, it only
loses addresses of the processed list, and it keeps at least `safeSize` members
when the running count does not exceed the number of candidates. -/
theorem kickoutLoop_spec (safeSize : Int) (vs : List sortableAddress) (count : Int)
    (dc : DposContext) :
    dc.sameButCandidates (kickoutLoop safeSize vs count dc).2 ∧
      (kickoutLoop safeSize vs count dc).2.candidateTrie.Sublist dc.candidateTrie ∧
      (∀ a ∈ dc.candidateTrie, a ∉ (kickoutLoop safeSize vs count dc).2.candidateTrie →
        a ∈ vs.map (fun v => v.address)) ∧
      (count ≤ dc.candidateTrie.length → dc.candidateTrie.Nodup →
        min (dc.candidateTrie.length : Int) safeSize
          ≤ (kickoutLoop safeSize vs count dc).2.candidateTrie.length) := by
  induction vs generalizing count dc with
  | nil =>
    simp only [kickoutLoop]
    exact ⟨dc.sameButCandidates_refl, List.Sublist.refl _, fun a h1 h2 => absurd h1 h2,
      fun _ _ => min_le_left _ _⟩
  | cons v rest ih =>
    rw [kickoutLoop]
    by_cases hc : count ≤ safeSize
    · rw [if_pos hc]
      exact ⟨dc.sameButCandidates_refl, List.Sublist.refl _, fun a h1 h2 => absurd h1 h2,
        fun _ _ => min_le_left _ _⟩
    · rw [if_neg hc]
      cases hk : dc.KickoutCandidate v.address with
      | error e =>
        exact ⟨dc.sameButCandidates_refl, List.Sublist.refl _,
          fun a h1 h2 => absurd h1 h2, fun _ _ => min_le_left _ _⟩
      | ok dc1 =>
        obtain ⟨hsame, hcand⟩ := KickoutCandidate_ok dc dc1 _ hk
        obtain ⟨i1, i2, i3, i4⟩ := ih (count - 1) dc1
        simp only []
        have hsub : dc1.candidateTrie.Sublist dc.candidateTrie := by
          rw [hcand]; exact List.filter_sublist _
        refine ⟨?_, i2.trans hsub, ?_, ?_⟩
        · obtain ⟨a1, a2, a3, a4, a5⟩ := hsame
          obtain ⟨b1, b2, b3, b4, b5⟩ := i1
          exact ⟨b1.trans a1, b2.trans a2, b3.trans a3, b4.trans a4, b5.trans a5⟩
        · intro a ha hna
          by_cases hav : a = v.address
          · subst hav
            simp
          · have : a ∈ dc1.candidateTrie := by
              rw [hcand]
              simp [List.mem_filter, ha, hav]
            have := i3 a this hna
            simp only [List.map_cons, List.mem_cons]
            exact Or.inr this
        · intro hle hnd
          have hnd1 : dc1.candidateTrie.Nodup := hnd.sublist hsub
          have hlen : dc.candidateTrie.length ≤ dc1.candidateTrie.length + 1 := by
            rw [hcand]; exact length_filter_ne_of_nodup _ _ hnd
          have := i4 (by omega) hnd1
          omega

theorem countCandidates_le (limit : Int) (l : List Address) (k : Int) :
    countCandidates limit l k ≤ k + l.length := by
  induction l generalizing k with
  | nil => simp [countCandidates]
  | cons x xs ih =>
    rw [countCandidates]
    split_ifs
    · simp only [List.length_cons]; push_cast; omega
    · have := ih (k + 1)
      simp only [List.length_cons]; push_cast; omega

/-- The ways in which `kickoutValidator` returns: one of the two errors about the
validator list, nothing flagged, or the eviction loop run on the sorted flagged
validators. -/
theorem kickoutValidator_cases (pk : PackageVars) (ec : EpochContext) (epoch : Int)
    (genesis : Header) (r : Option Error × DposContext)
    (h : kickoutValidator pk ec epoch genesis = some r) :
    (r = (some .failedToGetValidator, ec.DposContext) ∧ ec.DposContext.epochTrie = none) ∨
      (r = (some .noValidatorToKickout, ec.DposContext) ∧
        ec.DposContext.epochTrie = some []) ∨
      r = (none, ec.DposContext) ∨
      ∃ vs flagged, ec.DposContext.epochTrie = some vs ∧ vs ≠ [] ∧
        needKickoutValidators pk ec epoch genesis vs = some flagged ∧
        r = kickoutLoop (kickoutSafeSize genesis) (sortSort (sortReverse Less) flagged)
          (countCandidates ((flagged.length : Int) + kickoutSafeSize genesis)
            ec.DposContext.candidateTrie 0)
          ec.DposContext := by
  unfold kickoutValidator at h
  simp only [DposContext.GetValidators] at h
  cases hv : ec.DposContext.epochTrie with
  | none =>
    simp only [hv, Option.some.injEq] at h
    exact Or.inl ⟨h.symm, rfl⟩
  | some vs =>
    simp only [hv] at h
    by_cases hl : vs.length = 0
    · simp only [hl, if_true, Option.some.injEq] at h
      have e : vs = [] := List.length_eq_zero.mp hl
      subst e
      exact Or.inr (Or.inl ⟨h.symm, rfl⟩)
    · simp only [hl, if_false] at h
      cases ht : needKickoutValidators pk ec epoch genesis vs with
      | none => simp [ht] at h
      | some flagged =>
        simp only [ht] at h
        split_ifs at h with hz
        · simp only [Option.some.injEq] at h
          exact Or.inr (Or.inr (Or.inl h.symm))
        · simp only [Option.some.injEq] at h
          refine Or.inr (Or.inr (Or.inr ⟨vs, flagged, rfl, ?_, ht, h.symm⟩))
          intro e
          exact hl (by simp [e])

/-- Either `kickoutValidator` leaves the store as it was or it has run the
eviction loop. -/
theorem kickoutValidator_some (pk : PackageVars) (ec : EpochContext) (epoch : Int)
    (genesis : Header) (r : Option Error × DposContext)
    (h : kickoutValidator pk ec epoch genesis = some r) :
    r.2 = ec.DposContext ∨
      ∃ vs flagged, ec.DposContext.epochTrie = some vs ∧ vs ≠ [] ∧
        needKickoutValidators pk ec epoch genesis vs = some flagged ∧
        r = kickoutLoop (kickoutSafeSize genesis) (sortSort (sortReverse Less) flagged)
          (countCandidates ((flagged.length : Int) + kickoutSafeSize genesis)
            ec.DposContext.candidateTrie 0)
          ec.DposContext := by
  rcases kickoutValidator_cases pk ec epoch genesis r h with h1 | h1 | h1 | h1
  · exact Or.inl (by rw [h1.1])
  · exact Or.inl (by rw [h1.1])
  · exact Or.inl (by rw [h1])
  · exact Or.inr h1

/-- Frame of `kickoutValidator`: only the Candidates relation can change, and it
can only lose members. -/
theorem kickoutValidator_frame (pk : PackageVars) (ec : EpochContext) (epoch : Int)
    (genesis : Header) (r : Option Error × DposContext)
    (h : kickoutValidator pk ec epoch genesis = some r) :
    ec.DposContext.sameButCandidates r.2 ∧
      r.2.candidateTrie.Sublist ec.DposContext.candidateTrie := by
  rcases kickoutValidator_some pk ec epoch genesis r h with h1 | ⟨vs, t, _, _, _, h1⟩
  · rw [h1]
    exact ⟨DposContext.sameButCandidates_refl _, List.Sublist.refl _⟩
  · rw [h1]
    exact ⟨(kickoutLoop_spec _ _ _ _).1, (kickoutLoop_spec _ _ _ _).2.1⟩

/-! ## Election rounds -/

theorem tallyOrder_iff (a b : sortableAddress) : tallyOrder a b ↔ sortedBy Less a b := by
  unfold tallyOrder sortedBy
  rw [← strLess_iff_lex]
  constructor
  · intro h
    cases hl : Less b a with
    | false => rfl
    | true =>
      rw [Less_iff] at hl
      rcases h with h | ⟨h1, h2⟩ <;> rcases hl with hl | ⟨hl1, hl2⟩
      · omega
      · omega
      · omega
      · exact absurd hl2 h2
  · intro h
    have hn : ¬ Less b a = true := by rw [h]; simp
    rw [Less_iff] at hn
    simp only [not_or, not_and, not_lt] at hn
    by_cases hw : b.weight < a.weight
    · exact Or.inl hw
    · have he : a.weight = b.weight := by omega
      exact Or.inr ⟨he, hn.2 he.symm⟩

/-- A round that returns without error went through its three steps. -/
theorem tryElectRound_ok {σ : Type} (R : Rand σ) (pk : PackageVars) (ec : EpochContext)
    (genesis parent : Header) (prevEpoch : Int) (kick : Bool) (i : Int)
    (dc1 : DposContext)
    (h : tryElectRound R pk ec genesis parent prevEpoch kick i = some (none, dc1)) :
    ∃ dcK votes, kickStep pk ec genesis prevEpoch kick = some (none, dcK) ∧
      countVotes { ec with DposContext := dcK } = (votes, none) ∧
      electCandidates R genesis parent i (votesRange votes) dcK = some (none, dc1) := by
  unfold tryElectRound at h
  cases hk : kickStep pk ec genesis prevEpoch kick with
  | none => simp [hk] at h
  | some r =>
    obtain ⟨e, dcK⟩ := r
    cases e with
    | some err => simp [hk] at h
    | none =>
      simp only [hk] at h
      cases hc : countVotes { ec with DposContext := dcK } with
      | mk votes cerr =>
        cases cerr with
        | some err => simp [hc] at h
        | none =>
          simp only [hc] at h
          exact ⟨dcK, votes, rfl, hc, h⟩

theorem kickStep_frame (pk : PackageVars) (ec : EpochContext) (genesis : Header)
    (prevEpoch : Int) (kick : Bool) (r : Option Error × DposContext)
    (h : kickStep pk ec genesis prevEpoch kick = some r) :
    ec.DposContext.sameButCandidates r.2 ∧
      r.2.candidateTrie.Sublist ec.DposContext.candidateTrie := by
  unfold kickStep at h
  cases kick with
  | true => exact kickoutValidator_frame pk ec prevEpoch genesis r (by simpa using h)
  | false =>
    simp only [Bool.false_eq_true, if_false, Option.some.injEq] at h
    subst h
    exact ⟨DposContext.sameButCandidates_refl _, List.Sublist.refl _⟩

theorem SetValidators_stored (dc : DposContext) (l vs : List Address)
    (h : (dc.SetEpoch.SetValidators l).2.epochTrie = some vs) : vs = l := by
  unfold DposContext.SetValidators DposContext.SetEpoch at h
  split_ifs at h
  simpa using h.symm

theorem toInt64_maxValidatorSize (m : Int) (n : Nat) (h0 : 0 ≤ m) (h64 : m < 2 ^ 64)
    (h : (n : Int) ≤ toInt64 m ∨ 0 ≤ toInt64 m) : toInt64 m = m := by
  unfold toInt64 at *
  omega

theorem tryElectSafeSize_eq (genesis : Header) (h0 : 0 ≤ genesis.MaxValidatorSize)
    (h62 : genesis.MaxValidatorSize < 2 ^ 62) :
    tryElectSafeSize genesis = genesis.MaxValidatorSize * 2 / 3 + 1 := by
  unfold tryElectSafeSize
  rw [toInt64_of_range genesis.MaxValidatorSize (by omega) (by omega),
    toInt64_of_range (genesis.MaxValidatorSize * 2) (by omega) (by omega),
    Int.tdiv_eq_ediv (by omega) (by omega),
    toInt64_of_range (genesis.MaxValidatorSize * 2 / 3) (by omega) (by omega),
    toInt64_of_range _ (by omega) (by omega)]

theorem electedTop_length (genesis : Header) (cands : List sortableAddress) :
    (electedTop genesis cands).length
      = min cands.length (toInt64 genesis.MaxValidatorSize).toNat := by
  unfold electedTop
  rw [List.length_take, (sortSort_perm Less cands).length_eq]
  omega

theorem votesRange_address (votes : Votes) :
    (votesRange votes).map (fun c => c.address) = votes.map Prod.fst := by
  simp [votesRange, List.map_map, Function.comp_def]

theorem countVotes_ok_ne_nil (ec : EpochContext) (votes : Votes)
    (h : countVotes ec = (votes, none)) : ec.DposContext.candidateTrie ≠ [] := by
  intro e
  unfold countVotes at h
  rw [e] at h
  simp at h

/-- C3: in a round of `tryElect` that returns without error and stores the
validator list `vs`, `vs` consists of the first `min(number of candidates,
MaxValidatorSize)` entries of the tally sorted by descending tally with ties
broken by ascending address string, and no candidate left out of `vs` has a
larger tally than a candidate in `vs`. -/
theorem tryElectRound_elects_top {σ : Type} (R : Rand σ) (pk : PackageVars)
    (ec : EpochContext) (genesis parent : Header) (prevEpoch : Int) (kick : Bool) (i : Int)
    (dc1 : DposContext) (vs : List Address)
    (hM0 : 0 ≤ genesis.MaxValidatorSize) (hM64 : genesis.MaxValidatorSize < 2 ^ 64)
    (hnd : ec.DposContext.candidateTrie.Nodup)
    (hrun : tryElectRound R pk ec genesis parent prevEpoch kick i = some (none, dc1))
    (hvs : dc1.epochTrie = some vs) :
    ∃ dcK votes, kickStep pk ec genesis prevEpoch kick = some (none, dcK) ∧
      countVotes { ec with DposContext := dcK } = (votes, none) ∧
      (∀ s : List sortableAddress, s.Perm (votesRange votes) → s.Sorted tallyOrder →
        vs.Perm ((s.take (min votes.length genesis.MaxValidatorSize.toNat)).map
          (fun c => c.address))) ∧
      (∀ a ∈ votesRange votes, ∀ b ∈ votesRange votes,
        a.address ∉ vs → b.address ∈ vs → a.weight ≤ b.weight) := by
  obtain ⟨dcK, votes, hk, hc, he⟩ :=
    tryElectRound_ok R pk ec genesis parent prevEpoch kick i dc1 hrun
  refine ⟨dcK, votes, hk, hc, ?_⟩
  rcases electCandidates_some R genesis parent i _ dcK dc1 none he with
    ⟨h, _, _⟩ | ⟨_, _, hm, shuffled, hperm, hdc⟩
  · cases h
  have hvsl : vs = shuffled.map (fun c => c.address) :=
    SetValidators_stored dcK _ vs (hdc ▸ hvs)
  have hM : toInt64 genesis.MaxValidatorSize = genesis.MaxValidatorSize :=
    toInt64_maxValidatorSize _ _ hM0 hM64 hm
  have hlenT : (votesRange votes).length = votes.length := by simp [votesRange]
  have htop : electedTop genesis (votesRange votes)
      = (sortSort Less (votesRange votes)).take
          (min votes.length genesis.MaxValidatorSize.toNat) := by
    unfold electedTop
    rw [hM, hlenT]
  rw [htop] at hperm
  constructor
  · intro s hp hs
    have hs1 : s.Sorted (sortedBy Less) :=
      List.Pairwise.imp (fun {a b} h => (tallyOrder_iff a b).mp h) hs
    have e : s = sortSort Less (votesRange votes) := sortSort_Less_unique _ s hp hs1
    rw [hvsl, e]
    exact hperm.map _
  · have hframe := kickStep_frame pk ec genesis prevEpoch kick _ hk
    have hndK : dcK.candidateTrie.Nodup := hnd.sublist hframe.2
    have htal := countVotes_keys { ec with DposContext := dcK }
      (countVotes_ok_ne_nil _ votes hc) hndK
    have hndT : ((votesRange votes).map (fun c => c.address)).Nodup := by
      rw [votesRange_address]
      have := htal.2.2
      rw [hc] at this
      exact this
    have hsorted := sortSort_Less_sorted (votesRange votes)
    have hpermS := sortSort_perm Less (votesRange votes)
    intro a ha b hb hna hbv
    rw [hvsl, List.mem_map] at hbv
    obtain ⟨b1, hb1, hb1a⟩ := hbv
    have hb1take := hperm.subset hb1
    have hb1T : b1 ∈ votesRange votes := hpermS.subset (List.mem_of_mem_take hb1take)
    have hbb : b1 = b := List.inj_on_of_nodup_map hndT hb1T hb hb1a
    subst hbb
    have haS : a ∈ sortSort Less (votesRange votes) := hpermS.symm.subset ha
    rw [← List.take_append_drop (min votes.length genesis.MaxValidatorSize.toNat)
      (sortSort Less (votesRange votes)), List.mem_append] at haS
    rcases haS with haT | haD
    · exfalso
      apply hna
      rw [hvsl, List.mem_map]
      exact ⟨a, hperm.symm.subset haT, rfl⟩
    · have hrel : sortedBy Less b1 a := hsorted.rel_of_mem_take_of_mem_drop hb1take haD
      unfold sortedBy at hrel
      have hn : ¬ Less a b1 = true := by rw [hrel]; simp
      rw [Less_iff] at hn
      simp only [not_or, not_lt] at hn
      exact hn.1

/-- Witness of C3: a round on `sampleEpochContext` without kickout. -/
theorem tryElectRound_elects_top_witness :
    tryElectRound stepRand ⟨30, 0⟩ sampleEpochContext sampleGenesis sampleParent 5 false 5
        = some (none, sampleElected) ∧
    ∃ dcK votes, kickStep ⟨30, 0⟩ sampleEpochContext sampleGenesis 5 false = some (none, dcK) ∧
      countVotes { sampleEpochContext with DposContext := dcK } = (votes, none) ∧
      (∀ s : List sortableAddress, s.Perm (votesRange votes) → s.Sorted tallyOrder →
        [addrB, addrC, addrA].Perm
          ((s.take (min votes.length sampleGenesis.MaxValidatorSize.toNat)).map
            (fun c => c.address))) ∧
      (∀ a ∈ votesRange votes, ∀ b ∈ votesRange votes,
        a.address ∉ [addrB, addrC, addrA] → b.address ∈ [addrB, addrC, addrA] →
          a.weight ≤ b.weight) :=
  ⟨by decide,
    tryElectRound_elects_top stepRand ⟨30, 0⟩ sampleEpochContext sampleGenesis sampleParent
      5 false 5 sampleElected [addrB, addrC, addrA] (by decide) (by decide) (by decide)
      (by decide) rfl⟩

/-- Counterexample to C4 as stated: with `MaxValidatorSize = 0` the election
succeeds and stores the empty list although `SafeSize = 1`, and with
`MaxValidatorSize = 2^62` the product `MaxValidatorSize*2` overflows, the size
check passes and five validators are stored although `SafeSize` is far larger. -/
theorem tryElect_validator_count_counterexample :
    (∃ dc1 vs, tryElect stepRand ⟨30, 0⟩ epochOneContext zeroSizeGenesis genesisEpochParent
        = some (none, dc1) ∧ dc1.epochTrie = some vs ∧
        ¬ (zeroSizeGenesis.MaxValidatorSize * 2 / 3 + 1 ≤ (vs.length : Int))) ∧
    (∃ dc1 vs, tryElect stepRand ⟨30, 0⟩ epochOneContext hugeSizeGenesis genesisEpochParent
        = some (none, dc1) ∧ dc1.epochTrie = some vs ∧
        ¬ (hugeSizeGenesis.MaxValidatorSize * 2 / 3 + 1 ≤ (vs.length : Int))) :=
  ⟨⟨{ sampleContext with epochTrie := some [] }, [], by decide, rfl, by decide⟩,
    ⟨{ sampleContext with epochTrie := some [addrC, addrE, addrA, addrD, addrB] },
      [addrC, addrE, addrA, addrD, addrB], by decide, rfl, by decide⟩⟩

/-- C4 (amended): for `1 <= MaxValidatorSize < 2^62`, whenever a round of
`tryElect` returns without error and stores the validator list `vs`, its length
satisfies `floor(MaxValidatorSize*2/3) + 1 <= len(vs) <= MaxValidatorSize`. -/
theorem tryElectRound_validator_count {σ : Type} (R : Rand σ) (pk : PackageVars)
    (ec : EpochContext) (genesis parent : Header) (prevEpoch : Int) (kick : Bool) (i : Int)
    (dc1 : DposContext) (vs : List Address)
    (hM1 : 1 ≤ genesis.MaxValidatorSize) (hM62 : genesis.MaxValidatorSize < 2 ^ 62)
    (hrun : tryElectRound R pk ec genesis parent prevEpoch kick i = some (none, dc1))
    (hvs : dc1.epochTrie = some vs) :
    genesis.MaxValidatorSize * 2 / 3 + 1 ≤ (vs.length : Int) ∧
      (vs.length : Int) ≤ genesis.MaxValidatorSize := by
  obtain ⟨dcK, votes, hk, hc, he⟩ :=
    tryElectRound_ok R pk ec genesis parent prevEpoch kick i dc1 hrun
  rcases electCandidates_some R genesis parent i _ dcK dc1 none he with
    ⟨h, _, _⟩ | ⟨_, hsafe, _, shuffled, hperm, hdc⟩
  · cases h
  have hvsl : vs = shuffled.map (fun c => c.address) :=
    SetValidators_stored dcK _ vs (hdc ▸ hvs)
  have hlen : vs.length
      = min (votesRange votes).length (toInt64 genesis.MaxValidatorSize).toNat := by
    rw [hvsl, List.length_map, hperm.length_eq, electedTop_length]
  rw [tryElectSafeSize_eq genesis (by omega) hM62] at hsafe
  rw [toInt64_of_range _ (by omega) (by omega)] at hlen
  omega

/-- Witness of C4 (amended): the round on `sampleEpochContext` that stores
`[B, C, A]`. -/
theorem tryElectRound_validator_count_witness :
    sampleGenesis.MaxValidatorSize * 2 / 3 + 1 ≤ (([addrB, addrC, addrA] : List Address).length : Int) ∧
      (([addrB, addrC, addrA] : List Address).length : Int) ≤ sampleGenesis.MaxValidatorSize :=
  tryElectRound_validator_count stepRand ⟨30, 0⟩ sampleEpochContext sampleGenesis sampleParent
    5 false 5 sampleElected [addrB, addrC, addrA] (by decide) (by decide) (by decide) rfl

/-- C5: for a fixed parent header, epoch index and store, two enumerations of the
same vote tally (one a rearrangement of the other) lead `tryElect` to the same
outcome, so the stored validator sequence is the same element by element. -/
theorem electCandidates_enumeration_independent {σ : Type} (R : Rand σ)
    (genesis parent : Header) (i : Int) (l1 l2 : List sortableAddress) (dc : DposContext)
    (h : l1.Perm l2) :
    electCandidates R genesis parent i l1 dc = electCandidates R genesis parent i l2 dc := by
  have hs : sortSort Less l1 = sortSort Less l2 :=
    sortSort_Less_unique l2 _ ((sortSort_perm Less l1).trans h) (sortSort_Less_sorted l1)
  have ht : electedTop genesis l1 = electedTop genesis l2 := by
    unfold electedTop
    rw [hs, h.length_eq]
  rw [electCandidates_eq, electCandidates_eq, ht, h.length_eq]

/-- Witness of C5: two enumerations of one tally with a tie between A and C. -/
theorem electCandidates_enumeration_independent_witness :
    electCandidates stepRand sampleGenesis sampleParent 5
        [⟨addrA, 5⟩, ⟨addrB, 7⟩, ⟨addrC, 5⟩, ⟨addrD, 1⟩] sampleContext
      = electCandidates stepRand sampleGenesis sampleParent 5
        [⟨addrD, 1⟩, ⟨addrC, 5⟩, ⟨addrB, 7⟩, ⟨addrA, 5⟩] sampleContext :=
  electCandidates_enumeration_independent stepRand sampleGenesis sampleParent 5
    [⟨addrA, 5⟩, ⟨addrB, 7⟩, ⟨addrC, 5⟩, ⟨addrD, 1⟩]
    [⟨addrD, 1⟩, ⟨addrC, 5⟩, ⟨addrB, 7⟩, ⟨addrA, 5⟩] sampleContext (by decide)

/-! ## Bounds kept by `kickoutValidator` -/

theorem tdiv_bounds (x b : Int) (hb : 0 < b) : min x 0 ≤ x.tdiv b ∧ x.tdiv b ≤ max x 0 := by
  rcases le_or_lt 0 x with hx | hx
  · rw [Int.tdiv_eq_ediv hx hb.le]
    have h1 := Int.ediv_nonneg hx hb.le
    have h2 := Int.ediv_le_self b hx
    omega
  · have hx1 : 0 ≤ -x := by omega
    have e : x.tdiv b = -((-x).tdiv b) := by rw [Int.neg_tdiv, neg_neg]
    rw [e, Int.tdiv_eq_ediv hx1 hb.le]
    have h1 := Int.ediv_nonneg hx1 hb.le
    have h2 := Int.ediv_le_self b hx1
    omega

theorem goDiv_of_pos (x b : Int) (hb : 0 < b) (h1 : -2 ^ 63 ≤ x) (h2 : x < 2 ^ 63) :
    goDiv x b = some (x.tdiv b) := by
  unfold goDiv
  rw [if_neg hb.ne']
  have := tdiv_bounds x b hb
  rw [toInt64_of_range _ (by omega) (by omega)]

theorem kickoutSafeSize_eq (genesis : Header) (h0 : 0 ≤ genesis.MaxValidatorSize)
    (h63 : genesis.MaxValidatorSize < 2 ^ 63) :
    kickoutSafeSize genesis = genesis.MaxValidatorSize * 2 / 3 + 1 := by
  unfold kickoutSafeSize toUint64
  have e1 : genesis.MaxValidatorSize * 2 % 2 ^ 64 = genesis.MaxValidatorSize * 2 := by
    omega
  rw [e1, Int.tdiv_eq_ediv (by omega) (by omega)]
  have e2 : (genesis.MaxValidatorSize * 2 / 3 + 1) % 2 ^ 64
      = genesis.MaxValidatorSize * 2 / 3 + 1 := by
    omega
  rw [e2, toInt64_of_range _ (by omega) (by omega)]

/-- The threshold is defined, so `kickoutValidator` does not panic, when neither
divisor converts to zero. -/
theorem kickoutValidator_returns (pk : PackageVars) (ec : EpochContext) (epoch : Int)
    (genesis : Header) (hbi : toInt64 genesis.BlockInterval ≠ 0)
    (hM : toInt64 genesis.MaxValidatorSize ≠ 0) :
    ∃ r, kickoutValidator pk ec epoch genesis = some r := by
  have ht : ∃ t, kickoutThreshold (kickoutEpochDuration pk ec) genesis = some t := by
    unfold kickoutThreshold goDiv
    simp [hbi, hM]
  obtain ⟨t, ht⟩ := ht
  unfold kickoutValidator needKickoutValidators
  simp only [ht]
  cases ec.DposContext.GetValidators with
  | error e => exact ⟨_, rfl⟩
  | ok vs =>
    simp only []
    split_ifs
    · exact ⟨_, rfl⟩
    · exact ⟨_, rfl⟩
    · exact ⟨_, rfl⟩

/-- Counterexample to C6 as stated: with `MaxValidatorSize = 2^63` the unsigned
product `maxValidatorSize*2` wraps to zero and the function computes the safe
size 1, while `floor(MaxValidatorSize*2/3) + 1` exceeds the five registered
candidates; `B`, whose stored count `2^64 - 1` converts to `-1`, is flagged and
evicted, and four of the five candidates remain. -/
theorem kickoutValidator_safe_size_counterexample :
    kickoutSafeSize wrapSizeGenesis = 1 ∧
      kickoutValidator kickVars wrapCountContext 5 wrapSizeGenesis
        = some (none, { wrapCountContext.DposContext with
            candidateTrie := [addrA, addrC, addrD, addrE] }) ∧
      ¬ (min (wrapCountContext.DposContext.candidateTrie.length : Int)
          (wrapSizeGenesis.MaxValidatorSize * 2 / 3 + 1)
        ≤ (([addrA, addrC, addrD, addrE] : List Address).length : Int)) := by
  decide

/-- C6 (amended): for `MaxValidatorSize < 2^63`, whenever `kickoutValidator`
returns, the Candidates relation keeps at least `min(c, SafeSize)` of its `c`
members, where `SafeSize = floor(MaxValidatorSize*2/3) + 1`; and the function
returns whenever neither divisor of the threshold is zero. -/
theorem kickoutValidator_keeps_safe_size (pk : PackageVars) (ec : EpochContext)
    (epoch : Int) (genesis : Header) (hnd : ec.DposContext.candidateTrie.Nodup)
    (hM0 : 0 ≤ genesis.MaxValidatorSize) (hM63 : genesis.MaxValidatorSize < 2 ^ 63) :
    (∀ r, kickoutValidator pk ec epoch genesis = some r →
        min (ec.DposContext.candidateTrie.length : Int)
            (genesis.MaxValidatorSize * 2 / 3 + 1)
          ≤ r.2.candidateTrie.length) ∧
      (toInt64 genesis.BlockInterval ≠ 0 → toInt64 genesis.MaxValidatorSize ≠ 0 →
        ∃ r, kickoutValidator pk ec epoch genesis = some r) := by
  refine ⟨?_, kickoutValidator_returns pk ec epoch genesis⟩
  intro r h
  rw [← kickoutSafeSize_eq genesis hM0 hM63]
  rcases kickoutValidator_some pk ec epoch genesis r h with h1 | ⟨vs, flagged, _, _, _, h1⟩
  · rw [h1]
    exact min_le_left _ _
  · rw [h1]
    apply (kickoutLoop_spec _ _ _ _).2.2.2 _ hnd
    have := countCandidates_le ((flagged.length : Int) + kickoutSafeSize genesis)
      ec.DposContext.candidateTrie 0
    omega

/-- Witness of C6 (amended): `B` and `C` minted nothing in epoch 5 and are
evicted, which leaves three of five candidates with `SafeSize = 3`. -/
theorem kickoutValidator_keeps_safe_size_witness :
    kickoutValidator kickVars kickContext 5 sampleGenesis
        = some (none, { sampleContext with candidateTrie := [addrA, addrD, addrE] }) ∧
    min (kickContext.DposContext.candidateTrie.length : Int)
        (sampleGenesis.MaxValidatorSize * 2 / 3 + 1)
      ≤ ([addrA, addrD, addrE] : List Address).length :=
  ⟨by decide,
    (kickoutValidator_keeps_safe_size kickVars kickContext 5 sampleGenesis (by decide)
      (by decide) (by decide)).1
      (none, { sampleContext with candidateTrie := [addrA, addrD, addrE] }) (by decide)⟩

/-! ## The eviction threshold -/

theorem needKickoutLoop_eq (dc : DposContext) (epoch threshold : Int) (vs : List Address)
    (acc : List sortableAddress) :
    needKickoutLoop dc epoch threshold vs acc
      = acc ++ (vs.filter (fun v => mintCntOf dc epoch v < threshold)).map
          (fun v => ⟨v, mintCntOf dc epoch v⟩) := by
  induction vs generalizing acc with
  | nil => simp [needKickoutLoop]
  | cons v rest ih =>
    rw [needKickoutLoop]
    by_cases h : mintCntOf dc epoch v < threshold
    · simp only [h, if_true]
      rw [ih, List.filter_cons_of_pos (by simpa using h)]
      simp
    · simp only [h, if_false]
      rw [ih, List.filter_cons_of_neg (by simpa using h)]

theorem mintCntOf_eq (dc : DposContext) (epoch : Int) (v : Address)
    (hcnt : ∀ kv ∈ dc.mintCntTrie, 0 ≤ kv.2 ∧ kv.2 < 2 ^ 63) :
    mintCntOf dc epoch v = (dc.mintCntGet (toUint64 epoch) v).getD 0 := by
  unfold mintCntOf DposContext.mintCntGet
  cases hf : dc.mintCntTrie.find? (fun kv => kv.1 = (toUint64 epoch, v)) with
  | none => rfl
  | some kv =>
    have hm := hcnt kv (List.mem_of_find?_eq_some hf)
    simp only [Option.map_some', Option.getD_some]
    exact toInt64_of_range _ (by omega) hm.2

theorem kickoutEpochDuration_eq (pk : PackageVars) (ec : EpochContext)
    (hT1 : -2 ^ 63 ≤ ec.TimeStamp - pk.timeOfFirstBlock)
    (hT2 : ec.TimeStamp - pk.timeOfFirstBlock < 2 ^ 63) :
    kickoutEpochDuration pk ec
      = min pk.epochInterval (ec.TimeStamp - pk.timeOfFirstBlock) := by
  unfold kickoutEpochDuration
  rw [toInt64_of_range _ hT1 hT2]
  split_ifs <;> omega

theorem kickoutThreshold_eq (d : Int) (genesis : Header)
    (hd1 : -2 ^ 63 ≤ d) (hd2 : d < 2 ^ 63)
    (hbi0 : 0 < genesis.BlockInterval) (hbi63 : genesis.BlockInterval < 2 ^ 63)
    (hM0 : 0 < genesis.MaxValidatorSize) (hM63 : genesis.MaxValidatorSize < 2 ^ 63) :
    kickoutThreshold d genesis
      = some (((d.tdiv genesis.BlockInterval).tdiv genesis.MaxValidatorSize).tdiv 2) := by
  unfold kickoutThreshold
  rw [toInt64_of_range _ (by omega) hbi63, toInt64_of_range _ (by omega) hM63,
    goDiv_of_pos d _ hbi0 hd1 hd2]
  have b1 := tdiv_bounds d genesis.BlockInterval hbi0
  simp only []
  rw [goDiv_of_pos _ _ hM0 (by omega) (by omega)]
  have b2 := tdiv_bounds (d.tdiv genesis.BlockInterval) genesis.MaxValidatorSize hM0
  simp only []
  rw [goDiv_of_pos _ _ (by decide) (by omega) (by omega)]

/-- Counterexample to C7 as stated.  With a 600-second epoch, block interval 10
and three validators the threshold is 10: `B`, whose stored mint count is
`2^64 - 1`, is not below it, yet the count converts to `-1` and `B` is flagged.
With `BlockInterval = MaxValidatorSize = 2^64 - 1` the quotient
`600 / BlockInterval / MaxValidatorSize / 2` is 0 and no count is below it, yet
both fields convert to `-1`, the code computes the threshold 300 and flags `A`,
which minted 100 blocks.  With `TimeStamp = 2^63 - 1` and the first block at time
`-1` the elapsed time `2^63` is not smaller than the epoch length, so the
threshold is again 10 and `B`, without record, is below it; yet the difference
wraps to `-2^63`, the code takes it as `epochDuration` and flags nobody. -/
theorem kickoutValidator_flags_counterexample :
    (wrapCountContext.DposContext.mintCntGet (toUint64 5) addrB = some (2 ^ 64 - 1) ∧
      ¬ ((2 ^ 64 - 1 : Int) <
        (((min kickVars.epochInterval
          (wrapCountContext.TimeStamp - kickVars.timeOfFirstBlock)).tdiv
            sampleGenesis.BlockInterval).tdiv sampleGenesis.MaxValidatorSize).tdiv 2) ∧
      needKickoutValidators kickVars wrapCountContext 5 sampleGenesis [addrA, addrB, addrC]
        = some [⟨addrB, -1⟩]) ∧
    (kickContext.DposContext.mintCntGet (toUint64 5) addrA = some 100 ∧
      ¬ ((100 : Int) <
        (((min kickVars.epochInterval
          (kickContext.TimeStamp - kickVars.timeOfFirstBlock)).tdiv
            wrapBothGenesis.BlockInterval).tdiv wrapBothGenesis.MaxValidatorSize).tdiv 2) ∧
      needKickoutValidators kickVars kickContext 5 wrapBothGenesis [addrA, addrB, addrC]
        = some [⟨addrA, 100⟩, ⟨addrB, 0⟩, ⟨addrC, 0⟩]) ∧
    (wrapTimeContext.DposContext.mintCntGet (toUint64 5) addrB = none ∧
      (0 : Int) <
        (((min wrapTimeVars.epochInterval
          (wrapTimeContext.TimeStamp - wrapTimeVars.timeOfFirstBlock)).tdiv
            sampleGenesis.BlockInterval).tdiv sampleGenesis.MaxValidatorSize).tdiv 2 ∧
      kickoutEpochDuration wrapTimeVars wrapTimeContext = -2 ^ 63 ∧
      needKickoutValidators wrapTimeVars wrapTimeContext 5 sampleGenesis
        [addrA, addrB, addrC] = some []) := by
  decide

/-- C7 (amended): with `BlockInterval` and `MaxValidatorSize` in `(0, 2^63)`, the
stored mint counts below `2^63` and the times inside the signed 64-bit range, a
validator is flagged by `kickoutValidator` exactly when its mint count for the
epoch (0 without a record) is below
`epochDuration / blockInterval / MaxValidatorSize / 2` (truncating divisions),
`epochDuration` being the smaller of the epoch length and
`TimeStamp - timeOfFirstBlock`; the call returns, and only flagged validators
leave the Candidates relation. -/
theorem kickoutValidator_flags (pk : PackageVars) (ec : EpochContext) (epoch : Int)
    (genesis : Header) (vs : List Address)
    (hvs : ec.DposContext.epochTrie = some vs)
    (hbi0 : 0 < genesis.BlockInterval) (hbi63 : genesis.BlockInterval < 2 ^ 63)
    (hM0 : 0 < genesis.MaxValidatorSize) (hM63 : genesis.MaxValidatorSize < 2 ^ 63)
    (hE1 : -2 ^ 63 ≤ pk.epochInterval) (hE2 : pk.epochInterval < 2 ^ 63)
    (hT1 : -2 ^ 63 ≤ ec.TimeStamp - pk.timeOfFirstBlock)
    (hT2 : ec.TimeStamp - pk.timeOfFirstBlock < 2 ^ 63)
    (hcnt : ∀ kv ∈ ec.DposContext.mintCntTrie, 0 ≤ kv.2 ∧ kv.2 < 2 ^ 63) :
    ∃ flagged r, needKickoutValidators pk ec epoch genesis vs = some flagged ∧
      (∀ v, v ∈ flagged.map (fun f => f.address) ↔
        v ∈ vs ∧ (ec.DposContext.mintCntGet (toUint64 epoch) v).getD 0 <
          (((min pk.epochInterval (ec.TimeStamp - pk.timeOfFirstBlock)).tdiv
            genesis.BlockInterval).tdiv genesis.MaxValidatorSize).tdiv 2) ∧
      kickoutValidator pk ec epoch genesis = some r ∧
      (∀ a ∈ ec.DposContext.candidateTrie, a ∉ r.2.candidateTrie →
        a ∈ flagged.map (fun f => f.address)) := by
  have hd := kickoutEpochDuration_eq pk ec hT1 hT2
  have ht := kickoutThreshold_eq (kickoutEpochDuration pk ec) genesis
    (by rw [hd]; omega) (by rw [hd]; omega) hbi0 hbi63 hM0 hM63
  rw [hd] at ht
  have hflag : needKickoutValidators pk ec epoch genesis vs
      = some (needKickoutLoop ec.DposContext epoch
          ((((min pk.epochInterval (ec.TimeStamp - pk.timeOfFirstBlock)).tdiv
            genesis.BlockInterval).tdiv genesis.MaxValidatorSize).tdiv 2) vs []) := by
    unfold needKickoutValidators
    rw [hd, ht]
  obtain ⟨r, hr⟩ := kickoutValidator_returns pk ec epoch genesis
    (by rw [toInt64_of_range _ (by omega) hbi63]; omega)
    (by rw [toInt64_of_range _ (by omega) hM63]; omega)
  refine ⟨_, r, hflag, ?_, hr, ?_⟩
  · intro v
    rw [needKickoutLoop_eq]
    simp only [List.nil_append, List.map_map, List.mem_map, List.mem_filter,
      Function.comp_apply, decide_eq_true_eq]
    constructor
    · rintro ⟨w, ⟨hw, hlt⟩, rfl⟩
      rw [mintCntOf_eq _ _ _ hcnt] at hlt
      exact ⟨hw, hlt⟩
    · rintro ⟨hv, hlt⟩
      rw [← mintCntOf_eq _ _ _ hcnt] at hlt
      exact ⟨v, ⟨hv, hlt⟩, rfl⟩
  · intro a ha hna
    rcases kickoutValidator_some pk ec epoch genesis r hr with h1 | ⟨vs1, flagged, hv1, _, hf1, h1⟩
    · rw [h1] at hna
      exact absurd ha hna
    · rw [hvs] at hv1
      cases hv1
      rw [hflag] at hf1
      cases hf1
      rw [h1] at hna
      have := (kickoutLoop_spec _ _ _ _).2.2.1 a ha hna
      exact ((sortSort_perm _ _).map _).subset this

/-- Witness of C7 (amended): in epoch 5 of `kickContext` the threshold is
`600 / 10 / 3 / 2 = 10`; `A` minted 100 blocks, `B` and `C` none. -/
theorem kickoutValidator_flags_witness :
    ∃ flagged r, needKickoutValidators kickVars kickContext 5 sampleGenesis
        [addrA, addrB, addrC] = some flagged ∧
      (∀ v, v ∈ flagged.map (fun f => f.address) ↔
        v ∈ [addrA, addrB, addrC] ∧
          (kickContext.DposContext.mintCntGet (toUint64 5) v).getD 0 <
            (((min kickVars.epochInterval
              (kickContext.TimeStamp - kickVars.timeOfFirstBlock)).tdiv
                sampleGenesis.BlockInterval).tdiv sampleGenesis.MaxValidatorSize).tdiv 2) ∧
      kickoutValidator kickVars kickContext 5 sampleGenesis = some r ∧
      (∀ a ∈ kickContext.DposContext.candidateTrie, a ∉ r.2.candidateTrie →
        a ∈ flagged.map (fun f => f.address)) :=
  kickoutValidator_flags kickVars kickContext 5 sampleGenesis [addrA, addrB, addrC] rfl
    (by decide) (by decide) (by decide) (by decide) (by decide) (by decide) (by decide)
    (by decide) (by decide)

/-! ## Too few candidates -/

theorem kickoutLoop_of_le (safeSize : Int) (vs : List sortableAddress) (count : Int)
    (dc : DposContext) (h : count ≤ safeSize) :
    kickoutLoop safeSize vs count dc = (none, dc) := by
  cases vs with
  | nil => rfl
  | cons v rest => rw [kickoutLoop, if_pos h]

/-- One round over a store with fewer candidates than the safe size returns the
error `tooFewError` and leaves the store as it was. -/
theorem tryElectRound_too_few {σ : Type} (R : Rand σ) (pk : PackageVars)
    (ec : EpochContext) (genesis parent : Header) (prevEpoch : Int) (kick : Bool) (i : Int)
    (hM1 : 1 ≤ genesis.MaxValidatorSize) (hM62 : genesis.MaxValidatorSize < 2 ^ 62)
    (hbi0 : 0 < genesis.BlockInterval) (hbi64 : genesis.BlockInterval < 2 ^ 64)
    (hnd : ec.DposContext.candidateTrie.Nodup)
    (hfew : (ec.DposContext.candidateTrie.length : Int)
      < genesis.MaxValidatorSize * 2 / 3 + 1) :
    tryElectRound R pk ec genesis parent prevEpoch kick i
      = some (some (tooFewError kick ec.DposContext), ec.DposContext) := by
  have hec : ({ ec with DposContext := ec.DposContext } : EpochContext) = ec := by
    cases ec; rfl
  -- the election part of the round, on the unchanged store
  have helect : kickStep pk ec genesis prevEpoch kick = some (none, ec.DposContext) →
      tryElectRound R pk ec genesis parent prevEpoch kick i
        = some (some (if ec.DposContext.candidateTrie = [] then Error.noCandidates
            else Error.tooFewCandidates), ec.DposContext) := by
    intro hk
    unfold tryElectRound
    simp only [hk, hec]
    by_cases hc : ec.DposContext.candidateTrie = []
    · have : countVotes ec = ([], some .noCandidates) := by
        unfold countVotes; rw [hc]
      simp only [this, hc, if_true]
    · have htal := countVotes_keys ec hc hnd
      have hcv : countVotes ec = ((countVotes ec).1, none) := by
        rw [← htal.1]
      have hlen : (votesRange (countVotes ec).1).length
          = ec.DposContext.candidateTrie.length := by
        have hperm : ((countVotes ec).1.map Prod.fst).Perm ec.DposContext.candidateTrie :=
          (List.perm_ext_iff_of_nodup htal.2.2 hnd).mpr htal.2.1
        have := hperm.length_eq
        simpa [votesRange] using this
      rw [hcv]
      simp only []
      rw [electCandidates_eq, hlen, tryElectSafeSize_eq genesis (by omega) hM62, if_pos hfew,
        if_neg hc]
  cases kick with
  | false =>
    rw [helect (by simp [kickStep])]
    simp [tooFewError]
  | true =>
    cases hv : ec.DposContext.epochTrie with
    | none =>
      have hk : kickoutValidator pk ec prevEpoch genesis
          = some (some .failedToGetValidator, ec.DposContext) := by
        unfold kickoutValidator
        simp only [DposContext.GetValidators, hv]
      unfold tryElectRound
      simp [kickStep, hk, tooFewError, hv]
    | some vs =>
      cases vs with
      | nil =>
        have hk : kickoutValidator pk ec prevEpoch genesis
            = some (some .noValidatorToKickout, ec.DposContext) := by
          unfold kickoutValidator
          simp only [DposContext.GetValidators, hv, List.length_nil, if_true]
        unfold tryElectRound
        simp [kickStep, hk, tooFewError, hv]
      | cons v rest =>
        have hbi : toInt64 genesis.BlockInterval ≠ 0 := toInt64_ne_zero _ hbi0 hbi64
        have hM : toInt64 genesis.MaxValidatorSize ≠ 0 := by
          rw [toInt64_of_range _ (by omega) (by omega)]; omega
        obtain ⟨r, hr⟩ := kickoutValidator_returns pk ec prevEpoch genesis hbi hM
        have hks : kickStep pk ec genesis prevEpoch true = some r := by
          simp [kickStep, hr]
        have herr : tooFewError true ec.DposContext
            = if ec.DposContext.candidateTrie = [] then Error.noCandidates
              else Error.tooFewCandidates := by
          simp [tooFewError, hv]
        rw [herr]
        rcases kickoutValidator_cases pk ec prevEpoch genesis r hr with
          ⟨_, h2⟩ | ⟨_, h2⟩ | h1 | ⟨vs, flagged, _, _, _, h1⟩
        · rw [hv] at h2; cases h2
        · rw [hv] at h2; cases h2
        · exact helect (by rw [hks, h1])
        · have hcount := countCandidates_le
            ((flagged.length : Int) + kickoutSafeSize genesis) ec.DposContext.candidateTrie 0
          have hsafe := kickoutSafeSize_eq genesis (by omega) (by omega)
          rw [kickoutLoop_of_le _ _ _ _ (by omega)] at h1
          exact helect (by rw [hks, h1])

/-! ## `tryElect` as a loop over epochs -/

theorem epochOf_bounds (pk : PackageVars) (t : Int) (hE : 0 < pk.epochInterval)
    (h1 : -2 ^ 63 ≤ t) (h2 : t < 2 ^ 63) :
    -2 ^ 63 ≤ epochOf pk t ∧ epochOf pk t < 2 ^ 63 := by
  have := tdiv_bounds t pk.epochInterval hE
  unfold epochOf
  omega

/-- For a positive epoch length and an `int64` timestamp, `tryElect` is its loop
started at `startEpoch`. -/
theorem tryElect_eq_loop {σ : Type} (R : Rand σ) (pk : PackageVars) (ec : EpochContext)
    (genesis parent : Header) (hE : 0 < pk.epochInterval)
    (hT1 : -2 ^ 63 ≤ ec.TimeStamp) (hT2 : ec.TimeStamp < 2 ^ 63) :
    tryElect R pk ec genesis parent
      = tryElectLoop R pk genesis parent (startEpoch pk ec genesis parent)
          (parentInGenesisEpoch pk genesis parent)
          (epochOf pk ec.TimeStamp - startEpoch pk ec genesis parent).toNat
          (startEpoch pk ec genesis parent)
          (ec.DposContext.mintCntPrefix (toUint64 (startEpoch pk ec genesis parent))) ec := by
  have hg := toInt64_bounds genesis.Time
  have hp := toInt64_bounds parent.Time
  have hc := epochOf_bounds pk ec.TimeStamp hE hT1 hT2
  have hpe := epochOf_bounds pk (toInt64 parent.Time) hE hp.1 hp.2
  have hstart : (if (decide (epochOf pk (toInt64 parent.Time)
        = epochOf pk (toInt64 genesis.Time)) = true) ∧
        epochOf pk (toInt64 parent.Time) < epochOf pk ec.TimeStamp then
        toInt64 (epochOf pk ec.TimeStamp - 1)
      else epochOf pk (toInt64 parent.Time)) = startEpoch pk ec genesis parent := by
    unfold startEpoch parentInGenesisEpoch
    split_ifs with h
    · exact toInt64_of_range _ (by omega) (by omega)
    · rfl
  unfold tryElect
  rw [goDiv_of_pos _ _ hE hg.1 hg.2, goDiv_of_pos _ _ hE hp.1 hp.2,
    goDiv_of_pos _ _ hE hT1 hT2]
  simp only []
  unfold epochOf at hstart
  rw [hstart]
  rfl

/-- C8 (amended): when `tryElect` crosses an epoch boundary while fewer than
`SafeSize` candidates are registered, it returns an error and leaves the store,
the validator set included, as it was.  The error is that of `kickoutValidator`
when the first round calls it and the stored validator list is unreadable or
empty; otherwise the no-candidates error when no candidate is registered;
otherwise the too-few-candidates error. -/
theorem tryElect_too_few_candidates {σ : Type} (R : Rand σ) (pk : PackageVars)
    (ec : EpochContext) (genesis parent : Header)
    (hE : 0 < pk.epochInterval)
    (hT1 : -2 ^ 63 ≤ ec.TimeStamp) (hT2 : ec.TimeStamp < 2 ^ 63)
    (hM1 : 1 ≤ genesis.MaxValidatorSize) (hM62 : genesis.MaxValidatorSize < 2 ^ 62)
    (hbi0 : 0 < genesis.BlockInterval) (hbi64 : genesis.BlockInterval < 2 ^ 64)
    (hnd : ec.DposContext.candidateTrie.Nodup)
    (hcross : (toInt64 parent.Time).tdiv pk.epochInterval
      < ec.TimeStamp.tdiv pk.epochInterval)
    (hfew : (ec.DposContext.candidateTrie.length : Int)
      < genesis.MaxValidatorSize * 2 / 3 + 1) :
    tryElect R pk ec genesis parent
        = some (some (tooFewError (firstRoundKick pk ec genesis parent) ec.DposContext),
            ec.DposContext) ∧
      (firstRoundKick pk ec genesis parent = true → ec.DposContext.epochTrie = none →
        tooFewError (firstRoundKick pk ec genesis parent) ec.DposContext
          = .failedToGetValidator) ∧
      (firstRoundKick pk ec genesis parent = true → ec.DposContext.epochTrie = some [] →
        tooFewError (firstRoundKick pk ec genesis parent) ec.DposContext
          = .noValidatorToKickout) ∧
      ((firstRoundKick pk ec genesis parent = false ∨
          ∃ vs, ec.DposContext.epochTrie = some vs ∧ vs ≠ []) →
        (ec.DposContext.candidateTrie = [] →
          tooFewError (firstRoundKick pk ec genesis parent) ec.DposContext
            = .noCandidates) ∧
        (ec.DposContext.candidateTrie ≠ [] →
          tooFewError (firstRoundKick pk ec genesis parent) ec.DposContext
            = .tooFewCandidates)) := by
  have hrounds : ∃ n, (epochOf pk ec.TimeStamp - startEpoch pk ec genesis parent).toNat
      = n + 1 := by
    have hc : epochOf pk (toInt64 parent.Time) < epochOf pk ec.TimeStamp := hcross
    have : 0 < epochOf pk ec.TimeStamp - startEpoch pk ec genesis parent := by
      unfold startEpoch
      split_ifs <;> omega
    exact ⟨(epochOf pk ec.TimeStamp - startEpoch pk ec genesis parent).toNat - 1, by omega⟩
  obtain ⟨n, hn⟩ := hrounds
  refine ⟨?_, ?_, ?_, ?_⟩
  · rw [tryElect_eq_loop R pk ec genesis parent hE hT1 hT2, hn, tryElectLoop]
    have h1 := tryElectRound_too_few R pk ec genesis parent
      (startEpoch pk ec genesis parent)
      (!parentInGenesisEpoch pk genesis parent &&
        !(ec.DposContext.mintCntPrefix
          (toUint64 (startEpoch pk ec genesis parent))).isEmpty)
      (startEpoch pk ec genesis parent) hM1 hM62 hbi0 hbi64 hnd hfew
    simp only [h1]
    rfl
  · intro hk hv
    simp [tooFewError, hk, hv]
  · intro hk hv
    simp [tooFewError, hk, hv]
  · intro h
    have h1 : ¬ (firstRoundKick pk ec genesis parent = true ∧ ec.DposContext.epochTrie = none) := by
      rintro ⟨hk, hv⟩
      rcases h with h | ⟨vs, hvs, _⟩
      · rw [hk] at h; cases h
      · rw [hv] at hvs; cases hvs
    have h2 : ¬ (firstRoundKick pk ec genesis parent = true ∧
        ec.DposContext.epochTrie = some []) := by
      rintro ⟨hk, hv⟩
      rcases h with h | ⟨vs, hvs, hne⟩
      · rw [hk] at h; cases h
      · rw [hv] at hvs
        simp only [Option.some.injEq] at hvs
        exact hne hvs.symm
    constructor
    · intro hc
      unfold tooFewError
      rw [if_neg h1, if_neg h2, if_pos hc]
    · intro hc
      unfold tooFewError
      rw [if_neg h1, if_neg h2, if_neg hc]

/-- Counterexample to C8 as stated: with `SafeSize = 3`, a call that crosses an
epoch boundary returns the no-candidates error when no candidate is registered,
and the error of `kickoutValidator` when two candidates are registered and the
stored validator list is empty; neither is the too-few-candidates error. -/
theorem tryElect_too_few_counterexample :
    tryElect stepRand ⟨30, 0⟩ noCandidateContext sampleGenesis genesisEpochParent
        = some (some .noCandidates, noCandidateContext.DposContext) ∧
      (noCandidateContext.DposContext.candidateTrie.length : Int)
        < sampleGenesis.MaxValidatorSize * 2 / 3 + 1 ∧
      tryElect stepRand kickVars noValidatorContext sampleGenesis epochFiveParent
        = some (some .noValidatorToKickout, noValidatorContext.DposContext) ∧
      (noValidatorContext.DposContext.candidateTrie.length : Int)
        < sampleGenesis.MaxValidatorSize * 2 / 3 + 1 := by
  decide

/-- Witness of C8 (amended): two candidates against `SafeSize = 3`, parent in the
genesis epoch. -/
theorem tryElect_too_few_candidates_witness :
    tryElect stepRand ⟨30, 0⟩ twoCandidateContext sampleGenesis genesisEpochParent
        = some (some .tooFewCandidates, twoCandidateContext.DposContext) ∧
      tryElect stepRand ⟨30, 0⟩ twoCandidateContext sampleGenesis genesisEpochParent
        = some (some (tooFewError
              (firstRoundKick ⟨30, 0⟩ twoCandidateContext sampleGenesis genesisEpochParent)
              twoCandidateContext.DposContext),
            twoCandidateContext.DposContext) :=
  ⟨by decide,
    (tryElect_too_few_candidates stepRand ⟨30, 0⟩ twoCandidateContext sampleGenesis
      genesisEpochParent (by decide) (by decide) (by decide) (by decide) (by decide)
      (by decide) (by decide) (by decide) (by decide) (by decide)).1⟩

/-! ## Kickout before election -/

/-- The first round of the loop of `tryElect` runs `kickoutValidator` exactly when
the parent is outside the genesis epoch and the mint-count iterator of
`prevEpoch` yields a record; every round advances that iterator by one. -/
theorem tryElectLoop_succ {σ : Type} (R : Rand σ) (pk : PackageVars)
    (genesis parent : Header) (prevEpoch : Int) (g : Bool) (rounds : Nat) (i : Int)
    (iter : List ((Int × Address) × Int)) (ec : EpochContext) :
    tryElectLoop R pk genesis parent prevEpoch g (rounds + 1) i iter ec
      = match tryElectRound R pk ec genesis parent prevEpoch (!g && !iter.isEmpty) i with
        | none => none
        | some (some err, dc) => some (some err, dc)
        | some (none, dc) =>
          tryElectLoop R pk genesis parent prevEpoch g rounds (i + 1)
            (if g then iter else iter.tail) { ec with DposContext := dc } := by
  rw [tryElectLoop]

/-- C9: the parent is in epoch 5, not the genesis epoch 0, one round runs, and
`kickoutValidator(5)` would evict `B` and `C`; but the mint-count trie has no
record of epoch 5, so `iter.Next()` is false and the round runs without kickout,
against the comment above the guard (`if prevEpoch is not genesis, kickout not
active candidate`): the Candidates relation is unchanged and `B` and `C` are
elected. -/
theorem tryElect_kickout_counterexample :
    epochOf kickVars (toInt64 epochFiveParent.Time)
        ≠ epochOf kickVars (toInt64 sampleGenesis.Time) ∧
      kickoutValidator kickVars noRecordContext 5 sampleGenesis
        = some (none, { noRecordContext.DposContext with
            candidateTrie := [addrA, addrD, addrE] }) ∧
      tryElect stepRand kickVars noRecordContext sampleGenesis epochFiveParent
        = some (none, { noRecordContext.DposContext with
            epochTrie := some [addrB, addrC, addrA] }) := by
  decide

/-- In a round of `tryElect` that returns without error and stores `vs`, every
member of `vs` is in the Candidates relation the kickout step of the round
leaves, so a candidate that step evicted is not elected; in a round without
kickout step the relation is the one before the round. -/
theorem tryElectRound_elects_after_kickout {σ : Type} (R : Rand σ) (pk : PackageVars)
    (ec : EpochContext) (genesis parent : Header) (prevEpoch : Int) (kick : Bool) (i : Int)
    (dc1 : DposContext) (vs : List Address)
    (hnd : ec.DposContext.candidateTrie.Nodup)
    (hrun : tryElectRound R pk ec genesis parent prevEpoch kick i = some (none, dc1))
    (hvs : dc1.epochTrie = some vs) :
    ∃ dcK, (kick = true → kickoutValidator pk ec prevEpoch genesis = some (none, dcK)) ∧
      (kick = false → dcK = ec.DposContext) ∧
      dc1.candidateTrie = dcK.candidateTrie ∧
      (∀ v ∈ vs, v ∈ dcK.candidateTrie) ∧
      (∀ a ∈ ec.DposContext.candidateTrie, a ∉ dcK.candidateTrie → a ∉ vs) := by
  obtain ⟨dcK, votes, hk, hc, he⟩ :=
    tryElectRound_ok R pk ec genesis parent prevEpoch kick i dc1 hrun
  rcases electCandidates_some R genesis parent i _ dcK dc1 none he with
    ⟨h, _, _⟩ | ⟨_, _, _, shuffled, hperm, hdc⟩
  · cases h
  have hvsl : vs = shuffled.map (fun c => c.address) :=
    SetValidators_stored dcK _ vs (hdc ▸ hvs)
  have hframe := kickStep_frame pk ec genesis prevEpoch kick _ hk
  have hndK : dcK.candidateTrie.Nodup := hnd.sublist hframe.2
  have htal := countVotes_keys { ec with DposContext := dcK }
    (countVotes_ok_ne_nil _ votes hc) hndK
  have hmem : ∀ v ∈ vs, v ∈ dcK.candidateTrie := by
    intro v hv
    rw [hvsl, List.mem_map] at hv
    obtain ⟨c, hc1, rfl⟩ := hv
    have h1 : c ∈ votesRange votes :=
      (sortSort_perm Less _).subset (List.mem_of_mem_take (hperm.subset hc1))
    have h2 : c.address ∈ votes.map Prod.fst := by
      rw [← votesRange_address]
      exact List.mem_map_of_mem _ h1
    have h3 := (htal.2.1 c.address).mp (by rw [hc]; exact h2)
    exact h3
  have hcand : dc1.candidateTrie = dcK.candidateTrie := by
    rw [hdc]
    unfold DposContext.SetValidators DposContext.SetEpoch
    split_ifs <;> rfl
  refine ⟨dcK, ?_, ?_, hcand, hmem, fun a _ hna hav => hna (hmem a hav)⟩
  · intro hkick
    subst hkick
    simpa [kickStep] using hk
  · intro hkick
    subst hkick
    simp only [kickStep, Bool.false_eq_true, if_false, Option.some.injEq,
      Prod.mk.injEq, true_and] at hk
    exact hk.symm

/-- An instance on `kickContext`: with a mint record of epoch 5 the round runs the
kickout, `B` and `C` are evicted and `A`, `D`, `E` are elected. -/
theorem tryElectRound_elects_after_kickout_witness :
    tryElectRound stepRand kickVars kickContext sampleGenesis epochFiveParent 5 true 5
        = some (none, { sampleContext with
            epochTrie := some [addrD, addrE, addrA],
            candidateTrie := [addrA, addrD, addrE] }) ∧
    ∃ dcK, (true = true → kickoutValidator kickVars kickContext 5 sampleGenesis
          = some (none, dcK)) ∧
      (true = false → dcK = kickContext.DposContext) ∧
      ({ sampleContext with
            epochTrie := some [addrD, addrE, addrA],
            candidateTrie := [addrA, addrD, addrE] } : DposContext).candidateTrie
        = dcK.candidateTrie ∧
      (∀ v ∈ [addrD, addrE, addrA], v ∈ dcK.candidateTrie) ∧
      (∀ a ∈ kickContext.DposContext.candidateTrie, a ∉ dcK.candidateTrie →
        a ∉ [addrD, addrE, addrA]) :=
  ⟨by decide,
    tryElectRound_elects_after_kickout stepRand kickVars kickContext sampleGenesis
      epochFiveParent 5 true 5 _ [addrD, addrE, addrA] (by decide) (by decide) rfl⟩

/-! ## Store write failures -/

/-- C10 (the code at a failing input): the store reports the write of the new
validator list as failed, yet `tryElect` returns no error, and the epoch trie it
installed holds no validator list. -/
theorem tryElect_ignores_write_failure :
    (failingWriteContext.DposContext.SetEpoch.SetValidators
        [addrB, addrC, addrA]).1 = some .storeError ∧
      tryElect stepRand ⟨30, 0⟩ failingWriteContext sampleGenesis genesisEpochParent
        = some (none, { failingWriteContext.DposContext with epochTrie := none }) := by
  decide

/-! ## Errors and the store -/

theorem kickoutLoop_error (safeSize : Int) (vs : List sortableAddress) (count : Int)
    (dc : DposContext) (e : Error) (h : (kickoutLoop safeSize vs count dc).1 = some e) :
    e = .storeError := by
  induction vs generalizing count dc with
  | nil => simp [kickoutLoop] at h
  | cons v rest ih =>
    rw [kickoutLoop] at h
    split_ifs at h with hc
    cases hk : dc.KickoutCandidate v.address with
    | error e1 =>
      rw [hk] at h
      simp only [Option.some.injEq] at h
      unfold DposContext.KickoutCandidate at hk
      split_ifs at hk
      simp only [Except.error.injEq] at hk
      rw [← h, ← hk]
    | ok dc1 =>
      rw [hk] at h
      exact ih _ _ h

theorem kickoutSafeSize_pos (genesis : Header) : 1 ≤ kickoutSafeSize genesis := by
  unfold kickoutSafeSize toUint64
  have h1 : 0 ≤ genesis.MaxValidatorSize * 2 % 2 ^ 64 := Int.emod_nonneg _ (by decide)
  have h2 : genesis.MaxValidatorSize * 2 % 2 ^ 64 < 2 ^ 64 := Int.emod_lt_of_pos _ (by decide)
  rw [Int.tdiv_eq_ediv h1 (by decide)]
  have e2 : (genesis.MaxValidatorSize * 2 % 2 ^ 64 / 3 + 1) % 2 ^ 64
      = genesis.MaxValidatorSize * 2 % 2 ^ 64 / 3 + 1 := by
    omega
  rw [e2, toInt64_of_range _ (by omega) (by omega)]
  omega

theorem DposContext.eq_of_sameButCandidates (dc dc1 : DposContext)
    (h : dc.sameButCandidates dc1) (hc : dc1.candidateTrie = dc.candidateTrie) :
    dc1 = dc := by
  obtain ⟨h1, h2, h3, h4, h5⟩ := h
  cases dc
  cases dc1
  simp only at h1 h2 h3 h4 h5 hc
  subst h1 h2 h3 h4 h5 hc
  rfl

/-- A kickout step that returns without error either leaves the store as it was
or leaves at least `kickoutSafeSize` candidates. -/
theorem kickStep_ok_cases (pk : PackageVars) (ec : EpochContext) (genesis : Header)
    (prevEpoch : Int) (kick : Bool) (dcK : DposContext)
    (hnd : ec.DposContext.candidateTrie.Nodup)
    (h : kickStep pk ec genesis prevEpoch kick = some (none, dcK)) :
    dcK = ec.DposContext ∨ kickoutSafeSize genesis ≤ dcK.candidateTrie.length := by
  cases kick with
  | false =>
    simp only [kickStep, Bool.false_eq_true, if_false, Option.some.injEq,
      Prod.mk.injEq, true_and] at h
    exact Or.inl h.symm
  | true =>
    have hk : kickoutValidator pk ec prevEpoch genesis = some (none, dcK) := by
      simpa [kickStep] using h
    rcases kickoutValidator_cases pk ec prevEpoch genesis _ hk with
      ⟨h1, _⟩ | ⟨h1, _⟩ | h1 | ⟨vs, flagged, _, _, _, h1⟩
    · simp at h1
    · simp at h1
    · simp only [Prod.mk.injEq, true_and] at h1
      exact Or.inl h1
    · have hspec := kickoutLoop_spec (kickoutSafeSize genesis)
        (sortSort (sortReverse Less) flagged)
        (countCandidates ((flagged.length : Int) + kickoutSafeSize genesis)
          ec.DposContext.candidateTrie 0) ec.DposContext
      rw [← h1] at hspec
      obtain ⟨s1, s2, _, s4⟩ := hspec
      have hcount := countCandidates_le ((flagged.length : Int) + kickoutSafeSize genesis)
        ec.DposContext.candidateTrie 0
      have hmin := s4 (by omega) hnd
      by_cases hs : kickoutSafeSize genesis ≤ dcK.candidateTrie.length
      · exact Or.inr hs
      · left
        have hle : ec.DposContext.candidateTrie.length ≤ dcK.candidateTrie.length := by
          simp only [] at hmin
          omega
        exact DposContext.eq_of_sameButCandidates _ _ s1 (s2.eq_of_length_le hle)

theorem countVotes_length (ec : EpochContext) (hne : ec.DposContext.candidateTrie ≠ [])
    (hnd : ec.DposContext.candidateTrie.Nodup) :
    (votesRange (countVotes ec).1).length = ec.DposContext.candidateTrie.length := by
  have htal := countVotes_keys ec hne hnd
  have hperm : ((countVotes ec).1.map Prod.fst).Perm ec.DposContext.candidateTrie :=
    (List.perm_ext_iff_of_nodup htal.2.2 hnd).mpr htal.2.1
  have := hperm.length_eq
  simpa [votesRange] using this

/-- An error of `kickoutValidator` leaves everything but the Candidates relation
as it was, the relation can only have lost members, and nothing changed unless
the error is a store failure of an eviction. -/
theorem kickoutValidator_error_frame (pk : PackageVars) (ec : EpochContext) (epoch : Int)
    (genesis : Header) (err : Error) (dc1 : DposContext)
    (h : kickoutValidator pk ec epoch genesis = some (some err, dc1)) :
    dc1.epochTrie = ec.DposContext.epochTrie ∧
      dc1.candidateTrie.Sublist ec.DposContext.candidateTrie ∧
      (err ≠ .storeError → dc1 = ec.DposContext) := by
  have hframe := kickoutValidator_frame pk ec epoch genesis _ h
  refine ⟨hframe.1.1, hframe.2, ?_⟩
  intro hne
  rcases kickoutValidator_cases pk ec epoch genesis _ h with
    ⟨h1, _⟩ | ⟨h1, _⟩ | h1 | ⟨vs, flagged, _, _, _, h1⟩
  · simp only [Prod.mk.injEq] at h1
    exact h1.2
  · simp only [Prod.mk.injEq] at h1
    exact h1.2
  · simp at h1
  · exfalso
    apply hne
    apply kickoutLoop_error (kickoutSafeSize genesis) (sortSort (sortReverse Less) flagged)
      (countCandidates ((flagged.length : Int) + kickoutSafeSize genesis)
        ec.DposContext.candidateTrie 0) ec.DposContext
    rw [← h1]

/-- An error of one round of `tryElect` on a well-formed store: the stored
validator list is untouched, the Candidates relation can only have lost members,
and nothing changed unless the error is a store failure of an eviction. -/
theorem tryElectRound_error_frame {σ : Type} (R : Rand σ) (pk : PackageVars)
    (ec : EpochContext) (genesis parent : Header) (prevEpoch : Int) (kick : Bool) (i : Int)
    (err : Error) (dc1 : DposContext)
    (hnd : ec.DposContext.candidateTrie.Nodup)
    (hM1 : 1 ≤ genesis.MaxValidatorSize) (hM62 : genesis.MaxValidatorSize < 2 ^ 62)
    (h : tryElectRound R pk ec genesis parent prevEpoch kick i = some (some err, dc1)) :
    dc1.epochTrie = ec.DposContext.epochTrie ∧
      dc1.candidateTrie.Sublist ec.DposContext.candidateTrie ∧
      (err ≠ .storeError → dc1 = ec.DposContext) := by
  have hsame : dc1 = ec.DposContext →
      dc1.epochTrie = ec.DposContext.epochTrie ∧
        dc1.candidateTrie.Sublist ec.DposContext.candidateTrie ∧
        (err ≠ .storeError → dc1 = ec.DposContext) := by
    intro e
    rw [e]
    exact ⟨rfl, List.Sublist.refl _, fun _ => rfl⟩
  unfold tryElectRound at h
  cases hk : kickStep pk ec genesis prevEpoch kick with
  | none => simp [hk] at h
  | some r =>
    obtain ⟨e, dcK⟩ := r
    cases e with
    | some kerr =>
      simp only [hk, Option.some.injEq, Prod.mk.injEq] at h
      obtain ⟨h1, h2⟩ := h
      subst h1 h2
      cases kick with
      | false => simp [kickStep] at hk
      | true =>
        exact kickoutValidator_error_frame pk ec prevEpoch genesis _ _
          (by simpa [kickStep] using hk)
    | none =>
      simp only [hk] at h
      have hcases := kickStep_ok_cases pk ec genesis prevEpoch kick dcK hnd hk
      have hframe := kickStep_frame pk ec genesis prevEpoch kick _ hk
      have hndK : dcK.candidateTrie.Nodup := hnd.sublist hframe.2
      have hpos := kickoutSafeSize_pos genesis
      have hsafe := kickoutSafeSize_eq genesis (by omega) (by omega)
      by_cases hc : dcK.candidateTrie = []
      · have hcv : countVotes { ec with DposContext := dcK } = ([], some .noCandidates) := by
          unfold countVotes
          simp only [hc]
        simp only [hcv, Option.some.injEq, Prod.mk.injEq] at h
        apply hsame
        rw [← h.2]
        rcases hcases with h1 | h1
        · exact h1
        · rw [hc] at h1
          simp only [List.length_nil, Nat.cast_zero] at h1
          omega
      · have htal := countVotes_keys { ec with DposContext := dcK } hc hndK
        have hlen := countVotes_length { ec with DposContext := dcK } hc hndK
        have hcv : countVotes { ec with DposContext := dcK }
            = ((countVotes { ec with DposContext := dcK }).1, none) := by
          rw [← htal.1]
        rw [hcv] at h
        simp only [] at h
        rcases electCandidates_some R genesis parent i _ dcK dc1 _ h with
          ⟨_, h2, h3⟩ | ⟨h2, _⟩
        · apply hsame
          rw [h2]
          rcases hcases with h1 | h1
          · exact h1
          · rw [hlen, tryElectSafeSize_eq genesis (by omega) hM62] at h3
            simp only [] at h3
            omega
        · cases h2

/-- Counterexample to C11 as stated: `kickoutValidator` evicts `C`, then the
removal of `B` fails, and it returns the store error with `C` gone; and a
`tryElect` over two epochs whose second round fails in an eviction returns the
error after its first round has evicted `C` and replaced the validator list. -/
theorem failure_not_atomic_counterexample :
    kickoutValidator kickVars failingDeleteContext 5 sampleGenesis
        = some (some .storeError,
            { failingDeleteContext.DposContext with
              candidateTrie := [addrA, addrB, addrD, addrE] }) ∧
      tryElect stepRand kickVars twoRoundContext sampleGenesis epochFiveParent
        = some (some .storeError,
            { twoRoundContext.DposContext with
              epochTrie := some [addrB, addrD, addrA]
              candidateTrie := [addrA, addrB, addrD, addrE] }) := by
  decide

/-- C11 (amended): when `kickoutValidator` or one round of `tryElect` returns an
error on a well-formed store with `1 <= MaxValidatorSize < 2^62`, the stored
validator list is as before that call or round, the Candidates relation can only
have lost members, and the whole store is as before unless the error is the
store failure of an eviction. -/
theorem failed_call_frame {σ : Type} (R : Rand σ) (pk : PackageVars) (ec : EpochContext)
    (genesis parent : Header) (epoch prevEpoch : Int) (kick : Bool) (i : Int)
    (call : Option (Option Error × DposContext)) (err : Error) (dc1 : DposContext)
    (hnd : ec.DposContext.candidateTrie.Nodup)
    (hM1 : 1 ≤ genesis.MaxValidatorSize) (hM62 : genesis.MaxValidatorSize < 2 ^ 62)
    (hcall : call = kickoutValidator pk ec epoch genesis ∨
      call = tryElectRound R pk ec genesis parent prevEpoch kick i)
    (hret : call = some (some err, dc1)) :
    dc1.epochTrie = ec.DposContext.epochTrie ∧
      dc1.candidateTrie.Sublist ec.DposContext.candidateTrie ∧
      (err ≠ .storeError → dc1 = ec.DposContext) := by
  rcases hcall with hcall | hcall
  · rw [hcall] at hret
    exact kickoutValidator_error_frame pk ec epoch genesis err dc1 hret
  · rw [hcall] at hret
    exact tryElectRound_error_frame R pk ec genesis parent prevEpoch kick i err dc1
      hnd hM1 hM62 hret

/-- Witness of C11 (amended): the failing `kickoutValidator` call of the
counterexample keeps the validator list and loses only `C`. -/
theorem failed_call_frame_witness :
    ({ failingDeleteContext.DposContext with
        candidateTrie := [addrA, addrB, addrD, addrE] } : DposContext).epochTrie
        = failingDeleteContext.DposContext.epochTrie ∧
      ([addrA, addrB, addrD, addrE] : List Address).Sublist
        failingDeleteContext.DposContext.candidateTrie ∧
      (Error.storeError ≠ .storeError →
        ({ failingDeleteContext.DposContext with
          candidateTrie := [addrA, addrB, addrD, addrE] } : DposContext)
          = failingDeleteContext.DposContext) :=
  failed_call_frame stepRand kickVars failingDeleteContext sampleGenesis epochFiveParent
    5 5 true 5 (kickoutValidator kickVars failingDeleteContext 5 sampleGenesis)
    .storeError _ (by decide) (by decide) (by decide) (Or.inl rfl) (by decide)

/-! ## The order of eviction -/

theorem sortedBy_reverse_weight (a b : sortableAddress)
    (h : sortedBy (sortReverse Less) a b) : a.weight ≤ b.weight := by
  unfold sortedBy sortReverse at h
  have hn : ¬ Less a b = true := by rw [h]; simp
  rw [Less_iff] at hn
  simp only [not_or, not_lt] at hn
  exact hn.1

theorem needKickoutValidators_nil (pk : PackageVars) (ec : EpochContext) (epoch : Int)
    (genesis : Header) (flagged : List sortableAddress)
    (h : needKickoutValidators pk ec epoch genesis [] = some flagged) : flagged = [] := by
  unfold needKickoutValidators at h
  cases ht : kickoutThreshold (kickoutEpochDuration pk ec) genesis with
  | none => simp [ht] at h
  | some t =>
    simp only [ht, needKickoutLoop, Option.some.injEq] at h
    exact h.symm

/-- When validators are flagged, `kickoutValidator` is the eviction loop run on
the flagged list sorted by `sort.Reverse`. -/
theorem kickoutValidator_eq_loop (pk : PackageVars) (ec : EpochContext) (epoch : Int)
    (genesis : Header) (vs : List Address) (flagged : List sortableAddress)
    (hvs : ec.DposContext.epochTrie = some vs)
    (hf : needKickoutValidators pk ec epoch genesis vs = some flagged)
    (hne : flagged ≠ []) :
    kickoutValidator pk ec epoch genesis
      = some (kickoutLoop (kickoutSafeSize genesis) (sortSort (sortReverse Less) flagged)
          (countCandidates ((flagged.length : Int) + kickoutSafeSize genesis)
            ec.DposContext.candidateTrie 0) ec.DposContext) := by
  have hvne : vs.length ≠ 0 := by
    intro e
    have : vs = [] := List.length_eq_zero.mp e
    subst this
    exact hne (needKickoutValidators_nil pk ec epoch genesis flagged hf)
  have hlen : ¬ ((flagged.length : Int) ≤ 0) := by
    have : 0 < flagged.length := List.length_pos.mpr hne
    omega
  unfold kickoutValidator
  simp only [DposContext.GetValidators, hvs, hvne, if_false, hf, hlen]

/-- Counterexample to C12 as stated: `B` (mint count 2) and `C` (mint count 1)
are flagged, the loop considers `C` first, and with room for a single eviction
it is `C`, the one with the lower mint count, that is evicted. -/
theorem kickoutValidator_order_counterexample :
    needKickoutValidators kickVars orderContext 5 sampleGenesis [addrA, addrB, addrC]
        = some [⟨addrB, 2⟩, ⟨addrC, 1⟩] ∧
      sortSort (sortReverse Less) [⟨addrB, 2⟩, ⟨addrC, 1⟩] = [⟨addrC, 1⟩, ⟨addrB, 2⟩] ∧
      kickoutValidator kickVars orderContext 5 sampleGenesis
        = some (none, { orderContext.DposContext with
            candidateTrie := [addrA, addrB, addrD] }) := by
  decide

/-- The order `evictionOrder` is the order `sort.Sort(sort.Reverse(..))` leaves. -/
theorem evictionOrder_iff (a b : sortableAddress) :
    evictionOrder a b ↔ sortedBy (sortReverse Less) a b := by
  have h := tallyOrder_iff b a
  unfold tallyOrder at h
  unfold evictionOrder
  constructor
  · intro hh
    apply h.mp
    rcases hh with hh | ⟨h1, h2⟩
    · exact Or.inl hh
    · exact Or.inr ⟨h1.symm, h2⟩
  · intro hh
    rcases h.mpr hh with h1 | ⟨h1, h2⟩
    · exact Or.inl h1
    · exact Or.inr ⟨h1.symm, h2⟩

/-- The result of `sort.Sort(sort.Reverse(..))` is the only arrangement of the
list in that order. -/
theorem sortSort_reverse_unique (l s : List sortableAddress) (hp : s.Perm l)
    (hs : s.Sorted (sortedBy (sortReverse Less))) : s = sortSort (sortReverse Less) l := by
  haveI : IsAntisymm sortableAddress (sortedBy (sortReverse Less)) :=
    ⟨fun a b h1 h2 => sortedBy_Less_antisymm a b h2 h1⟩
  exact List.eq_of_perm_of_sorted (hp.trans (sortSort_perm _ l).symm) hs
    (sortSort_reverse_sorted l)

/-- C12 (amended): `kickoutValidator` processes the flagged validators in
ascending order of mint count, equal counts by descending address string: the
list its eviction loop walks is the one arrangement of the flagged list in which
every validator comes before those with a higher mint count and before those
with the same mint count and a smaller address string. -/
theorem kickoutValidator_eviction_order (pk : PackageVars) (ec : EpochContext)
    (epoch : Int) (genesis : Header) (vs : List Address) (flagged : List sortableAddress)
    (hvs : ec.DposContext.epochTrie = some vs)
    (hf : needKickoutValidators pk ec epoch genesis vs = some flagged)
    (hne : flagged ≠ []) :
    ∃ order : List sortableAddress, order.Perm flagged ∧
      order.Pairwise (fun a b => a.weight ≤ b.weight) ∧
      order.Pairwise evictionOrder ∧
      (∀ s : List sortableAddress, s.Perm flagged → s.Pairwise evictionOrder → s = order) ∧
      kickoutValidator pk ec epoch genesis
        = some (kickoutLoop (kickoutSafeSize genesis) order
            (countCandidates ((flagged.length : Int) + kickoutSafeSize genesis)
              ec.DposContext.candidateTrie 0) ec.DposContext) := by
  refine ⟨sortSort (sortReverse Less) flagged, sortSort_perm _ _, ?_, ?_, ?_,
    kickoutValidator_eq_loop pk ec epoch genesis vs flagged hvs hf hne⟩
  · exact List.Pairwise.imp (fun {a b} h => sortedBy_reverse_weight a b h)
      (sortSort_reverse_sorted flagged)
  · exact List.Pairwise.imp (fun {a b} h => (evictionOrder_iff a b).mpr h)
      (sortSort_reverse_sorted flagged)
  · intro s hp hs
    exact sortSort_reverse_unique flagged s hp
      (List.Pairwise.imp (fun {a b} h => (evictionOrder_iff a b).mp h) hs)

/-- Witness of C12 (amended) on `tieContext`: `B` and `C` have minted one block
each, the loop walks `C` before `B`, and with room for a single eviction it is
`C` that is evicted. -/
theorem kickoutValidator_eviction_order_witness :
    sortSort (sortReverse Less) [⟨addrB, 1⟩, ⟨addrC, 1⟩] = [⟨addrC, 1⟩, ⟨addrB, 1⟩] ∧
    kickoutValidator kickVars tieContext 5 sampleGenesis
      = some (none, { tieContext.DposContext with candidateTrie := [addrA, addrB, addrD] }) ∧
    ∃ order : List sortableAddress, order.Perm [⟨addrB, 1⟩, ⟨addrC, 1⟩] ∧
      order.Pairwise (fun a b => a.weight ≤ b.weight) ∧
      order.Pairwise evictionOrder ∧
      (∀ s : List sortableAddress, s.Perm [⟨addrB, 1⟩, ⟨addrC, 1⟩] →
        s.Pairwise evictionOrder → s = order) ∧
      kickoutValidator kickVars tieContext 5 sampleGenesis
        = some (kickoutLoop (kickoutSafeSize sampleGenesis) order
            (countCandidates
              ((([⟨addrB, 1⟩, ⟨addrC, 1⟩] : List sortableAddress).length : Int)
                + kickoutSafeSize sampleGenesis)
              tieContext.DposContext.candidateTrie 0) tieContext.DposContext) :=
  ⟨by decide, by decide,
    kickoutValidator_eviction_order kickVars tieContext 5 sampleGenesis
      [addrA, addrB, addrC] [⟨addrB, 1⟩, ⟨addrC, 1⟩] rfl (by decide) (by decide)⟩

/-! ## Failures of `lookupValidator` -/

/-- For a block interval below `2^63`, the conversion leaves it as it is and
`lookupValidator` is the slot check followed by the round-robin lookup. -/
theorem lookupValidator_eq (pk : PackageVars) (ec : EpochContext) (now : Int)
    (blockInterval : Int)
    (hE : 0 < pk.epochInterval) (hnow : 0 ≤ now) (hnow63 : now < 2 ^ 63)
    (hb0 : 0 < blockInterval) (hb63 : blockInterval < 2 ^ 63) :
    lookupValidator pk ec now blockInterval =
      if now % pk.epochInterval % blockInterval ≠ 0 then
        some (.error .invalidMintBlockTime)
      else
        match ec.DposContext.epochTrie with
        | none => some (.error .storeError)
        | some vs =>
          if vs.length = 0 then some (.error .failedToLookupValidator)
          else
            match vs[(now % pk.epochInterval / blockInterval % vs.length).toNat]? with
            | some v => some (.ok v)
            | none => none := by
  have ho : 0 ≤ now % pk.epochInterval := Int.emod_nonneg _ hE.ne'
  have ho63 : now % pk.epochInterval < 2 ^ 63 := by
    have : now % pk.epochInterval ≤ now := emod_le_of_nonneg _ _ hnow hE
    omega
  have h1 : goMod now pk.epochInterval = some (now % pk.epochInterval) := by
    unfold goMod
    rw [if_neg hE.ne', Int.tmod_eq_emod hnow hE.le]
  have hbi : toInt64 blockInterval = blockInterval :=
    toInt64_of_range _ (by omega) hb63
  have hm : goMod (now % pk.epochInterval) blockInterval
      = some (now % pk.epochInterval % blockInterval) := by
    unfold goMod
    rw [if_neg hb0.ne', Int.tmod_eq_emod ho hb0.le]
  have hd : goDiv (now % pk.epochInterval) blockInterval
      = some (now % pk.epochInterval / blockInterval) := by
    rw [goDiv_of_pos _ _ hb0 (by omega) ho63, Int.tdiv_eq_ediv ho hb0.le]
  have hq0 : 0 ≤ now % pk.epochInterval / blockInterval := Int.ediv_nonneg ho hb0.le
  unfold lookupValidator
  simp only [h1, hbi, hm, hd, DposContext.GetValidators]
  by_cases hr : now % pk.epochInterval % blockInterval = 0
  · simp only [hr, ne_eq, not_true_eq_false, if_false]
    cases hv : ec.DposContext.epochTrie with
    | none => rfl
    | some vs =>
      simp only []
      by_cases hl : vs.length = 0
      · simp only [hl, if_true]
      · have hlenZ : (0 : Int) < vs.length := by
          have : 0 < vs.length := Nat.pos_of_ne_zero hl
          exact_mod_cast this
        have h2 : goMod (now % pk.epochInterval / blockInterval) vs.length
            = some (now % pk.epochInterval / blockInterval % vs.length) := by
          unfold goMod
          rw [if_neg hlenZ.ne', Int.tmod_eq_emod hq0 hlenZ.le]
        have hi0 : ¬ now % pk.epochInterval / blockInterval % vs.length < 0 :=
          not_lt.mpr (Int.emod_nonneg _ hlenZ.ne')
        simp only [hl, if_false, h2, hi0]
  · simp only [hr, ne_eq, not_false_eq_true, if_true]

/-- Counterexample to C13 as stated: `blockInterval = 2^64 - 10` converts to
`-10`, so the timestamp 20, which is not on a slot boundary, passes the slot
check; the call then fails with the lookup error on an empty validator list and
indexes out of range (a panic) on three validators, and never returns the
invalid-mint-time error. -/
theorem lookupValidator_failures_counterexample :
    ¬ ((2 ^ 64 - 10 : Int) ∣ 20 % 30) ∧
      lookupValidator ⟨30, 0⟩ emptyValidatorContext 20 (2 ^ 64 - 10)
        = some (.error .failedToLookupValidator) ∧
      lookupValidator ⟨30, 0⟩ sampleLookupContext 20 (2 ^ 64 - 10) = none := by
  refine ⟨by decide, rfl, rfl⟩

/-- C13 (amended): for a timestamp `now >= 0` and `0 < blockInterval < 2^63`,
`lookupValidator` returns the invalid-mint-time error when `now mod
epochInterval` is not a multiple of `blockInterval`, whatever the store holds;
otherwise it returns the store error when the validator list cannot be read, the
lookup error when the list is empty, and a validator in every other case. -/
theorem lookupValidator_failures (pk : PackageVars) (ec : EpochContext) (now : Int)
    (blockInterval : Int)
    (hE : 0 < pk.epochInterval) (hnow : 0 ≤ now) (hnow63 : now < 2 ^ 63)
    (hb0 : 0 < blockInterval) (hb63 : blockInterval < 2 ^ 63) :
    (¬ blockInterval ∣ now % pk.epochInterval →
        lookupValidator pk ec now blockInterval = some (.error .invalidMintBlockTime)) ∧
      (blockInterval ∣ now % pk.epochInterval → ec.DposContext.epochTrie = none →
        lookupValidator pk ec now blockInterval = some (.error .storeError)) ∧
      (blockInterval ∣ now % pk.epochInterval → ec.DposContext.epochTrie = some [] →
        lookupValidator pk ec now blockInterval
          = some (.error .failedToLookupValidator)) ∧
      (blockInterval ∣ now % pk.epochInterval →
        ∀ vs, ec.DposContext.epochTrie = some vs → vs ≠ [] →
          ∃ v, lookupValidator pk ec now blockInterval = some (.ok v)) := by
  have heq := lookupValidator_eq pk ec now blockInterval hE hnow hnow63 hb0 hb63
  have hdvd : blockInterval ∣ now % pk.epochInterval ↔
      now % pk.epochInterval % blockInterval = 0 :=
    ⟨Int.emod_eq_zero_of_dvd, Int.dvd_of_emod_eq_zero⟩
  refine ⟨?_, ?_, ?_, ?_⟩
  · intro h
    rw [hdvd] at h
    rw [heq, if_pos h]
  · intro h hv
    rw [hdvd] at h
    rw [heq, if_neg (not_not.mpr h), hv]
  · intro h hv
    rw [hdvd] at h
    rw [heq, if_neg (not_not.mpr h), hv]
    rfl
  · intro h vs hv hne
    rw [hdvd] at h
    have hlen : 0 < vs.length := List.length_pos.mpr hne
    have hlenZ : (0 : Int) < vs.length := by exact_mod_cast hlen
    have hi0 := Int.emod_nonneg (now % pk.epochInterval / blockInterval) hlenZ.ne'
    have hi1 := Int.emod_lt_of_pos (now % pk.epochInterval / blockInterval) hlenZ
    have hidx : (now % pk.epochInterval / blockInterval % vs.length).toNat < vs.length := by
      omega
    obtain ⟨v, hget⟩ : ∃ v, vs[(now % pk.epochInterval / blockInterval
        % vs.length).toNat]? = some v := ⟨_, List.getElem?_eq_getElem hidx⟩
    refine ⟨v, ?_⟩
    rw [heq, if_neg (not_not.mpr h), hv]
    simp only [hlen.ne', if_false, hget]

/-- Witness of C13 (amended): an off-slot timestamp, and a slot boundary over an
empty validator list. -/
theorem lookupValidator_failures_witness :
    lookupValidator ⟨30, 0⟩ sampleLookupContext 25 10
        = some (.error .invalidMintBlockTime) ∧
      lookupValidator ⟨30, 0⟩ emptyValidatorContext 20 10
        = some (.error .failedToLookupValidator) :=
  ⟨(lookupValidator_failures ⟨30, 0⟩ sampleLookupContext 25 10 (by decide) (by decide)
      (by decide) (by decide) (by decide)).1 (by decide),
    (lookupValidator_failures ⟨30, 0⟩ emptyValidatorContext 20 10 (by decide) (by decide)
      (by decide) (by decide) (by decide)).2.2.1 (by decide) rfl⟩

/-! ## Calls that change nothing -/

/-- C14: when the parent header's epoch equals the epoch of the current block,
`tryElect` returns without error and leaves the whole store, the Candidates
relation and the validator list included, as it was. -/
theorem tryElect_same_epoch {σ : Type} (R : Rand σ) (pk : PackageVars) (ec : EpochContext)
    (genesis parent : Header) (hE : 0 < pk.epochInterval)
    (hT1 : -2 ^ 63 ≤ ec.TimeStamp) (hT2 : ec.TimeStamp < 2 ^ 63)
    (hsame : (toInt64 parent.Time).tdiv pk.epochInterval
      = ec.TimeStamp.tdiv pk.epochInterval) :
    tryElect R pk ec genesis parent = some (none, ec.DposContext) := by
  have hs : epochOf pk (toInt64 parent.Time) = epochOf pk ec.TimeStamp := hsame
  have hstart : startEpoch pk ec genesis parent = epochOf pk ec.TimeStamp := by
    unfold startEpoch
    rw [if_neg (by rw [hs]; exact fun h => lt_irrefl _ h.2), hs]
  rw [tryElect_eq_loop R pk ec genesis parent hE hT1 hT2, hstart]
  simp only [sub_self, Int.toNat_zero]
  rfl

/-- Witness of C14: parent at time 190 and block at time 200, both in epoch 6. -/
theorem tryElect_same_epoch_witness :
    tryElect stepRand ⟨30, 0⟩ sampleEpochContext sampleGenesis sameEpochParent
      = some (none, sampleEpochContext.DposContext) :=
  tryElect_same_epoch stepRand ⟨30, 0⟩ sampleEpochContext sampleGenesis sameEpochParent
    (by decide) (by decide) (by decide) (by decide)

/-- C15: `countVotes` returns the no-candidates error with an empty tally when
the Candidates relation is empty, and no error when it is not. -/
theorem countVotes_error_iff (ec : EpochContext) :
    (ec.DposContext.candidateTrie = [] → countVotes ec = ([], some .noCandidates)) ∧
      (ec.DposContext.candidateTrie ≠ [] → (countVotes ec).2 = none) := by
  constructor
  · intro h
    unfold countVotes
    rw [h]
  · intro h
    unfold countVotes
    cases hc : ec.DposContext.candidateTrie with
    | nil => exact absurd hc h
    | cons c rest => rfl

/-- Witness of C15 on a store without candidates and on `sampleEpochContext`. -/
theorem countVotes_error_iff_witness :
    countVotes noCandidateContext = ([], some .noCandidates) ∧
      (countVotes sampleEpochContext).2 = none :=
  ⟨(countVotes_error_iff noCandidateContext).1 rfl,
    (countVotes_error_iff sampleEpochContext).2 (by decide)⟩

theorem needKickoutLoop_none_flagged (dc : DposContext) (epoch threshold : Int)
    (vs : List Address) (h : ∀ v ∈ vs, ¬ mintCntOf dc epoch v < threshold) :
    needKickoutLoop dc epoch threshold vs [] = [] := by
  rw [needKickoutLoop_eq]
  simp only [List.nil_append, List.map_eq_nil_iff, List.filter_eq_nil_iff,
    decide_eq_true_eq]
  exact h

/-- C16: for a non-empty validator list in which no validator's mint count is
below the eviction threshold, `kickoutValidator` returns without error and
leaves the whole store, the Candidates relation and the validator list included,
as it was. -/
theorem kickoutValidator_nothing_flagged (pk : PackageVars) (ec : EpochContext)
    (epoch : Int) (genesis : Header) (vs : List Address) (threshold : Int)
    (hvs : ec.DposContext.epochTrie = some vs) (hne : vs ≠ [])
    (ht : kickoutThreshold (kickoutEpochDuration pk ec) genesis = some threshold)
    (hnone : ∀ v ∈ vs, ¬ mintCntOf ec.DposContext epoch v < threshold) :
    kickoutValidator pk ec epoch genesis = some (none, ec.DposContext) := by
  have hl : vs.length ≠ 0 := fun e => hne (List.length_eq_zero.mp e)
  have hflag : needKickoutValidators pk ec epoch genesis vs = some [] := by
    unfold needKickoutValidators
    rw [ht]
    simp only []
    rw [needKickoutLoop_none_flagged _ _ _ _ hnone]
  unfold kickoutValidator
  simp only [DposContext.GetValidators, hvs, hl, if_false, hflag, List.length_nil,
    Nat.cast_zero, le_refl, if_true]

/-- Witness of C16: every validator of `activeContext` minted 100 blocks against
a threshold of 10. -/
theorem kickoutValidator_nothing_flagged_witness :
    kickoutValidator kickVars activeContext 5 sampleGenesis
      = some (none, activeContext.DposContext) :=
  kickoutValidator_nothing_flagged kickVars activeContext 5 sampleGenesis
    [addrA, addrB, addrC] 10 rfl (by decide) (by decide) (by decide)

/-! ## Read-only calls -/

theorem countVotesLoop_congr (ec ec2 : EpochContext)
    (hd : ec2.DposContext.delegateTrie = ec.DposContext.delegateTrie)
    (hs : ec2.statedb = ec.statedb) (cs : List Address) (votes : Votes) :
    countVotesLoop ec2 cs votes = countVotesLoop ec cs votes := by
  induction cs generalizing votes with
  | nil => rfl
  | cons c rest ih =>
    have hdel : ec2.DposContext.delegatorsOf c = ec.DposContext.delegatorsOf c := by
      unfold DposContext.delegatorsOf
      rw [hd]
    rw [countVotesLoop, countVotesLoop, hdel, hs]
    cases ec.DposContext.delegatorsOf c with
    | nil => exact ih _
    | cons d ds => exact ih _

/-- The results of `lookupValidator` and `countVotes` are functions of what the
methods read: the timestamp, the block interval and the stored validator list,
and the Candidates and Delegations relations and the ledger balances. -/
theorem results_depend_on_reads (pk : PackageVars) (ec ec2 : EpochContext) (now : Int)
    (blockInterval : Int) :
    (ec2.DposContext.epochTrie = ec.DposContext.epochTrie →
        lookupValidator pk ec2 now blockInterval = lookupValidator pk ec now blockInterval) ∧
      (ec2.DposContext.candidateTrie = ec.DposContext.candidateTrie →
        ec2.DposContext.delegateTrie = ec.DposContext.delegateTrie →
        ec2.statedb = ec.statedb → countVotes ec2 = countVotes ec) := by
  constructor
  · intro h
    unfold lookupValidator DposContext.GetValidators
    rw [h]
  · intro hc hd hs
    unfold countVotes
    rw [hc]
    cases ec.DposContext.candidateTrie with
    | nil => rfl
    | cons c rest =>
      simp only []
      rw [countVotesLoop_congr ec ec2 hd hs]

/-! ## The comparator as an order -/

/-- C20: `Less` (weight descending, then address string ascending) is a strict
total order: irreflexive, asymmetric, transitive, and of two distinct entries,
in particular of two entries with distinct addresses, exactly one is `Less` than
the other; hence all rearrangements of a list sort to the same sequence. -/
theorem Less_strict_total_order :
    (∀ a, Less a a = false) ∧
      (∀ a b, Less a b = true → Less b a = false) ∧
      (∀ a b c, Less a b = true → Less b c = true → Less a c = true) ∧
      (∀ a b, a ≠ b →
        (Less a b = true ∧ Less b a = false) ∨ (Less b a = true ∧ Less a b = false)) ∧
      (∀ a b, a.address ≠ b.address →
        (Less a b = true ∧ Less b a = false) ∨ (Less b a = true ∧ Less a b = false)) ∧
      (∀ l1 l2 : List sortableAddress, l1.Perm l2 → sortSort Less l1 = sortSort Less l2) := by
  have hirr : ∀ a, Less a a = false := by
    intro a
    cases h : Less a a with
    | false => rfl
    | true =>
      have := Less_asymm a a h
      rw [h] at this
      exact absurd this (by simp)
  have hconn : ∀ a b, a ≠ b →
      (Less a b = true ∧ Less b a = false) ∨ (Less b a = true ∧ Less a b = false) := by
    intro a b hab
    cases h1 : Less a b with
    | true => exact Or.inl ⟨rfl, Less_asymm a b h1⟩
    | false =>
      cases h2 : Less b a with
      | true => exact Or.inr ⟨rfl, rfl⟩
      | false => exact absurd (Less_connected a b h1 h2) hab
  refine ⟨hirr, Less_asymm, Less_trans, hconn, ?_, ?_⟩
  · intro a b hab
    exact hconn a b (fun e => hab (by rw [e]))
  · intro l1 l2 h
    exact sortSort_Less_unique l2 _ ((sortSort_perm Less l1).trans h)
      (sortSort_Less_sorted l1)

/-! ## The shuffle loop is total and returns a rearrangement -/

theorem toInt32_lt (x : Int) : toInt32 x < 2 ^ 31 := by
  unfold toInt32
  omega

/-- A positive `int32(i + 1)` is at most `i + 1`. -/
theorem int32OfIndexSucc_le (i : Nat) (h : 0 < int32OfIndexSucc i) :
    int32OfIndexSucc i ≤ ((i + 1 : Nat) : Int) := by
  unfold int32OfIndexSucc at h ⊢
  split_ifs at h ⊢ with h1
  · exact le_refl _
  · have h2 := toInt32_lt ((i + 1 : Nat) : Int)
    omega

/-- For a slice index below `2^31 - 1` the conversion `int32(i + 1)` is exact, so
the loop asks `Int31n` for a draw with a positive bound. -/
theorem int32OfIndexSucc_of_lt (i : Nat) (h : i + 1 < 2 ^ 31) :
    int32OfIndexSucc i = ((i + 1 : Nat) : Int) := by
  unfold int32OfIndexSucc
  rw [if_pos h]

/-- The exchange of two positions inside the slice succeeds and keeps the
length. -/
theorem swapAt_some {α : Type} (cs : List α) (i j : Nat) (hi : i < cs.length)
    (hj : j < cs.length) : ∃ cs1, swapAt cs i j = some cs1 ∧ cs1.length = cs.length := by
  unfold swapAt
  rw [List.getElem?_eq_getElem hi, List.getElem?_eq_getElem hj]
  exact ⟨_, rfl, by simp⟩

/-- With every draw of the loop inside its range, the shuffle loop started at an
index of the slice runs to its end without a panic. -/
theorem shuffleLoop_total {σ α : Type} (R : Rand σ) (i : Nat) (r : σ) (cs : List α)
    (hi : i ≤ cs.length - 1)
    (hdraw : ∀ (idx : Nat) (s : σ), 1 ≤ idx → idx ≤ i →
      0 ≤ (R.Int31n s (int32OfIndexSucc idx)).1 ∧
        (R.Int31n s (int32OfIndexSucc idx)).1 < int32OfIndexSucc idx) :
    ∃ cs1, shuffleLoop R i r cs = some cs1 ∧ cs1.length = cs.length := by
  induction i generalizing r cs with
  | zero => exact ⟨cs, by simp [shuffleLoop], rfl⟩
  | succ i ih =>
    have hd := hdraw (i + 1) r (by omega) (le_refl _)
    have hpos : 0 < int32OfIndexSucc (i + 1) := by omega
    have hle := int32OfIndexSucc_le (i + 1) hpos
    obtain ⟨cs2, hs, hl⟩ := swapAt_some cs (i + 1)
      ((R.Int31n r (int32OfIndexSucc (i + 1))).1.toNat) (by omega) (by omega)
    obtain ⟨cs1, h1, h2⟩ := ih (R.Int31n r (int32OfIndexSucc (i + 1))).2 cs2 (by omega)
      (fun idx s a b => hdraw idx s a (by omega))
    refine ⟨cs1, ?_, h2.trans hl⟩
    rw [shuffleLoop]
    simp only []
    rw [if_neg (by omega), if_neg (by omega), hs]
    exact h1

/-- C21: for every candidate slice `cs` and every generator whose draws
`Int31n(int32(i+1))` asked by the loop lie in `[0, int32(i+1))`, the shuffle loop
of `tryElect` (from `len-1` down to `1`, exchanging positions `i` and `j`)
finishes without an index out of range and returns a rearrangement of `cs` of
the same length; when `cs` is the truncated sorted candidate list of a round,
the round hands `SetValidators` the addresses of that rearrangement. -/
theorem shuffle_permutation {σ : Type} (R : Rand σ) (r : σ) (cs : List sortableAddress)
    (hdraw : ∀ (idx : Nat) (s : σ), 1 ≤ idx → idx < cs.length →
      0 ≤ (R.Int31n s (int32OfIndexSucc idx)).1 ∧
        (R.Int31n s (int32OfIndexSucc idx)).1 < int32OfIndexSucc idx) :
    ∃ shuffled : List sortableAddress,
      shuffleLoop R (cs.length - 1) r cs = some shuffled ∧
      shuffled.Perm cs ∧ shuffled.length = cs.length ∧
      (shuffled.map (fun c => c.address)).length = (cs.map (fun c => c.address)).length ∧
      (shuffled.map (fun c => c.address)).Perm (cs.map (fun c => c.address)) ∧
      ∀ (genesis parent : Header) (i : Int) (cands : List sortableAddress)
        (dc : DposContext),
        cs = electedTop genesis cands →
        r = R.NewSource (toInt64 (parent.hashSeed % 2 ^ 32 + i)) →
        tryElectSafeSize genesis ≤ cands.length →
        ((cands.length : Int) ≤ toInt64 genesis.MaxValidatorSize ∨
          0 ≤ toInt64 genesis.MaxValidatorSize) →
        electCandidates R genesis parent i cands dc
          = some (none, (dc.SetEpoch.SetValidators
              (shuffled.map (fun c => c.address))).2) := by
  obtain ⟨shuffled, hsh, hlen⟩ := shuffleLoop_total R (cs.length - 1) r cs (le_refl _)
    (fun idx s a b => hdraw idx s a (by omega))
  have hperm := shuffleLoop_perm R _ r cs shuffled hsh
  refine ⟨shuffled, hsh, hperm, hlen, by simp [hlen], hperm.map _, ?_⟩
  intro genesis parent i cands dc hcs hr hsize hmax
  subst hcs hr
  rw [electCandidates_eq, if_neg (by omega), if_neg (by omega), hsh]

theorem shuffle_permutation_witness :
    ∃ shuffled : List sortableAddress,
      shuffleLoop stepRand
          (([⟨addrA, 12⟩, ⟨addrB, 7⟩, ⟨addrC, 0⟩] : List sortableAddress).length - 1)
          (5 : Int) [⟨addrA, 12⟩, ⟨addrB, 7⟩, ⟨addrC, 0⟩] = some shuffled ∧
      shuffled.Perm [⟨addrA, 12⟩, ⟨addrB, 7⟩, ⟨addrC, 0⟩] ∧
      shuffled.length = ([⟨addrA, 12⟩, ⟨addrB, 7⟩, ⟨addrC, 0⟩] : List sortableAddress).length ∧
      (shuffled.map (fun c => c.address)).length
        = (([⟨addrA, 12⟩, ⟨addrB, 7⟩, ⟨addrC, 0⟩] : List sortableAddress).map
            (fun c => c.address)).length ∧
      (shuffled.map (fun c => c.address)).Perm
        (([⟨addrA, 12⟩, ⟨addrB, 7⟩, ⟨addrC, 0⟩] : List sortableAddress).map
          (fun c => c.address)) ∧
      ∀ (genesis parent : Header) (i : Int) (cands : List sortableAddress)
        (dc : DposContext),
        [⟨addrA, 12⟩, ⟨addrB, 7⟩, ⟨addrC, 0⟩] = electedTop genesis cands →
        (5 : Int) = stepRand.NewSource (toInt64 (parent.hashSeed % 2 ^ 32 + i)) →
        tryElectSafeSize genesis ≤ cands.length →
        ((cands.length : Int) ≤ toInt64 genesis.MaxValidatorSize ∨
          0 ≤ toInt64 genesis.MaxValidatorSize) →
        electCandidates stepRand genesis parent i cands dc
          = some (none, (dc.SetEpoch.SetValidators
              (shuffled.map (fun c => c.address))).2) :=
  shuffle_permutation stepRand 5 [⟨addrA, 12⟩, ⟨addrB, 7⟩, ⟨addrC, 0⟩] (by
    intro idx s h1 h2
    have h3 : idx = 1 ∨ idx = 2 := by
      simp only [List.length_cons, List.length_nil] at h2
      omega
    rcases h3 with h3 | h3 <;> subst h3
    · have h4 : int32OfIndexSucc 1 = 2 := by decide
      rw [h4]
      simp only [stepRand]
      omega
    · have h4 : int32OfIndexSucc 2 = 3 := by decide
      rw [h4]
      simp only [stepRand]
      omega)

/-! ## The rounds of one `tryElect` call -/

/-- The loop of `tryElect` outside the genesis epoch, as the run of its rounds:
round `k` has epoch index `i + k` and calls `kickoutValidator` while the
mint-count iterator still has a record. -/
theorem tryElectLoop_eq_runRounds {σ : Type} (R : Rand σ) (pk : PackageVars)
    (genesis parent : Header) (prevEpoch : Int) (rounds : Nat) (i : Int)
    (iter : List ((Int × Address) × Int)) (ec : EpochContext) :
    tryElectLoop R pk genesis parent prevEpoch false rounds i iter ec
      = runRounds R pk genesis parent prevEpoch
          ((List.range rounds).map (fun k : Nat => (i + (k : Int), decide (k < iter.length)))) ec := by
  induction rounds generalizing i iter ec with
  | zero => rfl
  | succ n ih =>
    have hkick : (!false && !iter.isEmpty) = decide (0 < iter.length) := by
      cases iter <;> simp
    have hrest : (List.range n).map
          ((fun k : Nat => (i + (k : Int), decide (k < iter.length))) ∘ Nat.succ)
        = (List.range n).map
          (fun k : Nat => (i + 1 + (k : Int), decide (k < iter.tail.length))) := by
      apply List.map_congr_left
      intro k _
      simp only [Function.comp, Nat.succ_eq_add_one, Prod.mk.injEq, List.length_tail,
        decide_eq_decide]
      constructor
      · push_cast; ring
      · omega
    rw [tryElectLoop_succ, List.range_succ_eq_map, List.map_cons, List.map_map, hrest,
      runRounds, hkick]
    simp only [Nat.cast_zero, add_zero, Bool.false_eq_true, if_false]
    cases hr : tryElectRound R pk ec genesis parent prevEpoch (decide (0 < iter.length)) i with
    | none => rfl
    | some r =>
      obtain ⟨err, dc⟩ := r
      cases err with
      | some e => rfl
      | none => exact ih (i + 1) iter.tail { ec with DposContext := dc }

/-- C22: with `P`, `C`, `G` the epochs of the parent, of the current block and
of the genesis block, `tryElect` is the run of no round when `P ≥ C`; of the one
round with epoch index `C - 1` and no kickout when `P = G` and `P < C`; and of
the `C - P` rounds with epoch indices `P, P + 1, …, C - 1` in this order
otherwise, a round calling `kickoutValidator` while the mint-count iterator of
epoch `P` still has a record. -/
theorem tryElect_round_schedule {σ : Type} (R : Rand σ) (pk : PackageVars)
    (ec : EpochContext) (genesis parent : Header) (hE : 0 < pk.epochInterval)
    (hT1 : -2 ^ 63 ≤ ec.TimeStamp) (hT2 : ec.TimeStamp < 2 ^ 63) :
    (epochOf pk ec.TimeStamp ≤ epochOf pk (toInt64 parent.Time) →
        tryElect R pk ec genesis parent
          = runRounds R pk genesis parent (epochOf pk (toInt64 parent.Time)) [] ec) ∧
      (epochOf pk (toInt64 parent.Time) = epochOf pk (toInt64 genesis.Time) →
        epochOf pk (toInt64 parent.Time) < epochOf pk ec.TimeStamp →
        tryElect R pk ec genesis parent
          = runRounds R pk genesis parent (epochOf pk ec.TimeStamp - 1)
              [(epochOf pk ec.TimeStamp - 1, false)] ec) ∧
      (epochOf pk (toInt64 parent.Time) ≠ epochOf pk (toInt64 genesis.Time) →
        epochOf pk (toInt64 parent.Time) < epochOf pk ec.TimeStamp →
        tryElect R pk ec genesis parent
          = runRounds R pk genesis parent (epochOf pk (toInt64 parent.Time))
              ((List.range
                  (epochOf pk ec.TimeStamp - epochOf pk (toInt64 parent.Time)).toNat).map
                (fun k : Nat => (epochOf pk (toInt64 parent.Time) + (k : Int),
                  decide (k < (ec.DposContext.mintCntPrefix
                    (toUint64 (epochOf pk (toInt64 parent.Time)))).length)))) ec ∧
        (((List.range
            (epochOf pk ec.TimeStamp - epochOf pk (toInt64 parent.Time)).toNat).map
          (fun k : Nat => (epochOf pk (toInt64 parent.Time) + (k : Int),
            decide (k < (ec.DposContext.mintCntPrefix
              (toUint64 (epochOf pk (toInt64 parent.Time)))).length)))).length : Int)
          = epochOf pk ec.TimeStamp - epochOf pk (toInt64 parent.Time)) := by
  rw [tryElect_eq_loop R pk ec genesis parent hE hT1 hT2]
  refine ⟨?_, ?_, ?_⟩
  · intro hle
    have hstart : startEpoch pk ec genesis parent = epochOf pk (toInt64 parent.Time) := by
      unfold startEpoch
      rw [if_neg (fun h => absurd h.2 (not_lt.mpr hle))]
    rw [hstart, Int.toNat_eq_zero.mpr (by omega)]
    rfl
  · intro hPG hlt
    have hg : parentInGenesisEpoch pk genesis parent = true := by
      unfold parentInGenesisEpoch
      exact decide_eq_true hPG
    have hstart : startEpoch pk ec genesis parent = epochOf pk ec.TimeStamp - 1 := by
      unfold startEpoch
      rw [if_pos ⟨hg, hlt⟩]
    have hone : (epochOf pk ec.TimeStamp - (epochOf pk ec.TimeStamp - 1)).toNat = 0 + 1 := by
      have : epochOf pk ec.TimeStamp - (epochOf pk ec.TimeStamp - 1) = 1 := by ring
      rw [this]; rfl
    rw [hstart, hg, hone, tryElectLoop_succ, runRounds]
    simp only [Bool.not_true, Bool.false_and, if_true]
    cases hr : tryElectRound R pk ec genesis parent (epochOf pk ec.TimeStamp - 1) false
        (epochOf pk ec.TimeStamp - 1) with
    | none => rfl
    | some r =>
      obtain ⟨err, dc⟩ := r
      cases err with
      | some e => rfl
      | none => rfl
  · intro hPG hlt
    have hg : parentInGenesisEpoch pk genesis parent = false := by
      unfold parentInGenesisEpoch
      exact decide_eq_false hPG
    have hstart : startEpoch pk ec genesis parent = epochOf pk (toInt64 parent.Time) := by
      unfold startEpoch
      rw [if_neg (fun h => by rw [hg] at h; exact absurd h.1 (by decide))]
    rw [hstart, hg, tryElectLoop_eq_runRounds]
    refine ⟨rfl, ?_⟩
    rw [List.length_map, List.length_range]
    exact Int.toNat_of_nonneg (by omega)

/-- Witness of C22: parent in epoch 5, block in epoch 7, genesis in epoch 0, two
mint records of epoch 5: the rounds have epoch indices 5 and 6. -/
theorem tryElect_round_schedule_witness :
    tryElect stepRand kickVars twoRoundContext sampleGenesis epochFiveParent
        = runRounds stepRand kickVars sampleGenesis epochFiveParent 5
            [(5, true), (6, true)] twoRoundContext ∧
      ((([(5, true), (6, true)] : List (Int × Bool)).length : Nat) : Int) = 7 - 5 :=
  (tryElect_round_schedule stepRand kickVars twoRoundContext sampleGenesis epochFiveParent
    (by decide) (by decide) (by decide)).2.2 (by decide) (by decide)

/-! ## `lookupValidator` never panics on a block interval below `2^63` -/

/-- Counterexample to C23 as stated: the block interval `2^64 - 5` converts to
`-5`; at timestamp 10 the offset 10 passes the slot check, the quotient is `-2`,
its remainder by the three validators is `-2`, and `validators[-2]` is an index
out of range: the call panics. -/
theorem lookupValidator_index_counterexample :
    toInt64 (2 ^ 64 - 5) = -5 ∧
      goMod 10 30 = some 10 ∧
      goMod 10 (toInt64 (2 ^ 64 - 5)) = some 0 ∧
      goDiv 10 (toInt64 (2 ^ 64 - 5)) = some (-2) ∧
      sampleLookupContext.DposContext.GetValidators = .ok [addrA, addrB, addrC] ∧
      goMod (-2) (([addrA, addrB, addrC] : List Address).length : Int) = some (-2) ∧
      lookupValidator ⟨30, 0⟩ sampleLookupContext 10 (2 ^ 64 - 5) = none := by
  refine ⟨by decide, by decide, by decide, by decide, rfl, by decide, rfl⟩

/-- C23 (amended): for every timestamp `now ≥ 0` and every block interval with
`0 < blockInterval < 2^63`, no divisor of `lookupValidator` is zero, the call
returns, and the index computed for a non-empty validator list lies in
`[0, len(validators))`, so the final indexing step yields a validator. -/
theorem lookupValidator_index_in_range (pk : PackageVars) (ec : EpochContext) (now : Int)
    (blockInterval : Int)
    (hE : 0 < pk.epochInterval) (hnow : 0 ≤ now) (hnow63 : now < 2 ^ 63)
    (hb0 : 0 < blockInterval) (hb63 : blockInterval < 2 ^ 63) :
    goMod now pk.epochInterval = some (now % pk.epochInterval) ∧
      goMod (now % pk.epochInterval) (toInt64 blockInterval)
        = some (now % pk.epochInterval % blockInterval) ∧
      goDiv (now % pk.epochInterval) (toInt64 blockInterval)
        = some (now % pk.epochInterval / blockInterval) ∧
      (∃ r, lookupValidator pk ec now blockInterval = some r) ∧
      ∀ vs, ec.DposContext.epochTrie = some vs → vs ≠ [] →
        goMod (now % pk.epochInterval / blockInterval) vs.length
          = some (now % pk.epochInterval / blockInterval % vs.length) ∧
        0 ≤ now % pk.epochInterval / blockInterval % vs.length ∧
        now % pk.epochInterval / blockInterval % vs.length < vs.length ∧
        (now % pk.epochInterval % blockInterval = 0 →
          ∃ v, vs[(now % pk.epochInterval / blockInterval % vs.length).toNat]? = some v ∧
            lookupValidator pk ec now blockInterval = some (.ok v)) := by
  have ho : 0 ≤ now % pk.epochInterval := Int.emod_nonneg _ hE.ne'
  have ho63 : now % pk.epochInterval < 2 ^ 63 := by
    have : now % pk.epochInterval ≤ now := emod_le_of_nonneg _ _ hnow hE
    omega
  have hbi : toInt64 blockInterval = blockInterval :=
    toInt64_of_range _ (by omega) hb63
  have hq0 : 0 ≤ now % pk.epochInterval / blockInterval := Int.ediv_nonneg ho hb0.le
  have hidx : ∀ vs : List Address, vs ≠ [] →
      goMod (now % pk.epochInterval / blockInterval) vs.length
          = some (now % pk.epochInterval / blockInterval % vs.length) ∧
        0 ≤ now % pk.epochInterval / blockInterval % vs.length ∧
        now % pk.epochInterval / blockInterval % vs.length < vs.length ∧
        ∃ v, vs[(now % pk.epochInterval / blockInterval % vs.length).toNat]? = some v := by
    intro vs hne
    have hlenZ : (0 : Int) < vs.length := by
      have : 0 < vs.length := List.length_pos.mpr hne
      exact_mod_cast this
    have h0 := Int.emod_nonneg (now % pk.epochInterval / blockInterval) hlenZ.ne'
    have h1 := Int.emod_lt_of_pos (now % pk.epochInterval / blockInterval) hlenZ
    refine ⟨?_, h0, h1, ?_⟩
    · unfold goMod
      rw [if_neg hlenZ.ne', Int.tmod_eq_emod hq0 hlenZ.le]
    · have hlt : (now % pk.epochInterval / blockInterval % vs.length).toNat < vs.length := by
        omega
      exact ⟨_, List.getElem?_eq_getElem hlt⟩
  have heq := lookupValidator_eq pk ec now blockInterval hE hnow hnow63 hb0 hb63
  refine ⟨?_, ?_, ?_, ?_, ?_⟩
  · unfold goMod
    rw [if_neg hE.ne', Int.tmod_eq_emod hnow hE.le]
  · rw [hbi]
    unfold goMod
    rw [if_neg hb0.ne', Int.tmod_eq_emod ho hb0.le]
  · rw [hbi, goDiv_of_pos _ _ hb0 (by omega) ho63, Int.tdiv_eq_ediv ho hb0.le]
  · rw [heq]
    by_cases hr : now % pk.epochInterval % blockInterval ≠ 0
    · rw [if_pos hr]; exact ⟨_, rfl⟩
    · rw [if_neg hr]
      cases hv : ec.DposContext.epochTrie with
      | none => exact ⟨_, rfl⟩
      | some vs =>
        simp only []
        by_cases hl : vs.length = 0
        · rw [if_pos hl]; exact ⟨_, rfl⟩
        · rw [if_neg hl]
          obtain ⟨_, _, _, v, hv1⟩ := hidx vs (fun h => hl (by rw [h]; rfl))
          rw [hv1]
          exact ⟨_, rfl⟩
  · intro vs hvs hne
    obtain ⟨h1, h2, h3, v, hv1⟩ := hidx vs hne
    refine ⟨h1, h2, h3, fun hr => ⟨v, hv1, ?_⟩⟩
    rw [heq, if_neg (not_not.mpr hr), hvs]
    simp only []
    rw [if_neg (fun h => hne (List.length_eq_zero.mp h)), hv1]

/-- Witness of C23 (amended): timestamp 40 with a 30-second epoch and block
interval 10 over three validators gives index 1. -/
theorem lookupValidator_index_in_range_witness :
    goMod 40 30 = some ((40 : Int) % 30) ∧
      (∃ r, lookupValidator ⟨30, 0⟩ sampleLookupContext 40 10 = some r) ∧
      (0 : Int) ≤ (40 : Int) % 30 / 10 % (([addrA, addrB, addrC] : List Address).length : Int) ∧
      (40 : Int) % 30 / 10 % (([addrA, addrB, addrC] : List Address).length : Int)
        < (([addrA, addrB, addrC] : List Address).length : Int) :=
  ⟨(lookupValidator_index_in_range ⟨30, 0⟩ sampleLookupContext 40 10 (by decide) (by decide)
      (by decide) (by decide) (by decide)).1,
    (lookupValidator_index_in_range ⟨30, 0⟩ sampleLookupContext 40 10 (by decide) (by decide)
      (by decide) (by decide) (by decide)).2.2.2.1,
    ((lookupValidator_index_in_range ⟨30, 0⟩ sampleLookupContext 40 10 (by decide) (by decide)
      (by decide) (by decide) (by decide)).2.2.2.2 [addrA, addrB, addrC] rfl (by decide)).2.1,
    ((lookupValidator_index_in_range ⟨30, 0⟩ sampleLookupContext 40 10 (by decide) (by decide)
      (by decide) (by decide) (by decide)).2.2.2.2 [addrA, addrB, addrC] rfl (by decide)).2.2.1⟩

/-! ## The number and the choice of evictions -/

/-- The counting loop stops at the limit or at the end of the candidate trie. -/
theorem countCandidates_eq (limit : Int) (l : List Address) (k : Int) (h : k < limit) :
    countCandidates limit l k = min (k + l.length) limit := by
  induction l generalizing k with
  | nil =>
    simp only [countCandidates, List.length_nil, Nat.cast_zero, add_zero]
    omega
  | cons a rest ih =>
    rw [countCandidates]
    split_ifs with h1
    · simp only [List.length_cons]
      push_cast
      omega
    · rw [ih (k + 1) (by omega)]
      simp only [List.length_cons]
      push_cast
      omega

/-- A candidate count that exceeds the safe size by at least the number of
flagged validators never stops the eviction loop, whatever its value. -/
theorem kickoutLoop_count_irrelevant (s : Int) (vs : List sortableAddress) (k1 k2 : Int)
    (dc : DposContext) (h1 : (vs.length : Int) + s ≤ k1) (h2 : (vs.length : Int) + s ≤ k2) :
    kickoutLoop s vs k1 dc = kickoutLoop s vs k2 dc ∧
      kickoutLoopEvictions s vs k1 dc = kickoutLoopEvictions s vs k2 dc := by
  induction vs generalizing k1 k2 dc with
  | nil => exact ⟨rfl, rfl⟩
  | cons v rest ih =>
    simp only [List.length_cons] at h1 h2
    push_cast at h1 h2
    simp only [kickoutLoop, kickoutLoopEvictions]
    rw [if_neg (by omega), if_neg (by omega), if_neg (by omega), if_neg (by omega)]
    cases hk : dc.KickoutCandidate v.address with
    | error e => exact ⟨rfl, rfl⟩
    | ok dc1 =>
      obtain ⟨ih1, ih2⟩ := ih (k1 - 1) (k2 - 1) dc1 (by omega) (by omega)
      exact ⟨ih1, by simp only [ih2]⟩

/-- The early `break` of the counting loop changes neither the outcome of the
eviction loop nor the entries it evicts. -/
theorem kickoutLoop_capped (s : Int) (hs : 1 ≤ s) (vs : List sortableAddress) (f : Nat)
    (hf : vs.length = f) (cands : List Address) (dc : DposContext) :
    kickoutLoop s vs (countCandidates ((f : Int) + s) cands 0) dc
        = kickoutLoop s vs cands.length dc ∧
      kickoutLoopEvictions s vs (countCandidates ((f : Int) + s) cands 0) dc
        = kickoutLoopEvictions s vs cands.length dc := by
  subst hf
  rw [countCandidates_eq _ _ _ (by omega), zero_add]
  by_cases hc : (cands.length : Int) ≤ (vs.length : Int) + s
  · rw [min_eq_left hc]
    exact ⟨rfl, rfl⟩
  · rw [min_eq_right (by omega)]
    exact kickoutLoop_count_irrelevant s vs _ _ dc (le_refl _) (by omega)

/-- With every removal succeeding, the eviction loop evicts the first
`candidateCount - safeSize` entries of its list and returns no error. -/
theorem kickoutLoopEvictions_of_ok (s : Int) (vs : List sortableAddress) (k : Int)
    (dc : DposContext) (hok : ∀ v ∈ vs, v.address ∉ dc.failingDeletes) :
    kickoutLoopEvictions s vs k dc = vs.take (k - s).toNat ∧
      (kickoutLoop s vs k dc).1 = none := by
  induction vs generalizing k dc with
  | nil => exact ⟨by simp [kickoutLoopEvictions], rfl⟩
  | cons v rest ih =>
    simp only [kickoutLoop, kickoutLoopEvictions]
    by_cases hk : k ≤ s
    · rw [if_pos hk, if_pos hk, Int.toNat_eq_zero.mpr (by omega)]
      exact ⟨rfl, rfl⟩
    · rw [if_neg hk, if_neg hk]
      have hv : v.address ∉ dc.failingDeletes := hok v (List.mem_cons_self _ _)
      have hko : dc.KickoutCandidate v.address
          = .ok { dc with candidateTrie := dc.candidateTrie.filter (fun c => c ≠ v.address) } := by
        unfold DposContext.KickoutCandidate
        rw [if_neg hv]
      rw [hko]
      simp only []
      obtain ⟨ih1, ih2⟩ := ih (k - 1)
        { dc with candidateTrie := dc.candidateTrie.filter (fun c => c ≠ v.address) }
        (fun w hw => hok w (List.mem_cons_of_mem _ hw))
      have hn : (k - s).toNat = (k - 1 - s).toNat + 1 := by omega
      rw [hn, List.take_succ_cons, ih1]
      exact ⟨rfl, ih2⟩

/-- The candidate trie the eviction loop leaves is the one it received without
the addresses of the evicted entries. -/
theorem kickoutLoop_candidateTrie (s : Int) (vs : List sortableAddress) (k : Int)
    (dc : DposContext) :
    (kickoutLoop s vs k dc).2.candidateTrie
      = dc.candidateTrie.filter
          (fun c => decide (c ∉ (kickoutLoopEvictions s vs k dc).map (fun v => v.address))) := by
  induction vs generalizing k dc with
  | nil => simp [kickoutLoop, kickoutLoopEvictions]
  | cons v rest ih =>
    by_cases hk : k ≤ s
    · simp [kickoutLoop, kickoutLoopEvictions, hk]
    · cases hko : dc.KickoutCandidate v.address with
      | error e => simp [kickoutLoop, kickoutLoopEvictions, hk, hko]
      | ok dc1 =>
        have h1 : kickoutLoop s (v :: rest) k dc = kickoutLoop s rest (k - 1) dc1 := by
          simp only [kickoutLoop, if_neg hk, hko]
        have h2 : kickoutLoopEvictions s (v :: rest) k dc
            = v :: kickoutLoopEvictions s rest (k - 1) dc1 := by
          simp only [kickoutLoopEvictions, if_neg hk, hko]
        rw [h1, h2, ih (k - 1) dc1, (KickoutCandidate_ok dc dc1 v.address hko).2,
          List.filter_filter]
        apply List.filter_congr
        intro c _
        simp only [List.map_cons, List.mem_cons, not_or, ne_eq, decide_not, Bool.decide_and,
          Bool.and_comm]

/-- The evicted entries are an initial segment of the list the loop walks. -/
theorem kickoutLoopEvictions_prefix (s : Int) (vs : List sortableAddress) (k : Int)
    (dc : DposContext) : kickoutLoopEvictions s vs k dc <+: vs := by
  induction vs generalizing k dc with
  | nil => exact List.nil_prefix
  | cons v rest ih =>
    simp only [kickoutLoopEvictions]
    by_cases hk : k ≤ s
    · rw [if_pos hk]; exact List.nil_prefix
    · rw [if_neg hk]
      cases hko : dc.KickoutCandidate v.address with
      | error e => exact List.nil_prefix
      | ok dc1 => exact (List.prefix_cons_inj v).mpr (ih (k - 1) dc1)

/-- C24: with `f` flagged validators, `c` registered candidates and every store
removal succeeding, `kickoutValidator` returns no error and evicts exactly
`min(f, max(0, c - SafeSize))` entries, the first ones of the sorted flagged
list; the candidate count capped at `f + SafeSize` by the early `break` gives
the same outcome and the same sequence of evictions as the count of all
candidates. -/
theorem kickoutValidator_eviction_count (pk : PackageVars) (ec : EpochContext)
    (epoch : Int) (genesis : Header) (vs : List Address) (flagged : List sortableAddress)
    (hvs : ec.DposContext.epochTrie = some vs)
    (hf : needKickoutValidators pk ec epoch genesis vs = some flagged)
    (hne : flagged ≠ [])
    (hok : ∀ v ∈ flagged, v.address ∉ ec.DposContext.failingDeletes) :
    kickoutValidator pk ec epoch genesis
        = some (kickoutLoop (kickoutSafeSize genesis) (sortSort (sortReverse Less) flagged)
            (countCandidates ((flagged.length : Int) + kickoutSafeSize genesis)
              ec.DposContext.candidateTrie 0) ec.DposContext) ∧
      kickoutLoop (kickoutSafeSize genesis) (sortSort (sortReverse Less) flagged)
          (countCandidates ((flagged.length : Int) + kickoutSafeSize genesis)
            ec.DposContext.candidateTrie 0) ec.DposContext
        = kickoutLoop (kickoutSafeSize genesis) (sortSort (sortReverse Less) flagged)
            (ec.DposContext.candidateTrie.length : Int) ec.DposContext ∧
      kickoutLoopEvictions (kickoutSafeSize genesis) (sortSort (sortReverse Less) flagged)
          (countCandidates ((flagged.length : Int) + kickoutSafeSize genesis)
            ec.DposContext.candidateTrie 0) ec.DposContext
        = kickoutLoopEvictions (kickoutSafeSize genesis)
            (sortSort (sortReverse Less) flagged)
            (ec.DposContext.candidateTrie.length : Int) ec.DposContext ∧
      kickoutLoopEvictions (kickoutSafeSize genesis) (sortSort (sortReverse Less) flagged)
          (countCandidates ((flagged.length : Int) + kickoutSafeSize genesis)
            ec.DposContext.candidateTrie 0) ec.DposContext
        = (sortSort (sortReverse Less) flagged).take
            (min (flagged.length : Int)
              (max 0 ((ec.DposContext.candidateTrie.length : Int)
                - kickoutSafeSize genesis))).toNat ∧
      ((kickoutLoopEvictions (kickoutSafeSize genesis) (sortSort (sortReverse Less) flagged)
          (countCandidates ((flagged.length : Int) + kickoutSafeSize genesis)
            ec.DposContext.candidateTrie 0) ec.DposContext).length : Int)
        = min (flagged.length : Int)
            (max 0 ((ec.DposContext.candidateTrie.length : Int) - kickoutSafeSize genesis)) ∧
      ∃ dc1, kickoutValidator pk ec epoch genesis = some (none, dc1) ∧
        dc1.candidateTrie = ec.DposContext.candidateTrie.filter
          (fun a => decide (a ∉
            (kickoutLoopEvictions (kickoutSafeSize genesis)
              (sortSort (sortReverse Less) flagged)
              (countCandidates ((flagged.length : Int) + kickoutSafeSize genesis)
                ec.DposContext.candidateTrie 0) ec.DposContext).map (fun v => v.address))) := by
  have hlen : (sortSort (sortReverse Less) flagged).length = flagged.length :=
    (sortSort_perm _ flagged).length_eq
  have hrun := kickoutValidator_eq_loop pk ec epoch genesis vs flagged hvs hf hne
  obtain ⟨hcap1, hcap2⟩ := kickoutLoop_capped (kickoutSafeSize genesis)
    (kickoutSafeSize_pos genesis) (sortSort (sortReverse Less) flagged) flagged.length hlen
    ec.DposContext.candidateTrie ec.DposContext
  obtain ⟨hev, hnone⟩ := kickoutLoopEvictions_of_ok (kickoutSafeSize genesis)
    (sortSort (sortReverse Less) flagged) (ec.DposContext.candidateTrie.length : Int)
    ec.DposContext (fun v hv => hok v ((sortSort_perm _ flagged).mem_iff.mp hv))
  have htake : (sortSort (sortReverse Less) flagged).take
        ((ec.DposContext.candidateTrie.length : Int) - kickoutSafeSize genesis).toNat
      = (sortSort (sortReverse Less) flagged).take
        (min (flagged.length : Int)
          (max 0 ((ec.DposContext.candidateTrie.length : Int)
            - kickoutSafeSize genesis))).toNat := by
    rw [List.take_eq_take, hlen]
    omega
  have hcount : ((kickoutLoopEvictions (kickoutSafeSize genesis)
        (sortSort (sortReverse Less) flagged)
        (ec.DposContext.candidateTrie.length : Int) ec.DposContext).length : Int)
      = min (flagged.length : Int)
          (max 0 ((ec.DposContext.candidateTrie.length : Int) - kickoutSafeSize genesis)) := by
    rw [hev, List.length_take, hlen]
    omega
  refine ⟨hrun, hcap1, hcap2, ?_, ?_, ?_⟩
  · rw [hcap2, hev, htake]
  · rw [hcap2, hcount]
  · refine ⟨(kickoutLoop (kickoutSafeSize genesis) (sortSort (sortReverse Less) flagged)
        (countCandidates ((flagged.length : Int) + kickoutSafeSize genesis)
          ec.DposContext.candidateTrie 0) ec.DposContext).2, ?_, ?_⟩
    · rw [hrun, hcap1]
      congr 1
      exact Prod.ext hnone rfl
    · exact kickoutLoop_candidateTrie _ _ _ _

/-- Witness of C24 on `orderContext`: two flagged validators, four candidates
and `SafeSize = 3` give one eviction. -/
theorem kickoutValidator_eviction_count_witness :
    kickoutLoopEvictions (kickoutSafeSize sampleGenesis)
        (sortSort (sortReverse Less) [⟨addrB, 2⟩, ⟨addrC, 1⟩])
        (countCandidates
          ((([⟨addrB, 2⟩, ⟨addrC, 1⟩] : List sortableAddress).length : Int)
            + kickoutSafeSize sampleGenesis)
          orderContext.DposContext.candidateTrie 0) orderContext.DposContext
      = kickoutLoopEvictions (kickoutSafeSize sampleGenesis)
          (sortSort (sortReverse Less) [⟨addrB, 2⟩, ⟨addrC, 1⟩])
          (orderContext.DposContext.candidateTrie.length : Int) orderContext.DposContext ∧
    ((kickoutLoopEvictions (kickoutSafeSize sampleGenesis)
        (sortSort (sortReverse Less) [⟨addrB, 2⟩, ⟨addrC, 1⟩])
        (countCandidates
          ((([⟨addrB, 2⟩, ⟨addrC, 1⟩] : List sortableAddress).length : Int)
            + kickoutSafeSize sampleGenesis)
          orderContext.DposContext.candidateTrie 0) orderContext.DposContext).length : Int)
      = min ((([⟨addrB, 2⟩, ⟨addrC, 1⟩] : List sortableAddress).length : Int))
          (max 0 ((orderContext.DposContext.candidateTrie.length : Int)
            - kickoutSafeSize sampleGenesis)) ∧
    kickoutLoopEvictions (kickoutSafeSize sampleGenesis)
        (sortSort (sortReverse Less) [⟨addrB, 2⟩, ⟨addrC, 1⟩])
        (orderContext.DposContext.candidateTrie.length : Int) orderContext.DposContext
      = [⟨addrC, 1⟩] :=
  ⟨(kickoutValidator_eviction_count kickVars orderContext 5 sampleGenesis
      [addrA, addrB, addrC] [⟨addrB, 2⟩, ⟨addrC, 1⟩] rfl (by decide) (by decide)
      (by decide)).2.2.1,
    (kickoutValidator_eviction_count kickVars orderContext 5 sampleGenesis
      [addrA, addrB, addrC] [⟨addrB, 2⟩, ⟨addrC, 1⟩] rfl (by decide) (by decide)
      (by decide)).2.2.2.2.1, by decide⟩

/-- Every flagged entry is a stored validator and carries the mint count read
for its address. -/
theorem needKickoutValidators_weight (pk : PackageVars) (ec : EpochContext) (epoch : Int)
    (genesis : Header) (vs : List Address) (flagged : List sortableAddress)
    (hf : needKickoutValidators pk ec epoch genesis vs = some flagged) :
    ∀ x ∈ flagged, x.weight = mintCntOf ec.DposContext epoch x.address ∧ x.address ∈ vs := by
  unfold needKickoutValidators at hf
  cases ht : kickoutThreshold (kickoutEpochDuration pk ec) genesis with
  | none => rw [ht] at hf; cases hf
  | some threshold =>
    rw [ht] at hf
    simp only [Option.some.injEq] at hf
    subst hf
    intro x hx
    rw [needKickoutLoop_eq] at hx
    simp only [List.nil_append, List.mem_map, List.mem_filter] at hx
    obtain ⟨v, ⟨hv, _⟩, rfl⟩ := hx
    exact ⟨rfl, hv⟩

/-- C25: the entries `kickoutValidator` evicts are an initial segment of the
flagged validators sorted by ascending mint count, so every evicted flagged
validator has a mint count less than or equal to that of every flagged validator
that was spared; the candidate trie loses exactly the evicted addresses. -/
theorem kickoutValidator_evicts_lowest (pk : PackageVars) (ec : EpochContext)
    (epoch : Int) (genesis : Header) (vs : List Address) (flagged : List sortableAddress)
    (hvs : ec.DposContext.epochTrie = some vs)
    (hf : needKickoutValidators pk ec epoch genesis vs = some flagged)
    (hne : flagged ≠ []) :
    ∃ evicted spared : List sortableAddress,
      evicted = kickoutLoopEvictions (kickoutSafeSize genesis)
          (sortSort (sortReverse Less) flagged)
          (countCandidates ((flagged.length : Int) + kickoutSafeSize genesis)
            ec.DposContext.candidateTrie 0) ec.DposContext ∧
      (evicted ++ spared).Perm flagged ∧
      (∀ x ∈ evicted, ∀ y ∈ spared,
        mintCntOf ec.DposContext epoch x.address ≤ mintCntOf ec.DposContext epoch y.address) ∧
      (∀ a b : Address, a ∈ evicted.map (fun v => v.address) →
        b ∈ flagged.map (fun v => v.address) → b ∉ evicted.map (fun v => v.address) →
        mintCntOf ec.DposContext epoch a ≤ mintCntOf ec.DposContext epoch b) ∧
      ∃ r, kickoutValidator pk ec epoch genesis = some r ∧
        r.2.candidateTrie = ec.DposContext.candidateTrie.filter
          (fun c => decide (c ∉ evicted.map (fun v => v.address))) := by
  have hperm := sortSort_perm (sortReverse Less) flagged
  have hw := needKickoutValidators_weight pk ec epoch genesis vs flagged hf
  obtain ⟨spared, hsp⟩ := kickoutLoopEvictions_prefix (kickoutSafeSize genesis)
    (sortSort (sortReverse Less) flagged)
    (countCandidates ((flagged.length : Int) + kickoutSafeSize genesis)
      ec.DposContext.candidateTrie 0) ec.DposContext
  have hsorted : (sortSort (sortReverse Less) flagged).Pairwise
      (sortedBy (sortReverse Less)) := sortSort_reverse_sorted flagged
  rw [← hsp] at hsorted
  have hcross := (List.pairwise_append.mp hsorted).2.2
  have hmemE : ∀ x ∈ kickoutLoopEvictions (kickoutSafeSize genesis)
      (sortSort (sortReverse Less) flagged)
      (countCandidates ((flagged.length : Int) + kickoutSafeSize genesis)
        ec.DposContext.candidateTrie 0) ec.DposContext, x ∈ flagged := by
    intro x hx
    apply hperm.mem_iff.mp
    rw [← hsp]
    exact List.mem_append_left _ hx
  have hmemS : ∀ y ∈ spared, y ∈ flagged := by
    intro y hy
    apply hperm.mem_iff.mp
    rw [← hsp]
    exact List.mem_append_right _ hy
  have hle : ∀ x ∈ kickoutLoopEvictions (kickoutSafeSize genesis)
      (sortSort (sortReverse Less) flagged)
      (countCandidates ((flagged.length : Int) + kickoutSafeSize genesis)
        ec.DposContext.candidateTrie 0) ec.DposContext, ∀ y ∈ spared,
      mintCntOf ec.DposContext epoch x.address ≤ mintCntOf ec.DposContext epoch y.address := by
    intro x hx y hy
    rw [← (hw x (hmemE x hx)).1, ← (hw y (hmemS y hy)).1]
    exact sortedBy_reverse_weight x y (hcross x hx y hy)
  refine ⟨_, spared, rfl, ?_, hle, ?_, ?_⟩
  · rw [hsp]; exact hperm
  · intro a b ha hb hnb
    obtain ⟨x, hx, rfl⟩ := List.mem_map.mp ha
    obtain ⟨y, hy, rfl⟩ := List.mem_map.mp hb
    have hy1 : y ∈ kickoutLoopEvictions (kickoutSafeSize genesis)
        (sortSort (sortReverse Less) flagged)
        (countCandidates ((flagged.length : Int) + kickoutSafeSize genesis)
          ec.DposContext.candidateTrie 0) ec.DposContext ++ spared := by
      rw [hsp]; exact hperm.mem_iff.mpr hy
    rcases List.mem_append.mp hy1 with h | h
    · exact absurd (List.mem_map.mpr ⟨y, h, rfl⟩) hnb
    · exact hle x hx y h
  · exact ⟨_, kickoutValidator_eq_loop pk ec epoch genesis vs flagged hvs hf hne,
      kickoutLoop_candidateTrie _ _ _ _⟩

/-- Witness of C25 on `orderContext`: of the flagged validators `B` (2 blocks)
and `C` (1 block) the safe size lets one be evicted, and it is `C`. -/
theorem kickoutValidator_evicts_lowest_witness :
    kickoutLoopEvictions (kickoutSafeSize sampleGenesis)
        (sortSort (sortReverse Less) [⟨addrB, 2⟩, ⟨addrC, 1⟩])
        (countCandidates
          ((([⟨addrB, 2⟩, ⟨addrC, 1⟩] : List sortableAddress).length : Int)
            + kickoutSafeSize sampleGenesis)
          orderContext.DposContext.candidateTrie 0) orderContext.DposContext
      = [⟨addrC, 1⟩] ∧
    ∃ evicted spared : List sortableAddress,
      evicted = kickoutLoopEvictions (kickoutSafeSize sampleGenesis)
          (sortSort (sortReverse Less) [⟨addrB, 2⟩, ⟨addrC, 1⟩])
          (countCandidates
            ((([⟨addrB, 2⟩, ⟨addrC, 1⟩] : List sortableAddress).length : Int)
              + kickoutSafeSize sampleGenesis)
            orderContext.DposContext.candidateTrie 0) orderContext.DposContext ∧
      (evicted ++ spared).Perm [⟨addrB, 2⟩, ⟨addrC, 1⟩] ∧
      (∀ x ∈ evicted, ∀ y ∈ spared,
        mintCntOf orderContext.DposContext 5 x.address
          ≤ mintCntOf orderContext.DposContext 5 y.address) ∧
      (∀ a b : Address, a ∈ evicted.map (fun v => v.address) →
        b ∈ ([⟨addrB, 2⟩, ⟨addrC, 1⟩] : List sortableAddress).map (fun v => v.address) →
        b ∉ evicted.map (fun v => v.address) →
        mintCntOf orderContext.DposContext 5 a ≤ mintCntOf orderContext.DposContext 5 b) ∧
      ∃ r, kickoutValidator kickVars orderContext 5 sampleGenesis = some r ∧
        r.2.candidateTrie = orderContext.DposContext.candidateTrie.filter
          (fun c => decide (c ∉ evicted.map (fun v => v.address))) :=
  ⟨by decide,
    kickoutValidator_evicts_lowest kickVars orderContext 5 sampleGenesis
      [addrA, addrB, addrC] [⟨addrB, 2⟩, ⟨addrC, 1⟩] rfl (by decide) (by decide)⟩

/-! ## The stored validator list has no repeated address -/

theorem Votes.keys_set_of_mem (m : Votes) (k : Address) (v : Int)
    (h : k ∈ m.map Prod.fst) : (m.set k v).map Prod.fst = m.map Prod.fst := by
  induction m with
  | nil => simp at h
  | cons kv m ih =>
    unfold Votes.set
    by_cases hk : kv.1 = k
    · rw [if_pos hk]
      simp only [List.map_cons, hk]
    · rw [if_neg hk]
      simp only [List.map_cons, List.mem_cons] at h ⊢
      rcases h with h | h
      · exact absurd h.symm hk
      · rw [ih h]

/-- A map write keeps the keys of the map distinct. -/
theorem Votes.set_nodup (m : Votes) (k : Address) (v : Int) (h : (m.map Prod.fst).Nodup) :
    ((m.set k v).map Prod.fst).Nodup := by
  by_cases hk : k ∈ m.map Prod.fst
  · rw [Votes.keys_set_of_mem m k v hk]
    exact h
  · rw [Votes.keys_set_of_not_mem m k v hk]
    exact List.Nodup.append h (List.nodup_singleton k)
      (by
        intro a ha hb
        rw [List.mem_singleton] at hb
        exact hk (hb ▸ ha))

theorem countVotesDelegators_nodup (statedb : List (Address × Nat)) (c : Address)
    (ds : List Address) (votes : Votes) (h : (votes.map Prod.fst).Nodup) :
    ((countVotesDelegators statedb c ds votes).map Prod.fst).Nodup := by
  induction ds generalizing votes with
  | nil => exact h
  | cons d ds ih =>
    unfold countVotesDelegators
    exact ih _ (Votes.set_nodup votes c _ h)

theorem countVotesLoop_nodup (ec : EpochContext) (cs : List Address) (votes : Votes)
    (h : (votes.map Prod.fst).Nodup) :
    ((countVotesLoop ec cs votes).map Prod.fst).Nodup := by
  induction cs generalizing votes with
  | nil => exact h
  | cons c rest ih =>
    unfold countVotesLoop
    cases hd : ec.DposContext.delegatorsOf c with
    | nil => exact ih _ (Votes.set_nodup votes c 0 h)
    | cons d ds => exact ih _ (countVotesDelegators_nodup ec.statedb c (d :: ds) votes h)

/-- The vote map returned by `countVotes` has one entry per address, whatever
the candidate trie holds. -/
theorem countVotes_nodup (ec : EpochContext) : ((countVotes ec).1.map Prod.fst).Nodup := by
  unfold countVotes
  cases hc : ec.DposContext.candidateTrie with
  | nil => exact List.nodup_nil
  | cons c rest => exact countVotesLoop_nodup ec (c :: rest) [] List.nodup_nil

/-- C26: the validator list stored by a successful election round of `tryElect`
contains no address more than once. -/
theorem tryElectRound_validators_nodup {σ : Type} (R : Rand σ) (pk : PackageVars)
    (ec : EpochContext) (genesis parent : Header) (prevEpoch : Int) (kick : Bool) (i : Int)
    (dc1 : DposContext) (vs : List Address)
    (hrun : tryElectRound R pk ec genesis parent prevEpoch kick i = some (none, dc1))
    (hvs : dc1.epochTrie = some vs) : vs.Nodup := by
  obtain ⟨dcK, votes, _, hc, he⟩ :=
    tryElectRound_ok R pk ec genesis parent prevEpoch kick i dc1 hrun
  rcases electCandidates_some R genesis parent i _ dcK dc1 none he with
    ⟨h, _, _⟩ | ⟨_, _, _, shuffled, hperm, hdc⟩
  · cases h
  have hvsl : vs = shuffled.map (fun c => c.address) :=
    SetValidators_stored dcK _ vs (hdc ▸ hvs)
  have hndT : ((votesRange votes).map (fun c => c.address)).Nodup := by
    rw [votesRange_address]
    have := countVotes_nodup { ec with DposContext := dcK }
    rw [hc] at this
    exact this
  have hndS : ((sortSort Less (votesRange votes)).map (fun c => c.address)).Nodup :=
    ((sortSort_perm Less (votesRange votes)).map _).nodup_iff.mpr hndT
  have hndTop : ((electedTop genesis (votesRange votes)).map (fun c => c.address)).Nodup := by
    unfold electedTop
    exact hndS.sublist ((List.take_sublist _ _).map _)
  rw [hvsl]
  exact (hperm.map _).nodup_iff.mpr hndTop

/-- Witness of C26: the round of `sampleEpochContext` stores `[B, C, A]`. -/
theorem tryElectRound_validators_nodup_witness :
    tryElectRound stepRand ⟨30, 0⟩ sampleEpochContext sampleGenesis sampleParent 5 false 5
        = some (none, sampleElected) ∧
      ([addrB, addrC, addrA] : List Address).Nodup :=
  ⟨by decide,
    tryElectRound_validators_nodup stepRand ⟨30, 0⟩ sampleEpochContext sampleGenesis
      sampleParent 5 false 5 sampleElected [addrB, addrC, addrA] (by decide) rfl⟩

/-! ## The eviction threshold as one floor division -/

/-- Two floor divisions by positive integers are one floor division by their
product. -/
theorem ediv_ediv_of_pos (m n k : Int) (hn : 0 < n) (hk : 0 < k) :
    m / n / k = m / (n * k) := by
  apply eq_of_forall_le_iff
  intro z
  rw [Int.le_ediv_iff_mul_le hk, Int.le_ediv_iff_mul_le hn,
    Int.le_ediv_iff_mul_le (mul_pos hn hk), mul_assoc, mul_comm k n]

/-- Counterexample to C27 as stated: the block interval `2^64 - 10` is positive
and converts to `-10`, so for an epoch of 600 seconds and three validators the
three divisions give `600 / -10 / 3 / 2 = -10`, while
`floor(600 / (2 * blockInterval * 3))` is `0`. -/
theorem kickoutThreshold_floor_counterexample :
    0 < wrapIntervalGenesis.BlockInterval ∧ wrapIntervalGenesis.BlockInterval < 2 ^ 64 ∧
      0 < wrapIntervalGenesis.MaxValidatorSize ∧
      toInt64 wrapIntervalGenesis.BlockInterval = -10 ∧
      kickoutThreshold 600 wrapIntervalGenesis = some (-10) ∧
      (600 : Int) / (2 * wrapIntervalGenesis.BlockInterval
        * wrapIntervalGenesis.MaxValidatorSize) = 0 := by
  decide

/-- C27 (amended): for every `epochDuration ≥ 0` and every `BlockInterval` and
`MaxValidatorSize` in `(0, 2^63)`, the threshold computed by the three truncating
divisions equals `floor(epochDuration / (2 * BlockInterval * MaxValidatorSize))`,
and every flagged validator, with mint count `m`, satisfies
`2 * m * BlockInterval * MaxValidatorSize < epochDuration`. -/
theorem kickoutThreshold_floor (genesis : Header)
    (hbi0 : 0 < genesis.BlockInterval) (hbi63 : genesis.BlockInterval < 2 ^ 63)
    (hM0 : 0 < genesis.MaxValidatorSize) (hM63 : genesis.MaxValidatorSize < 2 ^ 63) :
    (∀ d : Int, 0 ≤ d → d < 2 ^ 63 →
        kickoutThreshold d genesis
          = some (d / (2 * genesis.BlockInterval * genesis.MaxValidatorSize))) ∧
      (∀ (pk : PackageVars) (ec : EpochContext) (epoch : Int) (vs : List Address)
        (flagged : List sortableAddress),
        0 ≤ kickoutEpochDuration pk ec → kickoutEpochDuration pk ec < 2 ^ 63 →
        needKickoutValidators pk ec epoch genesis vs = some flagged →
        ∀ x ∈ flagged, x.weight = mintCntOf ec.DposContext epoch x.address ∧
          2 * x.weight * genesis.BlockInterval * genesis.MaxValidatorSize
            < kickoutEpochDuration pk ec) := by
  have hK : 0 < 2 * genesis.BlockInterval * genesis.MaxValidatorSize := by positivity
  have hfloor : ∀ d : Int, 0 ≤ d → d < 2 ^ 63 →
      kickoutThreshold d genesis
        = some (d / (2 * genesis.BlockInterval * genesis.MaxValidatorSize)) := by
    intro d hd0 hd63
    rw [kickoutThreshold_eq d genesis (by omega) hd63 hbi0 hbi63 hM0 hM63]
    have h1 : 0 ≤ d / genesis.BlockInterval := Int.ediv_nonneg hd0 hbi0.le
    have h2 : 0 ≤ d / genesis.BlockInterval / genesis.MaxValidatorSize :=
      Int.ediv_nonneg h1 hM0.le
    rw [Int.tdiv_eq_ediv hd0 hbi0.le, Int.tdiv_eq_ediv h1 hM0.le,
      Int.tdiv_eq_ediv h2 (by decide), ediv_ediv_of_pos _ _ _ hbi0 hM0,
      ediv_ediv_of_pos _ _ _ (mul_pos hbi0 hM0) (by decide)]
    congr 2
    ring
  refine ⟨hfloor, ?_⟩
  intro pk ec epoch vs flagged hd0 hd63 hf x hx
  unfold needKickoutValidators at hf
  rw [hfloor _ hd0 hd63] at hf
  simp only [Option.some.injEq] at hf
  subst hf
  rw [needKickoutLoop_eq] at hx
  simp only [List.nil_append, List.mem_map, List.mem_filter, decide_eq_true_eq] at hx
  obtain ⟨v, ⟨_, hlt⟩, rfl⟩ := hx
  refine ⟨rfl, ?_⟩
  have h1 : mintCntOf ec.DposContext epoch v + 1
      ≤ kickoutEpochDuration pk ec
        / (2 * genesis.BlockInterval * genesis.MaxValidatorSize) := by omega
  have h2 := (Int.le_ediv_iff_mul_le hK).mp h1
  simp only []
  nlinarith

/-- Witness of C27 (amended): `BlockInterval = 10` and `MaxValidatorSize = 3`
give the threshold `floor(600 / 60) = 10`. -/
theorem kickoutThreshold_floor_witness :
    kickoutThreshold 600 sampleGenesis
        = some ((600 : Int) / (2 * sampleGenesis.BlockInterval * sampleGenesis.MaxValidatorSize)) ∧
      (600 : Int) / (2 * sampleGenesis.BlockInterval * sampleGenesis.MaxValidatorSize) = 10 :=
  ⟨(kickoutThreshold_floor sampleGenesis (by decide) (by decide) (by decide)
      (by decide)).1 600 (by decide) (by decide), by decide⟩

/-! ## Read-only calls on a memory -/

theorem Memory.sameUpTo_refl (m : Memory) (n0 : Nat) (h : n0 ≤ m.bigInts.length) :
    m.sameUpTo m n0 :=
  ⟨rfl, rfl, rfl, rfl, h, fun _ _ => rfl⟩

theorem Memory.sameUpTo_trans (m m1 m2 : Memory) (n0 : Nat) (h1 : m.sameUpTo m1 n0)
    (h2 : m1.sameUpTo m2 n0) : m.sameUpTo m2 n0 := by
  obtain ⟨a1, a2, a3, a4, _, a6⟩ := h1
  obtain ⟨b1, b2, b3, b4, b5, b6⟩ := h2
  exact ⟨b1.trans a1, b2.trans a2, b3.trans a3, b4.trans a4, b5,
    fun p hp => (b6 p hp).trans (a6 p hp)⟩

/-- An allocation leaves the values allocated before it as they were. -/
theorem Memory.value_newBigInt (m : Memory) (p : Nat) (h : p < m.bigInts.length) :
    m.newBigInt.2.value p = m.value p := by
  unfold Memory.value Memory.newBigInt
  try simp only []
  rw [List.getElem?_append_left h]

/-- A write through `z` leaves the value of every other pointer as it was. -/
theorem Memory.value_Add_ne (m : Memory) (z x y p : Nat) (h : p ≠ z) :
    (m.Add z x y).value p = m.value p := by
  unfold Memory.value Memory.Add
  try simp only []
  rw [List.getElem?_set_ne (Ne.symm h)]

theorem Memory.sameUpTo_newBigInt (m : Memory) (n0 : Nat) (h : n0 ≤ m.bigInts.length) :
    m.sameUpTo m.newBigInt.2 n0 := by
  refine ⟨rfl, rfl, rfl, rfl, ?_, fun p hp => m.value_newBigInt p (by omega)⟩
  simp only [Memory.newBigInt, List.length_append, List.length_singleton]
  omega

theorem Memory.sameUpTo_Add (m : Memory) (n0 z x y : Nat) (h : n0 ≤ m.bigInts.length)
    (hz : n0 ≤ z) : m.sameUpTo (m.Add z x y) n0 := by
  refine ⟨rfl, rfl, rfl, rfl, ?_, fun p hp => m.value_Add_ne z x y p (by omega)⟩
  simp only [Memory.Add, List.length_set]
  exact h

theorem VotePtrs.mem_of_get (votes : VotePtrs) (k : Address) (p : Nat)
    (h : votes.get k = some p) : (k, p) ∈ votes := by
  unfold VotePtrs.get at h
  cases hf : votes.find? (fun kv => kv.1 = k) with
  | none => rw [hf] at h; cases h
  | some kv =>
    rw [hf] at h
    simp only [Option.map_some', Option.some.injEq] at h
    have hk := List.find?_some hf
    have hm := List.mem_of_find?_eq_some hf
    simp only [decide_eq_true_eq] at hk
    obtain ⟨a, b⟩ := kv
    simp only at hk h
    subst hk h
    exact hm

theorem VotePtrs.mem_set (votes : VotePtrs) (k : Address) (p : Nat) (kv : Address × Nat)
    (h : kv ∈ votes.set k p) : kv ∈ votes ∨ kv = (k, p) := by
  induction votes with
  | nil =>
    simp only [VotePtrs.set, List.mem_singleton] at h
    exact Or.inr h
  | cons x xs ih =>
    unfold VotePtrs.set at h
    split_ifs at h with hx
    · rcases List.mem_cons.mp h with h | h
      · exact Or.inr h
      · exact Or.inl (List.mem_cons_of_mem _ h)
    · rcases List.mem_cons.mp h with h | h
      · exact Or.inl (h ▸ List.mem_cons_self _ _)
      · rcases ih h with h | h
        · exact Or.inl (List.mem_cons_of_mem _ h)
        · exact Or.inr h

/-- The inner loop writes only through pointers it has allocated itself. -/
theorem countVotesDelegatorsOn_frame (c : Address) (ds : List Address) (votes : VotePtrs)
    (m : Memory) (n0 : Nat) (hn : n0 ≤ m.bigInts.length) (hv : ∀ kv ∈ votes, n0 ≤ kv.2) :
    m.sameUpTo (countVotesDelegatorsOn c ds votes m).2 n0 ∧
      ∀ kv ∈ (countVotesDelegatorsOn c ds votes m).1, n0 ≤ kv.2 := by
  induction ds generalizing votes m with
  | nil => exact ⟨m.sameUpTo_refl n0 hn, hv⟩
  | cons d rest ih =>
    rw [countVotesDelegatorsOn]
    try simp only []
    cases hg : votes.get c with
    | some score =>
      try simp only []
      have hs : n0 ≤ score := hv _ (votes.mem_of_get c score hg)
      have h1 := m.sameUpTo_Add n0 score score (m.GetBalance d) hn hs
      obtain ⟨i1, i2⟩ := ih (votes.set c score) (m.Add score score (m.GetBalance d)) h1.2.2.2.2.1
        (by
          intro kv hkv
          rcases votes.mem_set c score kv hkv with h | h
          · exact hv kv h
          · rw [h]; exact hs)
      exact ⟨m.sameUpTo_trans _ _ n0 h1 i1, i2⟩
    | none =>
      try simp only []
      have h0 := m.sameUpTo_newBigInt n0 hn
      have hs : n0 ≤ m.newBigInt.1 := hn
      have h1 := m.newBigInt.2.sameUpTo_Add n0 m.newBigInt.1 m.newBigInt.1
        (m.newBigInt.2.GetBalance d) h0.2.2.2.2.1 hs
      obtain ⟨i1, i2⟩ := ih (votes.set c m.newBigInt.1)
        (m.newBigInt.2.Add m.newBigInt.1 m.newBigInt.1 (m.newBigInt.2.GetBalance d))
        h1.2.2.2.2.1
        (by
          intro kv hkv
          rcases votes.mem_set c m.newBigInt.1 kv hkv with h | h
          · exact hv kv h
          · rw [h]; exact hs)
      exact ⟨m.sameUpTo_trans _ _ n0 (m.sameUpTo_trans _ _ n0 h0 h1) i1, i2⟩

/-- The outer loop writes only through pointers it has allocated itself. -/
theorem countVotesLoopOn_frame (dc : DposContext) (cs : List Address) (votes : VotePtrs)
    (m : Memory) (n0 : Nat) (hn : n0 ≤ m.bigInts.length) (hv : ∀ kv ∈ votes, n0 ≤ kv.2) :
    m.sameUpTo (countVotesLoopOn dc cs votes m).2 n0 ∧
      ∀ kv ∈ (countVotesLoopOn dc cs votes m).1, n0 ≤ kv.2 := by
  induction cs generalizing votes m with
  | nil => exact ⟨m.sameUpTo_refl n0 hn, hv⟩
  | cons c rest ih =>
    rw [countVotesLoopOn]
    cases hd : dc.delegatorsOf c with
    | nil =>
      try simp only []
      have h0 := m.sameUpTo_newBigInt n0 hn
      obtain ⟨i1, i2⟩ := ih (votes.set c m.newBigInt.1) m.newBigInt.2 h0.2.2.2.2.1
        (by
          intro kv hkv
          rcases votes.mem_set c m.newBigInt.1 kv hkv with h | h
          · exact hv kv h
          · rw [h]; exact hn)
      exact ⟨m.sameUpTo_trans _ _ n0 h0 i1, i2⟩
    | cons d ds =>
      try simp only []
      obtain ⟨f1, f2⟩ := countVotesDelegatorsOn_frame c (d :: ds) votes m n0 hn hv
      obtain ⟨i1, i2⟩ := ih _ _ f1.2.2.2.2.1 f2
      exact ⟨m.sameUpTo_trans _ _ n0 f1 i1, i2⟩

/-- A call of `countVotes` leaves the time stamp, the store, the ledger and every
`big.Int` allocated before the call as they were. -/
theorem countVotesOn_frame (m : Memory) :
    m.sameUpTo (countVotesOn m).2 m.bigInts.length := by
  unfold countVotesOn
  cases hc : m.store.candidateTrie with
  | nil => exact m.sameUpTo_refl _ (le_refl _)
  | cons c rest =>
    exact (countVotesLoopOn_frame m.store (c :: rest) [] m m.bigInts.length (le_refl _)
      (by intro kv hkv; cases hkv)).1

/-! ### The tally on the memory is the tally of `countVotes` -/

theorem Memory.tally_set (m : Memory) (votes : VotePtrs) (k : Address) (p : Nat) :
    m.tally (votes.set k p) = Votes.set (m.tally votes) k (m.value p) := by
  induction votes with
  | nil => rfl
  | cons kv rest ih =>
    by_cases h : kv.1 = k
    · simp [VotePtrs.set, Votes.set, Memory.tally, h]
    · simp only [Memory.tally] at ih
      simp [VotePtrs.set, Votes.set, Memory.tally, h, ih]

theorem Memory.tally_get (m : Memory) (votes : VotePtrs) (k : Address) :
    Votes.get (m.tally votes) k = (votes.get k).map m.value := by
  induction votes with
  | nil => rfl
  | cons kv rest ih =>
    unfold Votes.get VotePtrs.get Memory.tally at *
    by_cases h : kv.1 = k
    · simp [List.find?_cons, h]
    · simpa [List.find?_cons, h] using ih

theorem VotePtrs.set_of_get (votes : VotePtrs) (k : Address) (p : Nat)
    (h : votes.get k = some p) : votes.set k p = votes := by
  induction votes with
  | nil => cases h
  | cons kv rest ih =>
    unfold VotePtrs.get at h ih
    by_cases hk : kv.1 = k
    · simp only [List.find?_cons, hk, decide_True, Option.map_some', Option.some.injEq] at h
      unfold VotePtrs.set
      rw [if_pos hk]
      obtain ⟨a, b⟩ := kv
      simp only at hk h
      subst hk h
      rfl
    · simp only [List.find?_cons, hk, decide_False] at h
      unfold VotePtrs.set
      rw [if_neg hk, ih h]

/-- A write to a pointer no key of the map holds leaves the tally as it was. -/
theorem Memory.tally_Add_fresh (m : Memory) (votes : VotePtrs) (z x y : Nat)
    (h : ∀ kv ∈ votes, kv.2 ≠ z) : (m.Add z x y).tally votes = m.tally votes := by
  unfold Memory.tally
  apply List.map_congr_left
  intro kv hkv
  rw [m.value_Add_ne z x y kv.2 (h kv hkv)]

/-- An allocation leaves the tally as it was. -/
theorem Memory.tally_newBigInt (m : Memory) (votes : VotePtrs)
    (h : ∀ kv ∈ votes, kv.2 < m.bigInts.length) : m.newBigInt.2.tally votes = m.tally votes := by
  unfold Memory.tally
  apply List.map_congr_left
  intro kv hkv
  rw [m.value_newBigInt kv.2 (h kv hkv)]

theorem Memory.value_Add_eq (m : Memory) (z x y : Nat) (h : z < m.bigInts.length) :
    (m.Add z x y).value z = m.value x + m.value y := by
  unfold Memory.Add
  simp only [Memory.value]
  rw [List.getElem?_set_self h]
  rfl

/-- A write through the pointer the map holds for `c` changes the tally of `c`
and of no other key, the pointers of the map being distinct. -/
theorem Memory.tally_Add_present (m : Memory) (votes : VotePtrs) (c : Address)
    (score x y : Nat) (hg : votes.get c = some score) (hlt : score < m.bigInts.length)
    (hnd : (votes.map Prod.snd).Nodup) :
    (m.Add score x y).tally votes = Votes.set (m.tally votes) c (m.value x + m.value y) := by
  induction votes with
  | nil => cases hg
  | cons kv rest ih =>
    obtain ⟨hkv, hrest⟩ := List.nodup_cons.mp hnd
    unfold VotePtrs.get at hg ih
    by_cases hk : kv.1 = c
    · simp only [List.find?_cons, hk, decide_True, Option.map_some', Option.some.injEq] at hg
      have hfresh : ∀ w ∈ rest, w.2 ≠ score := by
        intro w hw e
        apply hkv
        rw [hg, ← e]
        exact List.mem_map_of_mem _ hw
      have h1 := m.tally_Add_fresh rest score x y hfresh
      simp only [Memory.tally] at h1
      simp only [Memory.tally, List.map_cons, Votes.set, hk, if_true, h1, hg,
        m.value_Add_eq score x y hlt]
    · simp only [List.find?_cons, hk, decide_False] at hg
      have hne : kv.2 ≠ score := by
        intro e
        apply hkv
        rw [e]
        have := VotePtrs.mem_of_get rest c score hg
        exact List.mem_map_of_mem Prod.snd this
      have h1 := ih hg hrest
      simp only [Memory.tally] at h1
      simp only [Memory.tally, List.map_cons, Votes.set, hk, if_false, h1,
        m.value_Add_ne score x y kv.2 hne]

/-- A map write of a pointer no key holds keeps the pointers distinct. -/
theorem VotePtrs.set_ptrs_nodup (votes : VotePtrs) (k : Address) (p : Nat)
    (hp : p ∉ votes.map Prod.snd) (hnd : (votes.map Prod.snd).Nodup) :
    ((votes.set k p).map Prod.snd).Nodup := by
  induction votes with
  | nil => simp [VotePtrs.set]
  | cons kv rest ih =>
    obtain ⟨hkv, hrest⟩ := List.nodup_cons.mp hnd
    simp only [List.map_cons, List.mem_cons, not_or] at hp
    unfold VotePtrs.set
    by_cases hk : kv.1 = k
    · rw [if_pos hk]
      simp only [List.map_cons]
      exact List.nodup_cons.mpr ⟨hp.2, hrest⟩
    · rw [if_neg hk]
      simp only [List.map_cons]
      refine List.nodup_cons.mpr ⟨?_, ih hp.2 hrest⟩
      intro hmem
      obtain ⟨w, hw, hw2⟩ := List.mem_map.mp hmem
      rcases VotePtrs.mem_set rest k p w hw with h | h
      · exact hkv (hw2 ▸ List.mem_map_of_mem Prod.snd h)
      · rw [h] at hw2
        exact hp.1 hw2

/-- The balance read through the pointer `GetBalance` returns is the balance of
the account in the ledger before the call. -/
theorem Memory.value_GetBalance (m m1 : Memory) (hwf : m.WF)
    (hs : m.sameUpTo m1 m.bigInts.length) (d : Address) :
    m1.GetBalance d < m.bigInts.length ∧
      m1.value (m1.GetBalance d) = ((Dpos.GetBalance m.epochContext.statedb d : Nat) : Int) := by
  obtain ⟨_, _, hb, h0, _, hval⟩ := hs
  obtain ⟨w1, w2, w3⟩ := hwf
  unfold Memory.GetBalance Dpos.GetBalance Memory.epochContext
  rw [hb, h0]
  simp only [List.find?_map]
  have hcomp : ((fun kv : Address × Nat => decide (kv.1 = d)) ∘
      fun kv : Address × Nat => (kv.1, (m.value kv.2).toNat))
      = fun kv : Address × Nat => decide (kv.1 = d) := rfl
  rw [hcomp]
  cases hf : m.balancePtr.find? (fun kv => decide (kv.1 = d)) with
  | none =>
    simp only [Option.map_none']
    exact ⟨w2, by rw [hval _ w2, w3]; rfl⟩
  | some kv =>
    simp only [Option.map_some']
    have hm := w1 kv (List.mem_of_find?_eq_some hf)
    refine ⟨hm.1, ?_⟩
    rw [hval _ hm.1]
    exact (Int.toNat_of_nonneg hm.2).symm

theorem Memory.value_newBigInt_new (m : Memory) :
    m.newBigInt.2.value m.newBigInt.1 = 0 := by
  simp [Memory.value, Memory.newBigInt]

theorem Memory.length_newBigInt (m : Memory) :
    m.newBigInt.2.bigInts.length = m.bigInts.length + 1 := by
  simp [Memory.newBigInt]

theorem Memory.length_Add (m : Memory) (z x y : Nat) :
    (m.Add z x y).bigInts.length = m.bigInts.length := by
  simp [Memory.Add]

/-- The inner loop on the memory computes the tally of the inner loop of
`countVotes`, and keeps the pointers of the map distinct, allocated and apart
from the values that existed before the call. -/
theorem countVotesDelegatorsOn_tally (m0 : Memory) (hwf : m0.WF) (c : Address)
    (ds : List Address) (votes : VotePtrs) (m1 : Memory)
    (hs : m0.sameUpTo m1 m0.bigInts.length)
    (hv : ∀ kv ∈ votes, m0.bigInts.length ≤ kv.2 ∧ kv.2 < m1.bigInts.length)
    (hnd : (votes.map Prod.snd).Nodup) :
    m0.sameUpTo (countVotesDelegatorsOn c ds votes m1).2 m0.bigInts.length ∧
      (∀ kv ∈ (countVotesDelegatorsOn c ds votes m1).1,
        m0.bigInts.length ≤ kv.2 ∧
          kv.2 < (countVotesDelegatorsOn c ds votes m1).2.bigInts.length) ∧
      ((countVotesDelegatorsOn c ds votes m1).1.map Prod.snd).Nodup ∧
      (countVotesDelegatorsOn c ds votes m1).2.tally (countVotesDelegatorsOn c ds votes m1).1
        = countVotesDelegators m0.epochContext.statedb c ds (m1.tally votes) := by
  induction ds generalizing votes m1 with
  | nil => exact ⟨hs, hv, hnd, rfl⟩
  | cons d rest ih =>
    have hn : m0.bigInts.length ≤ m1.bigInts.length := hs.2.2.2.2.1
    rw [countVotesDelegatorsOn, countVotesDelegators]
    try simp only []
    cases hg : votes.get c with
    | some score =>
      try simp only []
      have hsc := hv _ (votes.mem_of_get c score hg)
      have hbal := Memory.value_GetBalance m0 m1 hwf hs d
      rw [votes.set_of_get c score hg]
      have hs2 : m0.sameUpTo (m1.Add score score (m1.GetBalance d)) m0.bigInts.length :=
        m0.sameUpTo_trans _ _ _ hs (m1.sameUpTo_Add _ score score _ hn hsc.1)
      have hstep : (m1.Add score score (m1.GetBalance d)).tally votes
          = Votes.set (m1.tally votes) c
              ((Votes.get (m1.tally votes) c).getD 0
                + ((GetBalance m0.epochContext.statedb d : Nat) : Int)) := by
        rw [m1.tally_Add_present votes c score score _ hg hsc.2 hnd, m1.tally_get, hg,
          hbal.2]
        rfl
      have := ih votes (m1.Add score score (m1.GetBalance d)) hs2
        (by
          intro kv hkv
          rw [Memory.length_Add]
          exact hv kv hkv) hnd
      rw [hstep] at this
      exact this
    | none =>
      try simp only []
      have hs1 : m0.sameUpTo m1.newBigInt.2 m0.bigInts.length :=
        m0.sameUpTo_trans _ _ _ hs (m1.sameUpTo_newBigInt _ hn)
      have hbal := Memory.value_GetBalance m0 m1.newBigInt.2 hwf hs1 d
      have hp : m1.newBigInt.1 = m1.bigInts.length := rfl
      have hs2 : m0.sameUpTo
          (m1.newBigInt.2.Add m1.newBigInt.1 m1.newBigInt.1 (m1.newBigInt.2.GetBalance d))
          m0.bigInts.length :=
        m0.sameUpTo_trans _ _ _ hs1
          (m1.newBigInt.2.sameUpTo_Add _ _ _ _ hs1.2.2.2.2.1 (by rw [hp]; exact hn))
      have hfresh : ∀ kv ∈ votes, kv.2 ≠ m1.newBigInt.1 := by
        intro kv hkv
        have := (hv kv hkv).2
        rw [hp]
        omega
      have hstep : (m1.newBigInt.2.Add m1.newBigInt.1 m1.newBigInt.1
            (m1.newBigInt.2.GetBalance d)).tally (votes.set c m1.newBigInt.1)
          = Votes.set (m1.tally votes) c
              ((Votes.get (m1.tally votes) c).getD 0
                + ((GetBalance m0.epochContext.statedb d : Nat) : Int)) := by
        rw [Memory.tally_set, Memory.tally_Add_fresh _ votes _ _ _ hfresh,
          m1.tally_newBigInt votes (fun kv hkv => (hv kv hkv).2),
          Memory.value_Add_eq _ _ _ _ (by rw [Memory.length_newBigInt, hp]; omega),
          Memory.value_newBigInt_new, hbal.2, m1.tally_get, hg]
        rfl
      have := ih (votes.set c m1.newBigInt.1)
        (m1.newBigInt.2.Add m1.newBigInt.1 m1.newBigInt.1 (m1.newBigInt.2.GetBalance d)) hs2
        (by
          intro kv hkv
          rw [Memory.length_Add, Memory.length_newBigInt]
          rcases votes.mem_set c _ kv hkv with h | h
          · have := hv kv h
            omega
          · rw [h, hp]
            simp only
            omega)
        (votes.set_ptrs_nodup c _
          (by
            intro hmem
            obtain ⟨w, hw, hw2⟩ := List.mem_map.mp hmem
            exact hfresh w hw hw2) hnd)
      rw [hstep] at this
      exact this

/-- The outer loop on the memory computes the tally of the outer loop of
`countVotes`. -/
theorem countVotesLoopOn_tally (m0 : Memory) (hwf : m0.WF) (cs : List Address)
    (votes : VotePtrs) (m1 : Memory)
    (hs : m0.sameUpTo m1 m0.bigInts.length)
    (hv : ∀ kv ∈ votes, m0.bigInts.length ≤ kv.2 ∧ kv.2 < m1.bigInts.length)
    (hnd : (votes.map Prod.snd).Nodup) :
    (countVotesLoopOn m0.store cs votes m1).2.tally (countVotesLoopOn m0.store cs votes m1).1
      = countVotesLoop m0.epochContext cs (m1.tally votes) := by
  induction cs generalizing votes m1 with
  | nil => rfl
  | cons c rest ih =>
    have hn : m0.bigInts.length ≤ m1.bigInts.length := hs.2.2.2.2.1
    have hdc : m0.epochContext.DposContext = m0.store := rfl
    rw [countVotesLoopOn, countVotesLoop, hdc]
    cases hd : m0.store.delegatorsOf c with
    | nil =>
      try simp only []
      have hs1 : m0.sameUpTo m1.newBigInt.2 m0.bigInts.length :=
        m0.sameUpTo_trans _ _ _ hs (m1.sameUpTo_newBigInt _ hn)
      have hp : m1.newBigInt.1 = m1.bigInts.length := rfl
      have hfresh : ∀ kv ∈ votes, kv.2 ≠ m1.newBigInt.1 := by
        intro kv hkv
        have := (hv kv hkv).2
        rw [hp]
        omega
      have hstep : m1.newBigInt.2.tally (votes.set c m1.newBigInt.1)
          = Votes.set (m1.tally votes) c 0 := by
        rw [Memory.tally_set, m1.tally_newBigInt votes (fun kv hkv => (hv kv hkv).2),
          Memory.value_newBigInt_new]
      have := ih (votes.set c m1.newBigInt.1) m1.newBigInt.2 hs1
        (by
          intro kv hkv
          rw [Memory.length_newBigInt]
          rcases votes.mem_set c _ kv hkv with h | h
          · have := hv kv h
            omega
          · rw [h, hp]
            simp only
            omega)
        (votes.set_ptrs_nodup c _
          (by
            intro hmem
            obtain ⟨w, hw, hw2⟩ := List.mem_map.mp hmem
            exact hfresh w hw hw2) hnd)
      rw [hstep] at this
      exact this
    | cons d ds =>
      try simp only []
      obtain ⟨f1, f2, f3, f4⟩ :=
        countVotesDelegatorsOn_tally m0 hwf c (d :: ds) votes m1 hs hv hnd
      have := ih _ _ f1 f2 f3
      rw [f4] at this
      exact this

/-- On a well-formed memory, `countVotes` on the memory returns the error of
`countVotes` and a map whose pointers hold its tally. -/
theorem countVotesOn_tally (m : Memory) (hwf : m.WF) :
    (countVotesOn m).2.tally (countVotesOn m).1.1 = (countVotes m.epochContext).1 ∧
      (countVotesOn m).1.2 = (countVotes m.epochContext).2 := by
  have hdc : m.epochContext.DposContext = m.store := rfl
  unfold countVotesOn countVotes
  rw [hdc]
  cases hc : m.store.candidateTrie with
  | nil => exact ⟨rfl, rfl⟩
  | cons c rest =>
    refine ⟨?_, rfl⟩
    exact countVotesLoopOn_tally m hwf (c :: rest) [] m (m.sameUpTo_refl _ (le_refl _))
      (by intro kv hkv; cases hkv) List.nodup_nil

/-- A memory that holds the ledger and the earlier values of a well-formed memory
is well-formed, shows the same receiver and has the same balances. -/
theorem Memory.WF_of_sameUpTo (m m1 : Memory) (hwf : m.WF)
    (hs : m.sameUpTo m1 m.bigInts.length) :
    m1.WF ∧ m1.epochContext = m.epochContext ∧ ∀ a, m1.balance a = m.balance a := by
  obtain ⟨ht, hst, hb, h0, hlen, hval⟩ := hs
  obtain ⟨w1, w2, w3⟩ := hwf
  refine ⟨⟨?_, ?_, ?_⟩, ?_, ?_⟩
  · intro kv hkv
    rw [hb] at hkv
    have := w1 kv hkv
    exact ⟨by omega, by rw [hval _ this.1]; exact this.2⟩
  · rw [h0]; omega
  · rw [h0, hval _ w2]; exact w3
  · unfold Memory.epochContext
    rw [ht, hst, hb]
    congr 1
    apply List.map_congr_left
    intro kv hkv
    rw [hval _ (w1 kv hkv).1]
  · intro a
    have hp : m1.GetBalance a = m.GetBalance a := by
      unfold Memory.GetBalance
      rw [hb, h0]
    have hlt : m.GetBalance a < m.bigInts.length := by
      unfold Memory.GetBalance
      cases hf : m.balancePtr.find? (fun kv => decide (kv.1 = a)) with
      | none => exact w2
      | some kv => exact (w1 kv (List.mem_of_find?_eq_some hf)).1
    unfold Memory.balance
    rw [hp, hval _ hlt]

/-- C17: `countVotes` and `lookupValidator` are read-only.  On every memory a call
of `countVotes` leaves the store (the Candidates, Delegations, validator-set and
mint-count relations), the ledger and every `big.Int` that existed before the
call as they were: all its writes go to values it has allocated itself.  On a
well-formed memory every ledger balance is therefore unchanged, the map the call
returns holds the tally of `countVotes`, and a second call returns the same
tally.  A call of `lookupValidator` leaves the memory as it was, so repeating
it, also after `countVotes` or on another memory with the same validator list,
returns the same result. -/
theorem read_only_calls (pk : PackageVars) (m : Memory) (now : Int) (blockInterval : Int) :
    (countVotesOn m).2.store = m.store ∧
      (countVotesOn m).2.balancePtr = m.balancePtr ∧
      (countVotesOn m).2.big0 = m.big0 ∧
      (∀ p, p < m.bigInts.length → (countVotesOn m).2.value p = m.value p) ∧
      (m.WF →
        (∀ a, (countVotesOn m).2.balance a = m.balance a) ∧
        (countVotesOn m).2.tally (countVotesOn m).1.1 = (countVotes m.epochContext).1 ∧
        (countVotesOn m).1.2 = (countVotes m.epochContext).2 ∧
        (countVotesOn (countVotesOn m).2).2.tally (countVotesOn (countVotesOn m).2).1.1
          = (countVotesOn m).2.tally (countVotesOn m).1.1) ∧
      (∀ r m1, lookupValidatorOn pk m now blockInterval = some (r, m1) →
        m1 = m ∧ lookupValidatorOn pk m1 now blockInterval = some (r, m1)) ∧
      (lookupValidatorOn pk (countVotesOn m).2 now blockInterval).map Prod.fst
        = (lookupValidatorOn pk m now blockInterval).map Prod.fst ∧
      (∀ m2 : Memory, m2.store.epochTrie = m.store.epochTrie →
        (lookupValidatorOn pk m2 now blockInterval).map Prod.fst
          = (lookupValidatorOn pk m now blockInterval).map Prod.fst) := by
  have hframe := countVotesOn_frame m
  have hdep : ∀ m2 : Memory, m2.store.epochTrie = m.store.epochTrie →
      (lookupValidatorOn pk m2 now blockInterval).map Prod.fst
        = (lookupValidatorOn pk m now blockInterval).map Prod.fst := by
    intro m2 h
    have h1 : lookupValidator pk m2.epochContext now blockInterval
        = lookupValidator pk m.epochContext now blockInterval :=
      (results_depend_on_reads pk m.epochContext m2.epochContext now blockInterval).1 h
    unfold lookupValidatorOn
    rw [h1]
    simp only [Option.map_map]
    rfl
  refine ⟨hframe.2.1, hframe.2.2.1, hframe.2.2.2.1, hframe.2.2.2.2.2, ?_, ?_, ?_, hdep⟩
  · intro hwf
    obtain ⟨hwf1, hec, hbal⟩ := m.WF_of_sameUpTo (countVotesOn m).2 hwf hframe
    obtain ⟨ht1, ht2⟩ := countVotesOn_tally m hwf
    refine ⟨hbal, ht1, ht2, ?_⟩
    rw [(countVotesOn_tally (countVotesOn m).2 hwf1).1, hec, ht1]
  · intro r m1 h
    unfold lookupValidatorOn at h
    cases hl : lookupValidator pk m.epochContext now blockInterval with
    | none => rw [hl] at h; cases h
    | some r1 =>
      rw [hl] at h
      simp only [Option.map_some', Option.some.injEq, Prod.mk.injEq] at h
      obtain ⟨h1, h2⟩ := h
      subst h1 h2
      refine ⟨rfl, ?_⟩
      unfold lookupValidatorOn
      rw [hl]
      rfl
  · exact hdep (countVotesOn m).2 (by rw [hframe.2.1])

/-- Witness of C17 on `sampleMemory`: the call allocates five values, leaves the
balances 7 of `D` and 5 of `E`, and returns the tally 12, 7, 0, 0, 0. -/
theorem read_only_calls_witness :
    (countVotesOn sampleMemory).2.bigInts = [0, 7, 5, 12, 7, 0, 0, 0] ∧
      (countVotesOn sampleMemory).2.tally (countVotesOn sampleMemory).1.1
        = [(addrA, 12), (addrB, 7), (addrC, 0), (addrD, 0), (addrE, 0)] ∧
      (countVotesOn sampleMemory).2.store = sampleMemory.store ∧
      (∀ a, (countVotesOn sampleMemory).2.balance a = sampleMemory.balance a) ∧
      (lookupValidatorOn ⟨30, 0⟩ (countVotesOn sampleMemory).2 40 10).map Prod.fst
        = (lookupValidatorOn ⟨30, 0⟩ sampleMemory 40 10).map Prod.fst :=
  ⟨by decide, by decide,
    (read_only_calls ⟨30, 0⟩ sampleMemory 40 10).1,
    ((read_only_calls ⟨30, 0⟩ sampleMemory 40 10).2.2.2.2.1 (by decide)).1,
    (read_only_calls ⟨30, 0⟩ sampleMemory 40 10).2.2.2.2.2.2.1⟩

end Dpos
